import Mathlib

/-!
# yapdnsbeat: publisher and load-balanced worker

A shallow embedding of `beater/publish.go` (sync and async log publisher, the
ordered batch collector) and of the completion callbacks of
`libbeat/outputs/mode/lb/async_worker.go`, followed by the properties proved
about them.

Conventions of the embedding

* Go pointers to `eventsBatch` records are addresses into `heap`, the list of
  all records allocated so far; a record is allocated by `Start` for every
  accepted batch, so addresses follow submission order.
* Channel sends and calls into the publisher client are recorded in a log of
  effects, oldest first.  The log also keeps a ghost entry for every record
  that `collect` unlinks, together with the flag value it loaded.
* The `select` that races `p.done` against `p.out <- batch.events` is resolved
  by a parameter `done : Nat → Bool` telling, for the record being forwarded,
  whether the `p.done` arm wins.
* Loops over the linked list take a fuel argument; `collect` supplies the
  number of allocated records, which is enough for every well formed queue.
* A pass of `collect` is one step of a run.  A pass loads the flag of a record
  at most once and a signal stores into one flag only, so a signal that
  arrives during a pass acts as if it had arrived before the pass (the record
  was not yet visited) or after it.
-/

namespace Yapdnsbeat

/-! ## Data model of `beater/publish.go` -/

/-- An `input.FileEvent`: the publisher reads only `Bytes`; `Line` stands for
the rest of the record. -/
structure FileEvent where
  Bytes : Int
  Line : Nat
deriving DecidableEq, Repr

/-- Modelled from the spec: `common.MapStr` and `FileEvent.ToMapStr` are not
among the sources; the wire form of an event is kept symbolic, as the image of
the event it was built from. -/
structure MapStr where
  src : FileEvent
deriving DecidableEq, Repr

/-- Modelled from the spec: `event.ToMapStr()`, the conversion of an event to
its wire form (see `MapStr`). -/
def FileEvent.ToMapStr (e : FileEvent) : MapStr := ⟨e⟩

/-- The `batchStatus` constants, in `iota` order. -/
inductive batchStatus where
  | batchInProgress
  | batchSuccess
  | batchFailed
  | batchCanceled
deriving DecidableEq, Repr

open batchStatus

/-- The `eventsBatch` record: link to the next record, status flag, events. -/
structure eventsBatch where
  next : Option Nat
  flag : batchStatus
  events : List FileEvent
deriving DecidableEq, Repr

/-- The `batchList`: pointers to the first and the last in-flight record. -/
structure batchList where
  head : Option Nat
  tail : Option Nat
deriving DecidableEq, Repr

/-- What the async publisher does to the outside, and (ghost) to its queue. -/
inductive Effect where
  /-- call of `p.client.PublishEvents(pubEvents, publisher.Signal(batch), ...)` -/
  | publish (payload : List MapStr) (batch : Nat)
  /-- ghost: `collect` loaded `state` from record `batch` and unlinked it -/
  | unlink (batch : Nat) (state : batchStatus)
  /-- channel send `p.out <- batch.events` -/
  | send (batch : Nat) (events : List FileEvent)
deriving DecidableEq, Repr

/-- The `asyncLogPublisher` with the memory it points into and the log of its
effects.  `client`, `in`, `out`, `done` and `wg` appear through `log` and
through the parameters of the operations. -/
structure asyncLogPublisher where
  heap : List eventsBatch
  active : batchList
  stopping : Bool
  log : List Effect
deriving DecidableEq, Repr

/-- How a call ends. -/
inductive Outcome where
  /-- normal return, with the returned boolean -/
  | returned (b : Bool)
  /-- abort by `panic(msg)` -/
  | panicked
  /-- nil or dangling pointer dereference -/
  | fault
  /-- the fuel of the model ran out -/
  | exhausted
deriving DecidableEq, Repr

/-- State of `newAsyncLogPublisher`: empty list, not stopping. -/
def newAsyncLogPublisher : asyncLogPublisher :=
  { heap := [], active := { head := none, tail := none }, stopping := false, log := [] }

/-! ## Operations of the async publisher -/

/-- Method `eventsBatch.Completed`: store `batchSuccess`. -/
def eventsBatch.Completed (b : eventsBatch) : eventsBatch := { b with flag := batchSuccess }

/-- Method `eventsBatch.Failed`: store `batchFailed`. -/
def eventsBatch.Failed (b : eventsBatch) : eventsBatch := { b with flag := batchFailed }

/-- Method `eventsBatch.Canceled`: store `batchCanceled`. -/
def eventsBatch.Canceled (b : eventsBatch) : eventsBatch := { b with flag := batchCanceled }

/-- Method `batchList.append` applied to `p.active` and the record at address `b`.
`none` is the nil dereference of `l.tail.next` (or a dangling `b`). -/
def asyncLogPublisher.append (p : asyncLogPublisher) (b : Nat) : Option asyncLogPublisher :=
  let linked : Option (List eventsBatch × Option Nat) :=
    if p.active.head = none then
      some (p.heap, some b)
    else
      match p.active.tail with
      | none => none
      | some t =>
        match p.heap[t]? with
        | none => none
        | some r => some (p.heap.set t { r with next := some b }, p.active.head)
  match linked with
  | none => none
  | some (heap1, head1) =>
    match heap1[b]? with
    | none => none
    | some r =>
      some { p with heap := heap1.set b { r with next := none },
                    active := { head := head1, tail := some b } }

/-- The loop of `collect`, entered with loop variable `batch`. -/
def collectLoop (done : Nat → Bool) :
    Nat → Option Nat → asyncLogPublisher → Outcome × asyncLogPublisher
  | _, none, p => (Outcome.returned true, p)
  | 0, some _, p => (Outcome.exhausted, p)
  | fuel + 1, some b, p =>
    match p.heap[b]? with
    | none => (Outcome.fault, p)
    | some batch =>
      let state := batch.flag
      if state = batchInProgress ∧ p.stopping = false then
        (Outcome.returned true, p)
      else if state = batchFailed then
        (Outcome.panicked, p)
      else
        let p1 : asyncLogPublisher :=
          { p with
            active := { head := batch.next,
                        tail := if batch.next = none then none else p.active.tail },
            log := p.log ++ [Effect.unlink b state] }
        let p2 : asyncLogPublisher :=
          if state = batchCanceled then { p1 with stopping := true } else p1
        if p2.stopping = true then
          collectLoop done fuel batch.next p2
        else if done b = true then
          (Outcome.returned false, p2)
        else
          collectLoop done fuel batch.next
            { p2 with log := p2.log ++ [Effect.send b batch.events] }

/-- Method `asyncLogPublisher.collect`: one pass over the in-flight list. -/
def asyncLogPublisher.collect (done : Nat → Bool) (p : asyncLogPublisher) :
    Outcome × asyncLogPublisher :=
  collectLoop done p.heap.length p.active.head p

/-- The `case events := <-p.in` arm of the loop of `asyncLogPublisher.Start`,
up to and including `p.active.append(batch)`. -/
def asyncLogPublisher.StartInput (p : asyncLogPublisher) (events : List FileEvent) :
    Option asyncLogPublisher :=
  let pubEvents := events.map FileEvent.ToMapStr
  let batch := p.heap.length
  let p1 : asyncLogPublisher :=
    { p with heap := p.heap ++ [{ next := none, flag := batchInProgress, events := events }],
             log := p.log ++ [Effect.publish pubEvents batch] }
  p1.append batch

/-- The three methods of the signaler interface of `eventsBatch`. -/
inductive Signal where
  | Completed
  | Failed
  | Canceled
deriving DecidableEq, Repr

/-- The status a signal stores. -/
def Signal.apply : Signal → eventsBatch → eventsBatch
  | Signal.Completed, b => b.Completed
  | Signal.Failed, b => b.Failed
  | Signal.Canceled, b => b.Canceled

/-- A signal arrives for the record at address `b`. -/
def asyncLogPublisher.signal (p : asyncLogPublisher) (b : Nat) (s : Signal) :
    asyncLogPublisher :=
  match p.heap[b]? with
  | none => p
  | some r => { p with heap := p.heap.set b (s.apply r) }

/-- One step of the publisher and its environment. -/
inductive Step where
  /-- a batch arrives on `p.in`: publish, allocate, append -/
  | accept (events : List FileEvent)
  /-- the publish pipeline invokes a signaler method of a record -/
  | signal (batch : Nat) (s : Signal)
  /-- one call of `p.collect()` -/
  | collect (done : Nat → Bool)

/-- Effect of one step. -/
def asyncLogPublisher.step (p : asyncLogPublisher) : Step → Outcome × asyncLogPublisher
  | Step.accept events =>
    match p.StartInput events with
    | none => (Outcome.fault, p)
    | some p1 => (Outcome.returned true, p1)
  | Step.signal b s => (Outcome.returned true, p.signal b s)
  | Step.collect done => p.collect done

/-- Run a sequence of steps; the run ends at the first step that does not
return (the result of `collect` is ignored by `Start`). -/
def asyncLogPublisher.run (p : asyncLogPublisher) : List Step → asyncLogPublisher
  | [] => p
  | s :: rest =>
    match p.step s with
    | (Outcome.returned _, p1) => run p1 rest
    | (_, p1) => p1

/-- Addresses of the records linked from `batch`, in list order. -/
def chain (heap : List eventsBatch) : Nat → Option Nat → List Nat
  | _, none => []
  | 0, some _ => []
  | fuel + 1, some b =>
    match heap[b]? with
    | none => [b]
    | some r => b :: chain heap fuel r.next

/-- The in-flight queue: the records reachable from `p.active.head`. -/
def asyncLogPublisher.queue (p : asyncLogPublisher) : List Nat :=
  chain p.heap p.heap.length p.active.head

/-- Flag of the record at address `b` (`batchInProgress` if there is none). -/
def asyncLogPublisher.flagOf (p : asyncLogPublisher) (b : Nat) : batchStatus :=
  match p.heap[b]? with
  | none => batchInProgress
  | some r => r.flag

/-- Addresses of the records sent on `p.out`, oldest first. -/
def sentBatches : List Effect → List Nat
  | [] => []
  | Effect.send b _ :: rest => b :: sentBatches rest
  | _ :: rest => sentBatches rest

/-- The batches delivered on `p.out`, oldest first. -/
def delivered : List Effect → List (List FileEvent)
  | [] => []
  | Effect.send _ ev :: rest => ev :: delivered rest
  | _ :: rest => delivered rest

/-- Addresses of the records unlinked, oldest first. -/
def unlinkedBatches : List Effect → List Nat
  | [] => []
  | Effect.unlink b _ :: rest => b :: unlinkedBatches rest
  | _ :: rest => unlinkedBatches rest

/-- The batches submitted by a sequence of steps, in order. -/
def submitted : List Step → List (List FileEvent)
  | [] => []
  | Step.accept ev :: rest => ev :: submitted rest
  | _ :: rest => submitted rest

/-- State after `collect` unlinked record `b` holding `r`. -/
def asyncLogPublisher.drop (p : asyncLogPublisher) (b : Nat) (r : eventsBatch) :
    asyncLogPublisher :=
  { heap := p.heap,
    active := { head := r.next, tail := if r.next = none then none else p.active.tail },
    stopping := p.stopping || decide (r.flag = batchCanceled),
    log := p.log ++ [Effect.unlink b r.flag] }

/-- State after `collect` sent the events of record `b` on `p.out`. -/
def asyncLogPublisher.forward (p : asyncLogPublisher) (b : Nat) (r : eventsBatch) :
    asyncLogPublisher :=
  { p with log := p.log ++ [Effect.send b r.events] }


/-- No record is sent after a canceled record was unlinked. -/
def quietAfterCancel (e₁ e₂ : Effect) : Prop :=
  (∃ a, e₁ = Effect.unlink a batchCanceled) → ∀ b ev, e₂ ≠ Effect.send b ev

/-- What holds of the effects `ext` of a run of the loop of `collect` from `p`
that ends in `q`, whatever the shape of the memory. -/
structure PassSound (p q : asyncLogPublisher) (ext : List Effect) : Prop where
  log_eq : q.log = p.log ++ ext
  heap_eq : q.heap = p.heap
  stop_mono : p.stopping = true → q.stopping = true
  sent : ∀ a ev, Effect.send a ev ∈ ext → p.stopping = false ∧
    Effect.unlink a batchSuccess ∈ ext ∧
    ∃ r, p.heap[a]? = some r ∧ r.flag = batchSuccess ∧ r.events = ev
  cancel_stops : ∀ a, Effect.unlink a batchCanceled ∈ ext → q.stopping = true
  quiet : ext.Pairwise quietAfterCancel
  unlinked : ∀ pre a st post, ext = pre ++ Effect.unlink a st :: post →
    p.flagOf a = st ∧ st ≠ batchFailed ∧
    (st = batchInProgress → p.stopping = true ∨ ∃ c, Effect.unlink c batchCanceled ∈ pre)


/-- Address of the first in-flight record, or the number of allocated records
when the list is empty: the number of records unlinked so far. -/
def asyncLogPublisher.front (p : asyncLogPublisher) : Nat :=
  match p.active.head with
  | some a => a
  | none => p.heap.length

/-- Shape of the in-flight list in every state the publisher reaches (see
`Ordered.run`): the list holds the records from `front` to the last allocated
one, each linked to its successor, and `tail` points to the last allocated
record.  Flags, events, the stopping flag and the log are not constrained. -/
structure WellFormed (p : asyncLogPublisher) : Prop where
  head_lt : ∀ b, p.active.head = some b → b < p.heap.length
  tail_eq : p.active.tail =
    if p.active.head = none then none else some (p.heap.length - 1)
  next_eq : ∀ a r, p.front ≤ a → p.heap[a]? = some r →
    r.next = if a + 1 < p.heap.length then some (a + 1) else none

/-- What holds of a run of the loop of `collect` from a well formed state `p`
with result `res` and effects `ext`. -/
structure PassOrdered (p : asyncLogPublisher) (res : Outcome × asyncLogPublisher)
    (ext : List Effect) : Prop where
  total : res.1 = Outcome.panicked ∨ ∃ b, res.1 = Outcome.returned b
  wf : WellFormed res.2
  front_le : p.front ≤ res.2.front
  unlinked_eq : unlinkedBatches ext = List.range' p.front (res.2.front - p.front)
  sent_bounds : ∀ a ∈ sentBatches ext, p.front ≤ a ∧ a < res.2.front
  sent_sorted : (sentBatches ext).Pairwise (· < ·)
  sent_after : ∀ a ∈ sentBatches ext, ∀ b, p.front ≤ b → b < a → p.flagOf b = batchSuccess
  done_success : res.2.stopping = false →
    ∀ a, p.front ≤ a → a < res.2.front → p.flagOf a = batchSuccess
  panic_head : res.1 = Outcome.panicked →
    ∃ i, res.2.active.head = some i ∧ p.flagOf i = batchFailed

/-- Invariant of the runs of the async publisher: the list is well formed,
the records sent so far were sent in address order and have left the list,
and while the publisher is not stopping no record that left the list is in
progress. -/
structure Ordered (p : asyncLogPublisher) : Prop where
  wf : WellFormed p
  sent_lt : ∀ a ∈ sentBatches p.log, a < p.front
  sent_sorted : (sentBatches p.log).Pairwise (· < ·)
  sent_events : ∀ a ev, Effect.send a ev ∈ p.log →
    ∃ r, p.heap[a]? = some r ∧ r.events = ev
  settled : p.stopping = false → ∀ a, a < p.front → p.flagOf a ≠ batchInProgress

/-- The effects of one call of `collect` in state `p`. -/
def passLog (done : Nat → Bool) (p : asyncLogPublisher) : List Effect :=
  (p.collect done).2.log.drop p.log.length

/-- Relation between a well formed state `p` and the state `q` after
`StartInput` accepted the batch `ev`. -/
structure Accepted (p : asyncLogPublisher) (ev : List FileEvent)
    (q : asyncLogPublisher) : Prop where
  length_eq : q.heap.length = p.heap.length + 1
  head_eq : q.active.head = some p.front
  tail_eq : q.active.tail = some p.heap.length
  stopping_eq : q.stopping = p.stopping
  log_eq : q.log = p.log ++ [Effect.publish (ev.map FileEvent.ToMapStr) p.heap.length]
  fresh : q.heap[p.heap.length]? =
    some { next := none, flag := batchInProgress, events := ev }
  old : ∀ a r, p.heap[a]? = some r → ∃ r', q.heap[a]? = some r' ∧
    r'.flag = r.flag ∧ r'.events = r.events ∧ (p.front ≤ a → r'.next = some (a + 1))

/-- A resolution of the `select` in which `p.done` never wins. -/
def noCancel : Nat → Bool := fun _ => false

/-- The scan of `collect` over the addresses `q`, with flags `fl` and the
stopping flag `stopping` at its start, reaches a failed record: some record of
`q` is failed, and every record before it that is in progress is met while
stopping (the flag was set at the start, or a canceled record comes earlier). -/
def reachesFailed (fl : Nat → batchStatus) (stopping : Bool) (q : List Nat) : Prop :=
  ∃ pre i post, q = pre ++ i :: post ∧ fl i = batchFailed ∧
    ∀ pre₁ j pre₂, pre = pre₁ ++ j :: pre₂ → fl j = batchInProgress →
      stopping = true ∨ ∃ k ∈ pre₁, fl k = batchCanceled

/-- Two batches are accepted, each followed by the pass of `collect` that
`Start` runs after it. -/
def twoAccepted : List Step :=
  [Step.accept [⟨3, 1⟩], Step.collect noCancel, Step.accept [⟨5, 2⟩], Step.collect noCancel]

/-- Two batches in flight, the first completed. -/
def sampleSuccess : asyncLogPublisher :=
  newAsyncLogPublisher.run (twoAccepted ++ [Step.signal 0 Signal.Completed])

/-- Two batches accepted, the first canceled, the second completed, then a pass
of `collect`. -/
def canceledRun : List Step :=
  twoAccepted ++
    [Step.signal 0 Signal.Canceled, Step.signal 1 Signal.Completed, Step.collect noCancel]

/-- Two batches in flight, the first canceled, the second still in progress. -/
def samplePending : asyncLogPublisher :=
  newAsyncLogPublisher.run (twoAccepted ++ [Step.signal 0 Signal.Canceled])

/-- Two batches in flight, the first completed, the second failed. -/
def sampleFailed : asyncLogPublisher :=
  newAsyncLogPublisher.run
    (twoAccepted ++ [Step.signal 0 Signal.Completed, Step.signal 1 Signal.Failed])

/-- The scenario of three batches: `B1` (two events), `B2` (three events) and
`B3` (one event) are accepted in this order; `B1` and `B3` complete, a pass
runs, then `B2` completes and a pass runs. -/
def threeBatches : List Step :=
  [Step.accept [⟨1, 11⟩, ⟨1, 12⟩], Step.collect noCancel,
   Step.accept [⟨1, 21⟩, ⟨1, 22⟩, ⟨1, 23⟩], Step.collect noCancel,
   Step.accept [⟨1, 31⟩], Step.collect noCancel,
   Step.signal 0 Signal.Completed, Step.signal 2 Signal.Completed, Step.collect noCancel,
   Step.signal 1 Signal.Completed, Step.collect noCancel]

/-! ## The sync publisher -/

/-- What the sync publisher does to the outside. -/
inductive SyncEffect where
  /-- call of `p.client.PublishEvents(pubEvents, publisher.Sync, publisher.Guaranteed)` -/
  | publish (payload : List MapStr)
  /-- channel send `p.out <- events` -/
  | send (events : List FileEvent)
deriving DecidableEq, Repr

/-- The loop of `syncLogPublisher.Start` that fills `pubEvents`: an event is
appended when `event.Bytes > 0`. -/
def pubEventsLoop : List FileEvent → List MapStr → List MapStr
  | [], pubEvents => pubEvents
  | event :: rest, pubEvents =>
    if event.Bytes > 0 then pubEventsLoop rest (pubEvents ++ [event.ToMapStr])
    else pubEventsLoop rest pubEvents

/-- One turn of the loop of `syncLogPublisher.Start`.  `input` is the outcome
of the first `select` (`none` when `p.done` wins, else the batch read from
`p.in`), `done` tells whether `p.done` wins the second `select`.  The result
says whether the loop goes on, and gives the log of effects. -/
def syncLogPublisher.StartTurn (log : List SyncEffect) (input : Option (List FileEvent))
    (done : Bool) : Bool × List SyncEffect :=
  match input with
  | none => (false, log)
  | some events =>
    let pubEvents := pubEventsLoop events []
    let log1 := log ++ [SyncEffect.publish pubEvents]
    if done = true then (false, log1)
    else (true, log1 ++ [SyncEffect.send events])

/-! ## Data model of `lb/async_worker.go` -/

/-- Error values handed to the completion callbacks (the nil error is `none`
of `Option PublishError`); `ErrTempBulkFailure` is `mode.ErrTempBulkFailure`. -/
inductive PublishError where
  | ErrTempBulkFailure
  | other (code : Nat)
deriving DecidableEq, Repr

open PublishError

/-- The fields of `eventsMessage` that the worker uses. -/
structure eventsMessage where
  worker : Int
  attemptsLeft : Int
  signaler : Nat
  event : Option MapStr
  events : List MapStr
deriving DecidableEq, Repr

/-- The field of `context` that the completion callbacks read. -/
structure context where
  maxAttempts : Int
deriving DecidableEq, Repr

/-- The `asyncWorker`: its id and its context (client and backoff are not
used by the completion callbacks). -/
structure asyncWorker where
  id : Int
  ctx : context
deriving DecidableEq, Repr

/-- The calls a completion callback makes into the context and the signaler. -/
inductive WorkerCall where
  /-- call of `w.ctx.tryPushFailed(msg)`, with the boolean it answered -/
  | tryPushFailed (msg : eventsMessage) (answer : Bool)
  /-- spawned call `go w.ctx.pushFailed(msg)` -/
  | pushFailed (msg : eventsMessage)
  /-- call of `dropping(msg)` -/
  | dropping (msg : eventsMessage)
  /-- call of `op.SigCompleted(msg.signaler)` -/
  | SigCompleted (signaler : Nat)
deriving DecidableEq, Repr

/-- Method `asyncWorker.onFail`; `tryPush` is the answer of
`w.ctx.tryPushFailed`. -/
def asyncWorker.onFail (_w : asyncWorker) (tryPush : eventsMessage → Bool)
    (msg : eventsMessage) (_err : PublishError) : List WorkerCall :=
  if tryPush msg = false then
    [WorkerCall.tryPushFailed msg false, WorkerCall.pushFailed msg]
  else
    [WorkerCall.tryPushFailed msg true]

/-- The callback returned by `asyncWorker.handleResults(msg)`, applied to the
failed events and the error of a bulk completion. -/
def asyncWorker.handleResults (w : asyncWorker) (tryPush : eventsMessage → Bool)
    (msg : eventsMessage) (events : List MapStr) (err : Option PublishError) :
    List WorkerCall :=
  let total := msg.events.length
  match err with
  | some e =>
    let msg1 : eventsMessage :=
      if msg.attemptsLeft > 0 then { msg with attemptsLeft := msg.attemptsLeft - 1 } else msg
    let msg2 : eventsMessage :=
      if events.length < total ∧ msg1.attemptsLeft ≥ 0 then
        { msg1 with attemptsLeft := w.ctx.maxAttempts }
      else msg1
    if e ≠ ErrTempBulkFailure then
      w.onFail tryPush { msg2 with events := events } e
    else if w.ctx.maxAttempts > 0 ∧ msg2.attemptsLeft = 0 then
      [WorkerCall.dropping msg2]
    else
      w.onFail tryPush { msg2 with events := events } e
  | none =>
    if events.length ≠ 0 then
      [WorkerCall.pushFailed { msg with events := events }]
    else
      [WorkerCall.SigCompleted msg.signaler]

/-- Modelled from the spec: the retry channel of the distribution context
(`context.tryPushFailed` and `context.pushFailed` are not among the sources).
The non-blocking attempt `tryPushFailed` puts the message into the retry
channel when it answers `true`; when the channel is full it answers `false`
and puts nothing back.  The handed-off `pushFailed` puts the message into the
channel.  This is the message a list of calls puts back, if any. -/
def requeued : List WorkerCall → Option eventsMessage
  | [] => none
  | WorkerCall.tryPushFailed m true :: _ => some m
  | WorkerCall.tryPushFailed _ false :: rest => requeued rest
  | WorkerCall.pushFailed m :: _ => some m
  | _ :: rest => requeued rest

/-- One round of bulk dispatch: the message sent, what the completion
reported, and the calls the callback made. -/
structure Round where
  input : eventsMessage
  failed : List MapStr
  err : Option PublishError
  calls : List WorkerCall
deriving DecidableEq, Repr

/-- Modelled from the spec: repeated bulk dispatch of one message.  The worker
receives the message (`sendLoop` sets `msg.worker`), `onMessage` sends
`msg.events` with the callback `handleResults(msg)`, the client completes the
send as `client` tells for this round, and a message put back into the retry
channel is dispatched again.  The result lists the rounds, at most `fuel`. -/
def bulkRounds (w : asyncWorker) (tryPush : eventsMessage → Bool)
    (client : Nat → eventsMessage → List MapStr × Option PublishError) :
    Nat → Nat → eventsMessage → List Round
  | 0, _, _ => []
  | fuel + 1, i, msg =>
    let msg1 : eventsMessage := { msg with worker := w.id }
    let answer := client i msg1
    let calls := w.handleResults tryPush msg1 answer.1 answer.2
    let round : Round := { input := msg1, failed := answer.1, err := answer.2, calls := calls }
    match requeued calls with
    | none => [round]
    | some m => round :: bulkRounds w tryPush client fuel (i + 1) m

/-- A client whose bulk completion always reports the whole input as failed,
with `ErrTempBulkFailure`. -/
def alwaysFails : Nat → eventsMessage → List MapStr × Option PublishError :=
  fun _ msg => (msg.events, some ErrTempBulkFailure)

/-- A client whose bulk completion reports all events but the first as failed,
with `ErrTempBulkFailure` as long as some event is left. -/
def oneByOne : Nat → eventsMessage → List MapStr × Option PublishError :=
  fun _ msg => (msg.events.drop 1, if msg.events.length ≤ 1 then none else some ErrTempBulkFailure)

/-- A bulk message of `n` events with `attemptsLeft = k`. -/
def sampleMessage (n : Nat) (k : Int) : eventsMessage :=
  { worker := 0, attemptsLeft := k, signaler := 7, event := none,
    events := (List.range n).map (fun i => (⟨⟨1, i⟩⟩ : MapStr)) }

/-- A worker with `maxAttempts = k`. -/
def sampleWorker (k : Int) : asyncWorker := { id := 1, ctx := { maxAttempts := k } }

/-- The calls by which a failed message re-enters the retry channel, as section
4.4 of the spec describes them, given the answers `tryPush` of the
non-blocking attempt: the attempt alone when it answers `true`; when it answers
`false` (the channel is full), the attempt followed by the handed-off
`pushFailed`. -/
def retryCalls (tryPush : eventsMessage → Bool) (m : eventsMessage) : List WorkerCall :=
  if tryPush m = false then [WorkerCall.tryPushFailed m false, WorkerCall.pushFailed m]
  else [WorkerCall.tryPushFailed m true]

/-- A round of bulk dispatch that puts the message back.  The message put back
holds exactly the failed events reported; without an error the round makes the
single call `pushFailed`, with an error it makes the calls `retryCalls`; the
attempts counter of the message put back is not below the counter of the
message dispatched, it is `K` when an error was reported and unchanged
otherwise; the round neither drops nor signals success. -/
def putsBack (K : Int) (tryPush : eventsMessage → Bool) (r : Round) : Prop :=
  ∃ m, requeued r.calls = some m ∧ m.events = r.failed ∧
    (r.err = none → r.calls = [WorkerCall.pushFailed m]) ∧
    (r.err ≠ none → r.calls = retryCalls tryPush m) ∧
    r.input.attemptsLeft ≤ m.attemptsLeft ∧
    (r.err ≠ none → m.attemptsLeft = K) ∧
    (r.err = none → m.attemptsLeft = r.input.attemptsLeft) ∧
    (∀ m', WorkerCall.dropping m' ∉ r.calls) ∧
    ∀ s, WorkerCall.SigCompleted s ∉ r.calls

/-- The callback returned by `asyncWorker.handleResult(msg)`, applied to the
error of a single-event completion. -/
def asyncWorker.handleResult (w : asyncWorker) (tryPush : eventsMessage → Bool)
    (msg : eventsMessage) (err : Option PublishError) : List WorkerCall :=
  match err with
  | some e =>
    let msg1 : eventsMessage :=
      if msg.attemptsLeft > 0 then { msg with attemptsLeft := msg.attemptsLeft - 1 } else msg
    w.onFail tryPush msg1 e
  | none => [WorkerCall.SigCompleted msg.signaler]

/-- Method `asyncWorker.onMessage`, after the call of `AsyncPublishEvent` or
`AsyncPublishEvents` has returned `err`: the calls it makes itself. -/
def asyncWorker.onMessage (w : asyncWorker) (tryPush : eventsMessage → Bool)
    (msg : eventsMessage) (err : Option PublishError) : List WorkerCall :=
  match err with
  | some e =>
    let msg1 : eventsMessage :=
      if msg.attemptsLeft > 0 then { msg with attemptsLeft := msg.attemptsLeft - 1 } else msg
    w.onFail tryPush msg1 e
  | none => []

/-- The message a call carries, if any. -/
def WorkerCall.message : WorkerCall → Option eventsMessage
  | WorkerCall.tryPushFailed m _ => some m
  | WorkerCall.pushFailed m => some m
  | WorkerCall.dropping m => some m
  | WorkerCall.SigCompleted _ => none

/-- The attempts counter of a message after the decrement and the reset that a
bulk completion with an error applies, when `events` are reported as failed. -/
def attemptsAfter (w : asyncWorker) (msg : eventsMessage) (events : List MapStr) : Int :=
  let decremented : Int := if msg.attemptsLeft > 0 then msg.attemptsLeft - 1 else msg.attemptsLeft
  if events.length < msg.events.length ∧ decremented ≥ 0 then w.ctx.maxAttempts
  else decremented

/-- Method `asyncWorker.connect`.  `Connect i` is the error of the `i`-th call
of `w.client.Connect` (`none` for nil), `WaitOnError i err` the answer of the
`i`-th call of `w.backoff.WaitOnError`.  The result is the boolean returned,
or `none` when the loop has not returned within `fuel` attempts. -/
def asyncWorker.connect (Connect : Nat → Option PublishError)
    (WaitOnError : Nat → Option PublishError → Bool) : Nat → Nat → Option Bool
  | 0, _ => none
  | fuel + 1, i =>
    let err := Connect i
    if (!WaitOnError i err) = true then some true
    else if err = none then some false
    else connect Connect WaitOnError fuel (i + 1)

/-- Modelled from the spec: the contract of `waitOnError` as section 4.1 states
it (the Backoff is not among the sources): `false` on a nil error; on an
error, `true` exactly when cancellation fires during the wait.  `cancelled i`
tells whether cancellation fires during the `i`-th wait. -/
def specWaitOnError (cancelled : Nat → Bool) (i : Nat) (err : Option PublishError) : Bool :=
  match err with
  | none => false
  | some _ => cancelled i

/-- A single-event message with `attemptsLeft = k`. -/
def sampleSingle (k : Int) : eventsMessage :=
  { worker := 0, attemptsLeft := k, signaler := 7, event := some ⟨⟨1, 0⟩⟩, events := [] }

/-- Events of the record at address `b` (none if there is no such record). -/
def asyncLogPublisher.eventsOf (p : asyncLogPublisher) (b : Nat) : List FileEvent :=
  match p.heap[b]? with
  | none => []
  | some r => r.events

/-- What holds of a run of the loop of `collect` from a well formed state `p`
with result `res` and effects `ext` when `p.done` never wins a `select`. -/
structure NoCancelPass (p : asyncLogPublisher) (res : Outcome × asyncLogPublisher)
    (ext : List Effect) : Prop where
  outcome : res.1 = Outcome.panicked ∨ res.1 = Outcome.returned true
  delivered_eq : delivered ext = (sentBatches ext).map p.eventsOf
  stop_sent : p.stopping = true → sentBatches ext = []
  stop_keep : p.stopping = true → res.2.stopping = true
  sent_range : p.stopping = false →
    ∃ k, sentBatches ext = List.range' p.front k ∧
      (res.2.stopping = false → p.front + k = res.2.front)
  stop_cause : res.2.stopping = true →
    p.stopping = true ∨
      ∃ a, p.front ≤ a ∧ a < p.heap.length ∧ p.flagOf a = batchCanceled
  head_pending : res.1 = Outcome.returned true → res.2.stopping = false →
    ∀ b, res.2.active.head = some b → p.flagOf b = batchInProgress

/-- Every `collect` step of the list is one in which `p.done` never wins a
`select`. -/
def neverCancels (steps : List Step) : Prop :=
  ∀ s ∈ steps, ∀ done, s = Step.collect done → ∀ b, done b = false

/-- Two batches are accepted and complete; `p.done` wins the `select` while the
first is forwarded; in the next pass the send wins. -/
def gapRun : List Step :=
  twoAccepted ++
    [Step.signal 0 Signal.Completed, Step.signal 1 Signal.Completed,
     Step.collect (fun b => decide (b = 0)), Step.collect noCancel]
theorem collectLoop_succ (done : Nat → Bool) (fuel b : Nat) (p : asyncLogPublisher)
    (r : eventsBatch) (h : p.heap[b]? = some r) :
    collectLoop done (fuel + 1) (some b) p =
      if r.flag = batchInProgress ∧ p.stopping = false then (Outcome.returned true, p)
      else if r.flag = batchFailed then (Outcome.panicked, p)
      else if (p.drop b r).stopping = true then collectLoop done fuel r.next (p.drop b r)
      else if done b = true then (Outcome.returned false, p.drop b r)
      else collectLoop done fuel r.next ((p.drop b r).forward b r) := by
  simp only [collectLoop, h]
  rcases hf : r.flag <;> rcases hs : p.stopping <;>
    simp [asyncLogPublisher.drop, asyncLogPublisher.forward, hf, hs]

theorem collectLoop_induct (done : Nat → Bool)
    (motive : Nat → Option Nat → asyncLogPublisher → Outcome × asyncLogPublisher → Prop)
    (ret : ∀ fuel p, motive fuel none p (Outcome.returned true, p))
    (out : ∀ b p, motive 0 (some b) p (Outcome.exhausted, p))
    (dangling : ∀ fuel b p, p.heap[b]? = none →
      motive (fuel + 1) (some b) p (Outcome.fault, p))
    (brk : ∀ fuel b p r, p.heap[b]? = some r → r.flag = batchInProgress →
      p.stopping = false → motive (fuel + 1) (some b) p (Outcome.returned true, p))
    (pnc : ∀ fuel b p r, p.heap[b]? = some r → r.flag = batchFailed →
      motive (fuel + 1) (some b) p (Outcome.panicked, p))
    (skip : ∀ fuel b p r res, p.heap[b]? = some r →
      (r.flag = batchInProgress → p.stopping = true) → r.flag ≠ batchFailed →
      (p.drop b r).stopping = true →
      motive fuel r.next (p.drop b r) res → motive (fuel + 1) (some b) p res)
    (cancel : ∀ fuel b p r, p.heap[b]? = some r → r.flag = batchSuccess →
      p.stopping = false → done b = true →
      motive (fuel + 1) (some b) p (Outcome.returned false, p.drop b r))
    (fwd : ∀ fuel b p r res, p.heap[b]? = some r → r.flag = batchSuccess →
      p.stopping = false → done b = false →
      motive fuel r.next ((p.drop b r).forward b r) res →
      motive (fuel + 1) (some b) p res) :
    ∀ fuel b p, motive fuel b p (collectLoop done fuel b p) := by
  intro fuel
  induction fuel with
  | zero =>
    intro b p
    cases b with
    | none => exact ret 0 p
    | some b => exact out b p
  | succ fuel ih =>
    intro b p
    cases b with
    | none => exact ret (fuel + 1) p
    | some b =>
      cases h : p.heap[b]? with
      | none =>
        have : collectLoop done (fuel + 1) (some b) p = (Outcome.fault, p) := by
          simp [collectLoop, h]
        rw [this]
        exact dangling fuel b p h
      | some r =>
        rw [collectLoop_succ done fuel b p r h]
        split_ifs with h1 h2 h3 h4
        · exact brk fuel b p r h h1.1 h1.2
        · exact pnc fuel b p r h h2
        · refine skip fuel b p r _ h ?_ h2 h3 (ih _ _)
          intro hf
          by_contra hs
          exact h1 ⟨hf, by simpa using hs⟩
        · have hs : p.stopping = false := by
            cases hp : p.stopping with
            | false => rfl
            | true => simp [asyncLogPublisher.drop, hp] at h3
          have hf : r.flag = batchSuccess := by
            cases hr : r.flag with
            | batchInProgress => exact absurd ⟨hr, hs⟩ h1
            | batchSuccess => rfl
            | batchFailed => exact absurd hr h2
            | batchCanceled => simp [asyncLogPublisher.drop, hr] at h3
          exact cancel fuel b p r h hf hs h4
        · have hs : p.stopping = false := by
            cases hp : p.stopping with
            | false => rfl
            | true => simp [asyncLogPublisher.drop, hp] at h3
          have hf : r.flag = batchSuccess := by
            cases hr : r.flag with
            | batchInProgress => exact absurd ⟨hr, hs⟩ h1
            | batchSuccess => rfl
            | batchFailed => exact absurd hr h2
            | batchCanceled => simp [asyncLogPublisher.drop, hr] at h3
          exact fwd fuel b p r _ h hf hs (by simpa using h4) (ih _ _)


theorem sentBatches_append (l₁ l₂ : List Effect) :
    sentBatches (l₁ ++ l₂) = sentBatches l₁ ++ sentBatches l₂ := by
  induction l₁ with
  | nil => rfl
  | cons e l ih => cases e <;> simp [sentBatches, ih]

theorem delivered_append (l₁ l₂ : List Effect) :
    delivered (l₁ ++ l₂) = delivered l₁ ++ delivered l₂ := by
  induction l₁ with
  | nil => rfl
  | cons e l ih => cases e <;> simp [delivered, ih]

theorem unlinkedBatches_append (l₁ l₂ : List Effect) :
    unlinkedBatches (l₁ ++ l₂) = unlinkedBatches l₁ ++ unlinkedBatches l₂ := by
  induction l₁ with
  | nil => rfl
  | cons e l ih => cases e <;> simp [unlinkedBatches, ih]

theorem mem_sentBatches {l : List Effect} {a : Nat} :
    a ∈ sentBatches l ↔ ∃ ev, Effect.send a ev ∈ l := by
  induction l with
  | nil => simp [sentBatches]
  | cons e l ih =>
    cases e with
    | publish pl b => simp [sentBatches, ih]
    | unlink b st => simp [sentBatches, ih]
    | send b ev =>
      simp only [sentBatches, List.mem_cons, ih, Effect.send.injEq]
      constructor
      · rintro (h | ⟨ev', h⟩)
        · exact ⟨ev, Or.inl ⟨h, rfl⟩⟩
        · exact ⟨ev', Or.inr h⟩
      · rintro ⟨ev', (⟨h, _⟩ | h)⟩
        · exact Or.inl h
        · exact Or.inr ⟨ev', h⟩

theorem PassSound.refl (p : asyncLogPublisher) : PassSound p p [] where
  log_eq := by simp
  heap_eq := rfl
  stop_mono := id
  sent := by simp
  cancel_stops := by simp
  quiet := List.Pairwise.nil
  unlinked := by simp

theorem flagOf_of_get {p : asyncLogPublisher} {b : Nat} {r : eventsBatch}
    (h : p.heap[b]? = some r) : p.flagOf b = r.flag := by
  simp [asyncLogPublisher.flagOf, h]

theorem flagOf_drop (p : asyncLogPublisher) (b : Nat) (r : eventsBatch) (a : Nat) :
    (p.drop b r).flagOf a = p.flagOf a := rfl

theorem flagOf_forward (p : asyncLogPublisher) (b : Nat) (r : eventsBatch) (a : Nat) :
    (p.forward b r).flagOf a = p.flagOf a := rfl

theorem PassSound.skip {p q : asyncLogPublisher} {b : Nat} {r : eventsBatch}
    {ext : List Effect} (hr : p.heap[b]? = some r)
    (hin : r.flag = batchInProgress → p.stopping = true) (hnf : r.flag ≠ batchFailed)
    (hst : (p.drop b r).stopping = true) (h : PassSound (p.drop b r) q ext) :
    PassSound p q (Effect.unlink b r.flag :: ext) where
  log_eq := by rw [h.log_eq]; simp [asyncLogPublisher.drop]
  heap_eq := h.heap_eq
  stop_mono := fun _ => h.stop_mono hst
  sent := by
    intro a ev hmem
    rcases List.mem_cons.1 hmem with he | hmem
    · cases he
    · have := (h.sent a ev hmem).1
      rw [hst] at this
      cases this
  cancel_stops := fun _ _ => h.stop_mono hst
  quiet := by
    refine List.Pairwise.cons ?_ h.quiet
    intro e he _ c ev hc
    subst hc
    have := (h.sent c ev he).1
    rw [hst] at this
    cases this
  unlinked := by
    intro pre a st post hsplit
    rcases List.cons_eq_append_iff.1 hsplit with ⟨hpre, hcons⟩ | ⟨pre', hpre, hext⟩
    · injection hcons with h1 h2
      injection h1 with h3 h4
      subst h3 h4
      exact ⟨flagOf_of_get hr, hnf, fun hf => Or.inl (hin hf)⟩
    · obtain ⟨h1, h2, h3⟩ := h.unlinked pre' a st post hext
      refine ⟨h1, h2, fun hf => ?_⟩
      rcases h3 hf with hs | ⟨c, hc⟩
      · cases hp : p.stopping with
        | true => exact Or.inl rfl
        | false =>
          have hcan : r.flag = batchCanceled := by
            simpa [asyncLogPublisher.drop, hp] using hs
          exact Or.inr ⟨b, by rw [hpre, hcan]; exact List.mem_cons_self _ _⟩
      · exact Or.inr ⟨c, by rw [hpre]; exact List.mem_cons_of_mem _ hc⟩

theorem PassSound.cancel {p : asyncLogPublisher} {b : Nat} {r : eventsBatch}
    (hr : p.heap[b]? = some r) (hf : r.flag = batchSuccess) (hs : p.stopping = false) :
    PassSound p (p.drop b r) [Effect.unlink b r.flag] where
  log_eq := by simp [asyncLogPublisher.drop]
  heap_eq := rfl
  stop_mono := by simp [hs]
  sent := by simp
  cancel_stops := by simp [hf]
  quiet := List.pairwise_singleton _ _
  unlinked := by
    intro pre a st post hsplit
    rcases List.cons_eq_append_iff.1 hsplit with ⟨hpre, hcons⟩ | ⟨pre', hpre, hext⟩
    · injection hcons with h1 h2
      injection h1 with h3 h4
      subst h3 h4
      exact ⟨flagOf_of_get hr, by simp [hf], by simp [hf]⟩
    · simp at hext

theorem PassSound.fwd {p q : asyncLogPublisher} {b : Nat} {r : eventsBatch}
    {ext : List Effect} (hr : p.heap[b]? = some r) (hf : r.flag = batchSuccess)
    (hs : p.stopping = false) (h : PassSound ((p.drop b r).forward b r) q ext) :
    PassSound p q (Effect.unlink b r.flag :: Effect.send b r.events :: ext) where
  log_eq := by rw [h.log_eq]; simp [asyncLogPublisher.drop, asyncLogPublisher.forward]
  heap_eq := h.heap_eq
  stop_mono := by simp [hs]
  sent := by
    intro a ev hmem
    rcases List.mem_cons.1 hmem with he | hmem
    · cases he
    rcases List.mem_cons.1 hmem with he | hmem
    · injection he with h1 h2
      subst h1 h2
      exact ⟨hs, by simp [hf], r, hr, hf, rfl⟩
    · obtain ⟨_, h2, h3⟩ := h.sent a ev hmem
      exact ⟨hs, List.mem_cons_of_mem _ (List.mem_cons_of_mem _ h2), h3⟩
  cancel_stops := by
    intro a hmem
    rcases List.mem_cons.1 hmem with he | hmem
    · injection he with h1 h2
      rw [hf] at h2
      cases h2
    rcases List.mem_cons.1 hmem with he | hmem
    · cases he
    · exact h.cancel_stops a hmem
  quiet := by
    refine List.Pairwise.cons ?_ (List.Pairwise.cons ?_ h.quiet)
    · rintro e _ ⟨a, ha⟩
      injection ha with h1 h2
      rw [hf] at h2
      cases h2
    · rintro e _ ⟨a, ha⟩
      cases ha
  unlinked := by
    intro pre a st post hsplit
    rcases List.cons_eq_append_iff.1 hsplit with ⟨hpre, hcons⟩ | ⟨pre', hpre, hext⟩
    · injection hcons with h1 h2
      injection h1 with h3 h4
      subst h3 h4
      exact ⟨flagOf_of_get hr, by simp [hf], by simp [hf]⟩
    rcases List.cons_eq_append_iff.1 hext with ⟨hpre', hcons⟩ | ⟨pre'', hpre', hext'⟩
    · cases hcons
    · obtain ⟨h1, h2, h3⟩ := h.unlinked pre'' a st post hext'
      refine ⟨h1, h2, fun hst => ?_⟩
      rcases h3 hst with hs' | ⟨c, hc⟩
      · simp [asyncLogPublisher.drop, asyncLogPublisher.forward, hs, hf] at hs'
      · exact Or.inr ⟨c, by
          rw [hpre, hpre']
          exact List.mem_cons_of_mem _ (List.mem_cons_of_mem _ hc)⟩


theorem front_of_head {p : asyncLogPublisher} {b : Nat} (h : p.active.head = some b) :
    p.front = b := by
  simp [asyncLogPublisher.front, h]

theorem front_le_length {p : asyncLogPublisher} (hwf : WellFormed p) :
    p.front ≤ p.heap.length := by
  unfold asyncLogPublisher.front
  cases h : p.active.head with
  | none => simp
  | some b => exact Nat.le_of_lt (hwf.head_lt b h)

theorem WellFormed.next_of_head {p : asyncLogPublisher} (hwf : WellFormed p) {b : Nat}
    {r : eventsBatch} (hb : p.active.head = some b) (hr : p.heap[b]? = some r) :
    r.next = if b + 1 < p.heap.length then some (b + 1) else none :=
  hwf.next_eq b r (by rw [front_of_head hb]) hr

theorem front_drop {p : asyncLogPublisher} (hwf : WellFormed p) {b : Nat}
    {r : eventsBatch} (hb : p.active.head = some b) (hr : p.heap[b]? = some r) :
    (p.drop b r).front = b + 1 := by
  have hn := hwf.next_of_head hb hr
  have hlt := hwf.head_lt b hb
  unfold asyncLogPublisher.front asyncLogPublisher.drop
  simp only [hn]
  split_ifs with h
  · rfl
  · simp only
    omega

theorem WellFormed.drop {p : asyncLogPublisher} (hwf : WellFormed p) {b : Nat}
    {r : eventsBatch} (hb : p.active.head = some b) (hr : p.heap[b]? = some r) :
    WellFormed (p.drop b r) where
  head_lt := by
    intro c hc
    have hn := hwf.next_of_head hb hr
    simp only [asyncLogPublisher.drop, hn] at hc
    split_ifs at hc with h
    · cases hc; exact h
  tail_eq := by
    have ht := hwf.tail_eq
    simp only [hb] at ht
    simp [asyncLogPublisher.drop, ht]
  next_eq := by
    intro a r' ha hr'
    rw [front_drop hwf hb hr] at ha
    exact hwf.next_eq a r' (by rw [front_of_head hb]; omega) hr'

theorem WellFormed.forward {p : asyncLogPublisher} (hwf : WellFormed p) (b : Nat)
    (r : eventsBatch) : WellFormed (p.forward b r) :=
  ⟨hwf.head_lt, hwf.tail_eq, hwf.next_eq⟩

theorem front_forward (p : asyncLogPublisher) (b : Nat) (r : eventsBatch) :
    (p.forward b r).front = p.front := rfl

theorem PassOrdered.stay {p : asyncLogPublisher} (hwf : WellFormed p) (o : Outcome)
    (ho : o = Outcome.panicked ∨ ∃ b, o = Outcome.returned b)
    (hp : o = Outcome.panicked → ∃ i, p.active.head = some i ∧ p.flagOf i = batchFailed) :
    PassOrdered p (o, p) [] where
  total := ho
  wf := hwf
  front_le := Nat.le_refl _
  unlinked_eq := by simp [unlinkedBatches]
  sent_bounds := by simp [sentBatches]
  sent_sorted := by simp [sentBatches]
  sent_after := by simp [sentBatches]
  done_success := by
    intro _ a h1 h2
    have h3 : a < p.front := h2
    omega
  panic_head := hp

theorem PassOrdered.skipStep {p : asyncLogPublisher} {res : Outcome × asyncLogPublisher}
    {b : Nat} {r : eventsBatch} {ext : List Effect} (hwf : WellFormed p)
    (hb : p.active.head = some b) (hr : p.heap[b]? = some r)
    (hst : res.2.stopping = true) (hno : ∀ a, a ∉ sentBatches ext)
    (h : PassOrdered (p.drop b r) res ext) :
    PassOrdered p res (Effect.unlink b r.flag :: ext) := by
  have hf := front_drop hwf hb hr
  have hfl := h.front_le
  rw [hf] at hfl
  have hpf := front_of_head hb
  refine ⟨h.total, h.wf, by omega, ?_, ?_, ?_, ?_, ?_, h.panic_head⟩
  · have := h.unlinked_eq
    rw [hf] at this
    simp only [unlinkedBatches, this, hpf]
    have : res.2.front - b = (res.2.front - (b + 1)) + 1 := by omega
    rw [this, List.range'_succ]
  · intro a ha
    have := h.sent_bounds a (by simpa [sentBatches] using ha)
    rw [hf] at this
    omega
  · simpa [sentBatches] using h.sent_sorted
  · intro a ha
    exact absurd (by simpa [sentBatches] using ha) (hno a)
  · intro hs
    rw [hst] at hs
    cases hs

theorem PassOrdered.cancelStep {p : asyncLogPublisher} {b : Nat} {r : eventsBatch}
    (hwf : WellFormed p) (hb : p.active.head = some b) (hr : p.heap[b]? = some r)
    (hfs : r.flag = batchSuccess) :
    PassOrdered p (Outcome.returned false, p.drop b r) [Effect.unlink b r.flag] := by
  have hf := front_drop hwf hb hr
  have hpf := front_of_head hb
  refine ⟨Or.inr ⟨false, rfl⟩, hwf.drop hb hr, by simp only [hf, hpf]; omega, ?_, ?_, ?_,
    ?_, ?_, ?_⟩
  · simp only [unlinkedBatches, hf, hpf]
    have : b + 1 - b = 0 + 1 := by omega
    rw [this, List.range'_succ]
    simp
  · simp [sentBatches]
  · simp [sentBatches]
  · simp [sentBatches]
  · intro _ a h1 h2
    simp only [hf, hpf] at h1 h2
    have : a = b := by omega
    subst this
    rw [flagOf_of_get hr, hfs]
  · intro h
    cases h

theorem PassOrdered.fwdStep {p : asyncLogPublisher} {res : Outcome × asyncLogPublisher}
    {b : Nat} {r : eventsBatch} {ext : List Effect} (hwf : WellFormed p)
    (hb : p.active.head = some b) (hr : p.heap[b]? = some r)
    (hfs : r.flag = batchSuccess)
    (h : PassOrdered ((p.drop b r).forward b r) res ext) :
    PassOrdered p res (Effect.unlink b r.flag :: Effect.send b r.events :: ext) := by
  have hf := front_drop hwf hb hr
  have hfl := h.front_le
  rw [front_forward, hf] at hfl
  have hpf := front_of_head hb
  refine ⟨h.total, h.wf, by omega, ?_, ?_, ?_, ?_, ?_, h.panic_head⟩
  · have := h.unlinked_eq
    rw [front_forward, hf] at this
    simp only [unlinkedBatches, this, hpf]
    have : res.2.front - b = (res.2.front - (b + 1)) + 1 := by omega
    rw [this, List.range'_succ]
  · intro a ha
    simp only [sentBatches, List.mem_cons] at ha
    rcases ha with ha | ha
    · omega
    · have := h.sent_bounds a ha
      rw [front_forward, hf] at this
      omega
  · simp only [sentBatches, List.pairwise_cons]
    refine ⟨?_, h.sent_sorted⟩
    intro a ha
    have := h.sent_bounds a ha
    rw [front_forward, hf] at this
    omega
  · intro a ha c h1 h2
    rw [hpf] at h1
    simp only [sentBatches, List.mem_cons] at ha
    rcases ha with ha | ha
    · omega
    · rcases Nat.eq_or_lt_of_le h1 with heq | hlt
      · subst heq
        rw [flagOf_of_get hr, hfs]
      · have := h.sent_after a ha c (by rw [front_forward, hf]; omega) h2
        simpa [flagOf_forward, flagOf_drop] using this
  · intro hs a h1 h2
    rw [hpf] at h1
    rcases Nat.eq_or_lt_of_le h1 with heq | hlt
    · subst heq
      rw [flagOf_of_get hr, hfs]
    · have := h.done_success hs a (by rw [front_forward, hf]; omega) h2
      simpa [flagOf_forward, flagOf_drop] using this

/-- The loop of `collect`, started at the head of the list: what it does in
every state, and in addition what it does in a well formed state when the
fuel covers the records still linked. -/
theorem collectLoop_spec (done : Nat → Bool) (fuel : Nat) (b : Option Nat)
    (p : asyncLogPublisher) :
    ∃ ext, PassSound p (collectLoop done fuel b p).2 ext ∧
      (WellFormed p → b = p.active.head → p.heap.length - p.front ≤ fuel →
        PassOrdered p (collectLoop done fuel b p) ext) := by
  refine collectLoop_induct done
    (fun fuel b p res => ∃ ext, PassSound p res.2 ext ∧
      (WellFormed p → b = p.active.head → p.heap.length - p.front ≤ fuel →
        PassOrdered p res ext))
    ?_ ?_ ?_ ?_ ?_ ?_ ?_ ?_ fuel b p
  · intro _ p
    exact ⟨[], PassSound.refl p, fun hwf _ _ =>
      PassOrdered.stay hwf _ (Or.inr ⟨true, rfl⟩) (fun h => by cases h)⟩
  · intro b p
    refine ⟨[], PassSound.refl p, fun hwf hb hfuel => ?_⟩
    have := hwf.head_lt b hb.symm
    rw [front_of_head hb.symm] at hfuel
    omega
  · intro _ b p hnone
    refine ⟨[], PassSound.refl p, fun hwf hb _ => ?_⟩
    have := hwf.head_lt b hb.symm
    rw [List.getElem?_eq_none_iff] at hnone
    omega
  · intro _ b p r _ _ _
    exact ⟨[], PassSound.refl p, fun hwf _ _ =>
      PassOrdered.stay hwf _ (Or.inr ⟨true, rfl⟩) (fun h => by cases h)⟩
  · intro _ b p r hr hf
    exact ⟨[], PassSound.refl p, fun hwf hb _ =>
      PassOrdered.stay hwf _ (Or.inl rfl)
        (fun _ => ⟨b, hb.symm, by rw [flagOf_of_get hr, hf]⟩)⟩
  · rintro fuel b p r res hr hin hnf hst ⟨ext, hs, ho⟩
    refine ⟨_, PassSound.skip hr hin hnf hst hs, fun hwf hb hfuel => ?_⟩
    have hb' : p.active.head = some b := by
      simpa using hb.symm
    refine PassOrdered.skipStep hwf hb' hr (hs.stop_mono hst) ?_
      (ho (hwf.drop hb' hr) rfl ?_)
    · intro a ha
      obtain ⟨ev, hev⟩ := mem_sentBatches.1 ha
      have := (hs.sent a ev hev).1
      rw [hst] at this
      cases this
    rw [front_drop hwf hb' hr]
    rw [front_of_head hb'] at hfuel
    have : (p.drop b r).heap = p.heap := rfl
    rw [this]
    omega
  · intro _ b p r hr hf hs _
    refine ⟨_, PassSound.cancel hr hf hs, fun hwf hb _ => ?_⟩
    have hb' : p.active.head = some b := by
      simpa using hb.symm
    exact PassOrdered.cancelStep hwf hb' hr hf
  · rintro fuel b p r res hr hf hs _ ⟨ext, hsd, ho⟩
    refine ⟨_, PassSound.fwd hr hf hs hsd, fun hwf hb hfuel => ?_⟩
    have hb' : p.active.head = some b := by
      simpa using hb.symm
    refine PassOrdered.fwdStep hwf hb' hr hf
      (ho ((hwf.drop hb' hr).forward b r) rfl ?_)
    rw [front_forward, front_drop hwf hb' hr]
    rw [front_of_head hb'] at hfuel
    have : ((p.drop b r).forward b r).heap = p.heap := rfl
    rw [this]
    omega

theorem passLog_eq {done : Nat → Bool} {p : asyncLogPublisher} {ext : List Effect}
    (h : (p.collect done).2.log = p.log ++ ext) : passLog done p = ext := by
  simp [passLog, h]

/-- One call of `collect`: the facts of `collectLoop_spec` for `passLog`. -/
theorem collect_spec (done : Nat → Bool) (p : asyncLogPublisher) :
    PassSound p (p.collect done).2 (passLog done p) ∧
      (WellFormed p → PassOrdered p (p.collect done) (passLog done p)) := by
  obtain ⟨ext, hs, ho⟩ := collectLoop_spec done p.heap.length p.active.head p
  have : passLog done p = ext := passLog_eq hs.log_eq
  rw [this]
  exact ⟨hs, fun hwf => ho hwf rfl (Nat.sub_le _ _)⟩

theorem flagOf_congr {p q : asyncLogPublisher} (h : q.heap = p.heap) (a : Nat) :
    q.flagOf a = p.flagOf a := by
  simp [asyncLogPublisher.flagOf, h]

theorem Ordered.collect {p : asyncLogPublisher} (h : Ordered p) (done : Nat → Bool) :
    Ordered (p.collect done).2 := by
  obtain ⟨hs, ho⟩ := collect_spec done p
  have ho := ho h.wf
  have hlog := hs.log_eq
  refine ⟨ho.wf, ?_, ?_, ?_, ?_⟩
  · intro a ha
    rw [hlog, sentBatches_append, List.mem_append] at ha
    rcases ha with ha | ha
    · exact Nat.lt_of_lt_of_le (h.sent_lt a ha) ho.front_le
    · exact (ho.sent_bounds a ha).2
  · rw [hlog, sentBatches_append, List.pairwise_append]
    refine ⟨h.sent_sorted, ho.sent_sorted, fun a ha b hb => ?_⟩
    exact Nat.lt_of_lt_of_le (h.sent_lt a ha) (ho.sent_bounds b hb).1
  · intro a ev ha
    rw [hlog, List.mem_append] at ha
    rw [hs.heap_eq]
    rcases ha with ha | ha
    · exact h.sent_events a ev ha
    · obtain ⟨_, _, r, hr, _, he⟩ := hs.sent a ev ha
      exact ⟨r, hr, he⟩
  · intro hst a ha
    rw [flagOf_congr hs.heap_eq]
    have hp : p.stopping = false := by
      cases hps : p.stopping with
      | false => rfl
      | true => rw [hs.stop_mono hps] at hst; cases hst
    by_cases hlt : a < p.front
    · exact h.settled hp a hlt
    · rw [ho.done_success hst a (by omega) ha]
      simp

theorem Signal.apply_next (s : Signal) (r : eventsBatch) : (s.apply r).next = r.next := by
  cases s <;> rfl

theorem Signal.apply_events (s : Signal) (r : eventsBatch) :
    (s.apply r).events = r.events := by
  cases s <;> rfl

theorem Signal.apply_flag (s : Signal) (r : eventsBatch) :
    (s.apply r).flag ≠ batchInProgress := by
  cases s <;> simp [Signal.apply, eventsBatch.Completed, eventsBatch.Failed,
    eventsBatch.Canceled]

theorem signal_get (p : asyncLogPublisher) (b : Nat) (s : Signal) (a : Nat) :
    (p.signal b s).heap[a]? = if a = b then (p.heap[a]?).map s.apply else p.heap[a]? := by
  unfold asyncLogPublisher.signal
  cases hb : p.heap[b]? with
  | none =>
    split_ifs with h
    · subst h; simp [hb]
    · rfl
  | some r =>
    simp only [List.getElem?_set]
    by_cases h : b = a
    · subst h
      have hlt : b < p.heap.length := by
        by_contra hn
        rw [List.getElem?_eq_none (by omega)] at hb
        cases hb
      simp [hlt, hb]
    · have h' : ¬ a = b := fun e => h e.symm
      simp [h, h']

theorem signal_length (p : asyncLogPublisher) (b : Nat) (s : Signal) :
    (p.signal b s).heap.length = p.heap.length := by
  unfold asyncLogPublisher.signal
  cases p.heap[b]? <;> simp

theorem signal_active (p : asyncLogPublisher) (b : Nat) (s : Signal) :
    (p.signal b s).active = p.active := by
  unfold asyncLogPublisher.signal
  cases p.heap[b]? <;> rfl

theorem signal_stopping (p : asyncLogPublisher) (b : Nat) (s : Signal) :
    (p.signal b s).stopping = p.stopping := by
  unfold asyncLogPublisher.signal
  cases p.heap[b]? <;> rfl

theorem signal_log (p : asyncLogPublisher) (b : Nat) (s : Signal) :
    (p.signal b s).log = p.log := by
  unfold asyncLogPublisher.signal
  cases p.heap[b]? <;> rfl

theorem signal_front (p : asyncLogPublisher) (b : Nat) (s : Signal) :
    (p.signal b s).front = p.front := by
  simp [asyncLogPublisher.front, signal_active, signal_length]

theorem signal_flagOf (p : asyncLogPublisher) (b : Nat) (s : Signal) (a : Nat)
    (h : p.flagOf a ≠ batchInProgress) : (p.signal b s).flagOf a ≠ batchInProgress := by
  unfold asyncLogPublisher.flagOf at h ⊢
  rw [signal_get]
  cases ha : p.heap[a]? with
  | none => simp [ha] at h
  | some r =>
    split_ifs with hab
    · simpa using Signal.apply_flag s r
    · simpa [ha] using h

theorem WellFormed.signal {p : asyncLogPublisher} (hwf : WellFormed p) (b : Nat)
    (s : Signal) : WellFormed (p.signal b s) where
  head_lt := by
    intro c hc
    rw [signal_active] at hc
    rw [signal_length]
    exact hwf.head_lt c hc
  tail_eq := by
    rw [signal_active, signal_length]
    exact hwf.tail_eq
  next_eq := by
    intro a r ha hr
    rw [signal_front] at ha
    rw [signal_length]
    rw [signal_get] at hr
    cases hpa : p.heap[a]? with
    | none => simp [hpa] at hr
    | some r₀ =>
      have hn := hwf.next_eq a r₀ ha hpa
      split_ifs at hr with hab
      · simp only [hpa, Option.map_some', Option.some.injEq] at hr
        rw [← hr, Signal.apply_next]
        exact hn
      · rw [hpa] at hr
        cases hr
        exact hn

theorem Ordered.signalStep {p : asyncLogPublisher} (h : Ordered p) (b : Nat) (s : Signal) :
    Ordered (p.signal b s) where
  wf := h.wf.signal b s
  sent_lt := by
    rw [signal_log, signal_front]
    exact h.sent_lt
  sent_sorted := by
    rw [signal_log]
    exact h.sent_sorted
  sent_events := by
    intro a ev ha
    rw [signal_log] at ha
    obtain ⟨r, hr, he⟩ := h.sent_events a ev ha
    rw [signal_get]
    split_ifs with hab
    · exact ⟨s.apply r, by simp [hr], by rw [Signal.apply_events, he]⟩
    · exact ⟨r, hr, he⟩
  settled := by
    intro hst a ha
    rw [signal_stopping] at hst
    rw [signal_front] at ha
    exact signal_flagOf p b s a (h.settled hst a ha)

theorem StartInput_spec {p : asyncLogPublisher} (hwf : WellFormed p)
    (ev : List FileEvent) : ∃ q, p.StartInput ev = some q ∧ Accepted p ev q := by
  have hlen : ∀ a r, p.heap[a]? = some r → a < p.heap.length := by
    intro a r h
    by_contra hn
    rw [List.getElem?_eq_none (by omega)] at h
    cases h
  cases hh : p.active.head with
  | none =>
    have hfront : p.front = p.heap.length := by simp [asyncLogPublisher.front, hh]
    refine ⟨_, by simp [asyncLogPublisher.StartInput, asyncLogPublisher.append, hh]; rfl, ?_⟩
    refine ⟨by simp, by simp [hfront], rfl, rfl, rfl, by simp, ?_⟩
    intro a r har
    have ha := hlen a r har
    refine ⟨r, ?_, rfl, rfl, fun h => by omega⟩
    have hne : p.heap.length ≠ a := by omega
    simp only [List.getElem?_set_ne hne]
    rw [List.getElem?_append_left ha]
    exact har
  | some h =>
    have hlt := hwf.head_lt h hh
    have hfront : p.front = h := front_of_head hh
    have htail : p.active.tail = some (p.heap.length - 1) := by
      have := hwf.tail_eq
      simpa [hh] using this
    obtain ⟨r₀, hr₀⟩ : ∃ r₀, p.heap[p.heap.length - 1]? = some r₀ :=
      ⟨p.heap[p.heap.length - 1], List.getElem?_eq_getElem (by omega)⟩
    have hr₀' : (p.heap ++ [({ next := none, flag := batchInProgress, events := ev } :
        eventsBatch)])[p.heap.length - 1]? = some r₀ := by
      rw [List.getElem?_append_left (by omega)]
      exact hr₀
    have hne : p.heap.length - 1 ≠ p.heap.length := by omega
    refine ⟨_, by
      simp [asyncLogPublisher.StartInput, asyncLogPublisher.append, hh, htail, hr₀',
        List.getElem?_set_ne hne]
      rfl, ?_⟩
    refine ⟨by simp, by simp [hfront], rfl, rfl, rfl, by simp, ?_⟩
    intro a r har
    have ha := hlen a r har
    have hna : p.heap.length ≠ a := by omega
    simp only [List.getElem?_set_ne hna]
    by_cases hlast : a = p.heap.length - 1
    · subst hlast
      have e : r₀ = r := by
        rw [har] at hr₀
        exact (Option.some.inj hr₀).symm
      subst e
      refine ⟨{ r₀ with next := some p.heap.length }, ?_, rfl, rfl, fun _ => ?_⟩
      · rw [List.getElem?_set_self (by simp; omega)]
      · simp only [Option.some.injEq]
        omega
    · have hne' : p.heap.length - 1 ≠ a := fun e => hlast e.symm
      refine ⟨r, ?_, rfl, rfl, fun hfa => ?_⟩
      · rw [List.getElem?_set_ne hne', List.getElem?_append_left ha]
        exact har
      · have := hwf.next_eq a r hfa har
        rw [this, if_pos (by omega)]

theorem Accepted.front_eq {p q : asyncLogPublisher} {ev : List FileEvent}
    (h : Accepted p ev q) : q.front = p.front :=
  front_of_head h.head_eq

theorem Accepted.get_lt {p q : asyncLogPublisher} {ev : List FileEvent}
    (h : Accepted p ev q) {a : Nat} {r' : eventsBatch} (hr : q.heap[a]? = some r')
    (hne : a ≠ p.heap.length) : ∃ r, p.heap[a]? = some r := by
  have ha : a < q.heap.length := by
    by_contra hn
    rw [List.getElem?_eq_none (by omega)] at hr
    cases hr
  rw [h.length_eq] at ha
  exact ⟨p.heap[a], List.getElem?_eq_getElem (by omega)⟩

theorem Accepted.flagOf_eq {p q : asyncLogPublisher} {ev : List FileEvent}
    (h : Accepted p ev q) {a : Nat} (ha : a < p.heap.length) :
    q.flagOf a = p.flagOf a := by
  have hr : p.heap[a]? = some p.heap[a] := List.getElem?_eq_getElem ha
  obtain ⟨r', hr', hf, _⟩ := h.old a _ hr
  simp [asyncLogPublisher.flagOf, hr, hr', hf]

theorem Accepted.wellFormed {p q : asyncLogPublisher} {ev : List FileEvent}
    (hwf : WellFormed p) (h : Accepted p ev q) : WellFormed q where
  head_lt := by
    intro c hc
    rw [h.head_eq] at hc
    cases hc
    rw [h.length_eq]
    have := front_le_length hwf
    omega
  tail_eq := by
    rw [h.tail_eq, h.head_eq, h.length_eq]
    simp
  next_eq := by
    intro a r' ha hr'
    rw [h.front_eq] at ha
    rw [h.length_eq]
    by_cases hne : a = p.heap.length
    · subst hne
      rw [h.fresh] at hr'
      cases hr'
      simp
    · obtain ⟨r, hr⟩ := h.get_lt hr' hne
      obtain ⟨r'', hr'', _, _, hn⟩ := h.old a r hr
      rw [hr'] at hr''
      cases hr''
      have hlt : a < p.heap.length := by
        by_contra hn'
        rw [List.getElem?_eq_none (by omega)] at hr
        cases hr
      rw [hn ha, if_pos (by omega)]

theorem Ordered.accept {p q : asyncLogPublisher} {ev : List FileEvent} (h : Ordered p)
    (hq : Accepted p ev q) : Ordered q where
  wf := hq.wellFormed h.wf
  sent_lt := by
    rw [hq.log_eq, hq.front_eq, sentBatches_append]
    simpa [sentBatches] using h.sent_lt
  sent_sorted := by
    rw [hq.log_eq, sentBatches_append]
    simpa [sentBatches] using h.sent_sorted
  sent_events := by
    intro a e ha
    rw [hq.log_eq] at ha
    simp only [List.mem_append, List.mem_singleton] at ha
    rcases ha with ha | ha
    · obtain ⟨r, hr, he⟩ := h.sent_events a e ha
      obtain ⟨r', hr', _, he', _⟩ := hq.old a r hr
      exact ⟨r', hr', by rw [he', he]⟩
    · cases ha
  settled := by
    intro hst a ha
    rw [hq.stopping_eq] at hst
    rw [hq.front_eq] at ha
    have hlt : a < p.heap.length := Nat.lt_of_lt_of_le ha (front_le_length h.wf)
    rw [hq.flagOf_eq hlt]
    exact h.settled hst a ha

theorem Ordered.init : Ordered newAsyncLogPublisher where
  wf := ⟨by simp [newAsyncLogPublisher], by simp [newAsyncLogPublisher], by
    simp [newAsyncLogPublisher]⟩
  sent_lt := by simp [newAsyncLogPublisher, sentBatches]
  sent_sorted := by simp [newAsyncLogPublisher, sentBatches]
  sent_events := by simp [newAsyncLogPublisher]
  settled := by simp [newAsyncLogPublisher, asyncLogPublisher.front]

theorem Ordered.step {p : asyncLogPublisher} (h : Ordered p) (s : Step) :
    Ordered (p.step s).2 := by
  cases s with
  | accept ev =>
    obtain ⟨q, hq, hacc⟩ := StartInput_spec h.wf ev
    simp only [asyncLogPublisher.step, hq]
    exact h.accept hacc
  | signal b s => exact h.signalStep b s
  | collect done => exact h.collect done

theorem Ordered.run {p : asyncLogPublisher} (h : Ordered p) (steps : List Step) :
    Ordered (p.run steps) := by
  induction steps generalizing p with
  | nil => exact h
  | cons s rest ih =>
    have hs := h.step s
    unfold asyncLogPublisher.run
    split
    · next b p1 heq =>
      rw [heq] at hs
      exact ih hs
    · next o p1 _ heq =>
      rw [heq] at hs
      exact hs

theorem Accepted.map_events {p q : asyncLogPublisher} {ev : List FileEvent}
    (h : Accepted p ev q) :
    q.heap.map (·.events) = p.heap.map (·.events) ++ [ev] := by
  apply List.ext_getElem?
  intro a
  rw [List.getElem?_map]
  rcases Nat.lt_trichotomy a p.heap.length with hlt | heq | hgt
  · have hr : p.heap[a]? = some p.heap[a] := List.getElem?_eq_getElem hlt
    obtain ⟨r', hr', _, he, _⟩ := h.old a _ hr
    rw [hr', List.getElem?_append_left (by simpa using hlt), List.getElem?_map, hr]
    simp [he]
  · subst heq
    rw [h.fresh, List.getElem?_append_right (by simp)]
    simp
  · rw [List.getElem?_eq_none (by rw [h.length_eq]; omega),
      List.getElem?_eq_none (by simp; omega)]
    rfl

theorem signal_map_events (p : asyncLogPublisher) (b : Nat) (s : Signal) :
    (p.signal b s).heap.map (·.events) = p.heap.map (·.events) := by
  apply List.ext_getElem?
  intro a
  rw [List.getElem?_map, List.getElem?_map, signal_get]
  split_ifs with h
  · cases p.heap[a]? <;> simp [Signal.apply_events]
  · rfl

theorem submitted_cons (s : Step) (rest : List Step) :
    submitted (s :: rest) = submitted [s] ++ submitted rest := by
  cases s <;> simp [submitted]

theorem step_submitted {p : asyncLogPublisher} (h : Ordered p) (s : Step) :
    (p.step s).2.heap.map (·.events) = p.heap.map (·.events) ++ submitted [s] := by
  cases s with
  | accept ev =>
    obtain ⟨q, hq, hacc⟩ := StartInput_spec h.wf ev
    simp only [asyncLogPublisher.step, hq, submitted]
    exact hacc.map_events
  | signal b s => simp [asyncLogPublisher.step, submitted, signal_map_events]
  | collect done =>
    simp only [asyncLogPublisher.step, submitted, List.append_nil]
    rw [(collect_spec done p).1.heap_eq]

/-- The batches held by the records allocated in a run are an initial part of
the batches submitted, in order. -/
theorem run_submitted {p : asyncLogPublisher} (h : Ordered p) (steps : List Step) :
    ∃ t, (p.run steps).heap.map (·.events) = p.heap.map (·.events) ++ t ∧
      List.IsPrefix t (submitted steps) := by
  induction steps generalizing p with
  | nil => exact ⟨[], by simp [asyncLogPublisher.run], List.nil_prefix⟩
  | cons s rest ih =>
    have hs := h.step s
    have hsub := step_submitted h s
    rw [submitted_cons]
    unfold asyncLogPublisher.run
    split
    · next b p1 heq =>
      rw [heq] at hs hsub
      obtain ⟨t, ht, hpre⟩ := ih hs
      refine ⟨submitted [s] ++ t, ?_, (List.prefix_append_right_inj _).2 hpre⟩
      rw [ht, hsub, List.append_assoc]
    · next o p1 _ heq =>
      rw [heq] at hsub
      exact ⟨submitted [s], hsub, List.prefix_append _ _⟩

/-- Records sent in increasing address order, each holding the batch found at
its address in `L`, deliver a sublist of `L`. -/
theorem delivered_sublist (L : List (List FileEvent)) (log : List Effect) (k : Nat)
    (hget : ∀ a ev, Effect.send a ev ∈ log → k ≤ a ∧ L[a]? = some ev)
    (hsorted : (sentBatches log).Pairwise (· < ·)) :
    List.Sublist (delivered log) (L.drop k) := by
  induction log generalizing k with
  | nil => simp [delivered]
  | cons e log ih =>
    cases e with
    | publish pl b =>
      exact ih k (fun a ev h => hget a ev (List.mem_cons_of_mem _ h)) hsorted
    | unlink b st =>
      exact ih k (fun a ev h => hget a ev (List.mem_cons_of_mem _ h)) hsorted
    | send b ev =>
      simp only [sentBatches, List.pairwise_cons] at hsorted
      obtain ⟨hk, hb⟩ := hget b ev (List.mem_cons_self _ _)
      have hlt : b < L.length := by
        by_contra hn
        rw [List.getElem?_eq_none (by omega)] at hb
        cases hb
      have hrest : List.Sublist (delivered log) (L.drop (b + 1)) := by
        refine ih (b + 1) (fun a ev' h => ⟨?_, (hget a ev' (List.mem_cons_of_mem _ h)).2⟩)
          hsorted.2
        exact hsorted.1 a (mem_sentBatches.2 ⟨ev', h⟩)
      have hdrop : L.drop b = ev :: L.drop (b + 1) := by
        rw [List.drop_eq_getElem_cons hlt]
        congr 1
        rw [List.getElem?_eq_getElem hlt] at hb
        exact Option.some.inj hb
      have h1 : List.Sublist (delivered (Effect.send b ev :: log)) (L.drop b) := by
        rw [hdrop]
        exact List.Sublist.cons₂ _ hrest
      have h2 : List.Sublist (L.drop b) (L.drop k) := by
        have : L.drop b = (L.drop k).drop (b - k) := by
          rw [List.drop_drop]
          congr 1
          omega
        rw [this]
        exact List.drop_sublist _ _
      exact h1.trans h2

/-- Second invariant of the runs: no send follows the unlinking of a canceled
record, and the stopping flag is set once such a record was unlinked. -/
theorem quiet_run {p : asyncLogPublisher} (hord : Ordered p)
    (hq : p.log.Pairwise quietAfterCancel)
    (hc : (∃ a, Effect.unlink a batchCanceled ∈ p.log) → p.stopping = true)
    (steps : List Step) :
    (p.run steps).log.Pairwise quietAfterCancel ∧
      ((∃ a, Effect.unlink a batchCanceled ∈ (p.run steps).log) →
        (p.run steps).stopping = true) := by
  have hstep : ∀ (p : asyncLogPublisher), Ordered p → p.log.Pairwise quietAfterCancel →
      ((∃ a, Effect.unlink a batchCanceled ∈ p.log) → p.stopping = true) →
      ∀ s : Step, (p.step s).2.log.Pairwise quietAfterCancel ∧
        ((∃ a, Effect.unlink a batchCanceled ∈ (p.step s).2.log) →
          (p.step s).2.stopping = true) := by
    intro p hord hq hc s
    cases s with
    | accept ev =>
      obtain ⟨q, hq', hacc⟩ := StartInput_spec hord.wf ev
      simp only [asyncLogPublisher.step, hq', hacc.log_eq, hacc.stopping_eq]
      constructor
      · rw [List.pairwise_append]
        refine ⟨hq, List.pairwise_singleton _ _, ?_⟩
        intro e₁ _ e₂ he₂ _ b ev' hsend
        rw [List.mem_singleton] at he₂
        rw [he₂] at hsend
        cases hsend
      · rintro ⟨a, ha⟩
        simp only [List.mem_append, List.mem_singleton] at ha
        rcases ha with ha | ha
        · exact hc ⟨a, ha⟩
        · cases ha
    | signal b s =>
      simp only [asyncLogPublisher.step, signal_log, signal_stopping]
      exact ⟨hq, hc⟩
    | collect done =>
      obtain ⟨hs, _⟩ := collect_spec done p
      simp only [asyncLogPublisher.step, hs.log_eq]
      constructor
      · rw [List.pairwise_append]
        refine ⟨hq, hs.quiet, ?_⟩
        rintro e₁ he₁ e₂ he₂ ⟨a, ha⟩ b ev' hsend
        subst ha hsend
        have h1 := hc ⟨a, he₁⟩
        have h2 := (hs.sent b ev' he₂).1
        rw [h1] at h2
        cases h2
      · rintro ⟨a, ha⟩
        rcases List.mem_append.1 ha with ha | ha
        · exact hs.stop_mono (hc ⟨a, ha⟩)
        · exact hs.cancel_stops a ha
  induction steps generalizing p with
  | nil => exact ⟨hq, hc⟩
  | cons s rest ih =>
    have h1 := hstep p hord hq hc s
    have h2 := hord.step s
    unfold asyncLogPublisher.run
    split
    · next b p1 heq =>
      rw [heq] at h1 h2
      exact ih h2 h1.1 h1.2
    · next o p1 _ heq =>
      rw [heq] at h1
      exact h1

theorem mem_unlinkedBatches {l : List Effect} {a : Nat} :
    a ∈ unlinkedBatches l ↔ ∃ st, Effect.unlink a st ∈ l := by
  induction l with
  | nil => simp [unlinkedBatches]
  | cons e l ih =>
    cases e with
    | publish pl b => simp [unlinkedBatches, ih]
    | send b ev => simp [unlinkedBatches, ih]
    | unlink b st =>
      simp only [unlinkedBatches, List.mem_cons, ih, Effect.unlink.injEq]
      constructor
      · rintro (h | ⟨st', h⟩)
        · exact ⟨st, Or.inl ⟨h, rfl⟩⟩
        · exact ⟨st', Or.inr h⟩
      · rintro ⟨st', (⟨h, _⟩ | h)⟩
        · exact Or.inl h
        · exact Or.inr ⟨st', h⟩

theorem chain_eq_range (heap : List eventsBatch) (lo : Nat)
    (hlink : ∀ x r', lo ≤ x → heap[x]? = some r' →
      r'.next = if x + 1 < heap.length then some (x + 1) else none) :
    ∀ fuel a, lo ≤ a → a < heap.length → heap.length - a ≤ fuel →
      chain heap fuel (some a) = List.range' a (heap.length - a) := by
  intro fuel
  induction fuel with
  | zero => intro a _ h1 h2; omega
  | succ fuel ih =>
    intro a hlo hlt hfuel
    have hr : heap[a]? = some heap[a] := List.getElem?_eq_getElem hlt
    have hn := hlink a _ hlo hr
    have hlen : heap.length - a = (heap.length - (a + 1)) + 1 := by omega
    rw [hlen, List.range'_succ]
    simp only [chain, hr, hn]
    congr 1
    split_ifs with h
    · exact ih (a + 1) (by omega) h (by omega)
    · have : heap.length - (a + 1) = 0 := by omega
      rw [this]
      cases fuel <;> rfl

/-- In a well formed state the in-flight queue holds the addresses from
`front` up to the last allocated record. -/
theorem queue_eq_range {p : asyncLogPublisher} (hwf : WellFormed p) :
    p.queue = List.range' p.front (p.heap.length - p.front) := by
  unfold asyncLogPublisher.queue
  cases hh : p.active.head with
  | none =>
    have : p.front = p.heap.length := by simp [asyncLogPublisher.front, hh]
    rw [this]
    cases p.heap.length <;> simp [chain]
  | some b =>
    have hf := front_of_head hh
    rw [hf]
    exact chain_eq_range p.heap b
      (fun x r' hx hr' => hwf.next_eq x r' (by rw [hf]; exact hx) hr')
      p.heap.length b (Nat.le_refl _) (hwf.head_lt b hh) (Nat.sub_le _ _)

theorem reachesFailed_nil (fl : Nat → batchStatus) (s : Bool) : ¬ reachesFailed fl s [] := by
  rintro ⟨pre, i, post, h, _⟩
  simp at h

theorem reachesFailed_cons (fl : Nat → batchStatus) (s : Bool) (b : Nat) (q : List Nat) :
    reachesFailed fl s (b :: q) ↔
      fl b = batchFailed ∨
        ((fl b = batchInProgress → s = true) ∧
          reachesFailed fl (s || decide (fl b = batchCanceled)) q) := by
  constructor
  · rintro ⟨pre, i, post, hsplit, hfail, hpre⟩
    rcases List.cons_eq_append_iff.1 hsplit with ⟨hnil, hcons⟩ | ⟨pre', hpre', hq⟩
    · injection hcons with h1 h2
      subst h1
      exact Or.inl hfail
    · right
      refine ⟨fun hb => ?_, pre', i, post, hq, hfail, ?_⟩
      · rcases hpre [] b pre' (by simpa using hpre') hb with h | ⟨k, hk, _⟩
        · exact h
        · simp at hk
      · intro pre₁ j pre₂ hj hfj
        rcases hpre (b :: pre₁) j pre₂ (by rw [hpre', hj]; rfl) hfj with h | ⟨k, hk, hck⟩
        · left; simp [h]
        · rcases List.mem_cons.1 hk with hkb | hk'
          · left
            subst hkb
            simp [hck]
          · exact Or.inr ⟨k, hk', hck⟩
  · rintro (hfail | ⟨hb, pre, i, post, hq, hfail, hpre⟩)
    · exact ⟨[], b, q, rfl, hfail, by simp⟩
    · refine ⟨b :: pre, i, post, by rw [hq]; rfl, hfail, ?_⟩
      intro pre₁ j pre₂ hj hfj
      rcases List.cons_eq_append_iff.1 hj with ⟨hnil, hcons⟩ | ⟨pre₁', hpre₁, hrest⟩
      · injection hcons with h1 h2
        subst h1
        exact Or.inl (hb hfj)
      · rcases hpre pre₁' j pre₂ hrest hfj with h | ⟨k, hk, hck⟩
        · rcases Bool.or_eq_true _ _ ▸ h with h' | h'
          · exact Or.inl h'
          · exact Or.inr ⟨b, by rw [hpre₁]; exact List.mem_cons_self _ _, by simpa using h'⟩
        · exact Or.inr ⟨k, by rw [hpre₁]; exact List.mem_cons_of_mem _ hk, hck⟩

theorem range_front {p : asyncLogPublisher} (hwf : WellFormed p) {b : Nat}
    (hb : p.active.head = some b) :
    List.range' p.front (p.heap.length - p.front) =
      b :: List.range' (b + 1) (p.heap.length - (b + 1)) := by
  have hlt := hwf.head_lt b hb
  rw [front_of_head hb]
  have : p.heap.length - b = (p.heap.length - (b + 1)) + 1 := by omega
  rw [this, List.range'_succ]

/-- When `p.done` never wins, the loop of `collect` panics exactly when its
scan reaches a failed record. -/
theorem collectLoop_panics (done : Nat → Bool) (hdone : ∀ b, done b = false) (fuel : Nat)
    (b : Option Nat) (p : asyncLogPublisher) :
    WellFormed p → b = p.active.head → p.heap.length - p.front ≤ fuel →
      ((collectLoop done fuel b p).1 = Outcome.panicked ↔
        reachesFailed p.flagOf p.stopping
          (List.range' p.front (p.heap.length - p.front))) := by
  refine collectLoop_induct done
    (fun fuel b p res => WellFormed p → b = p.active.head →
      p.heap.length - p.front ≤ fuel →
      (res.1 = Outcome.panicked ↔ reachesFailed p.flagOf p.stopping
        (List.range' p.front (p.heap.length - p.front))))
    ?_ ?_ ?_ ?_ ?_ ?_ ?_ ?_ fuel b p
  · intro _ p hwf hb _
    have : p.front = p.heap.length := by simp [asyncLogPublisher.front, ← hb]
    rw [this]
    simp [reachesFailed_nil]
  · intro b p hwf hb hfuel
    have := hwf.head_lt b hb.symm
    rw [front_of_head hb.symm] at hfuel
    omega
  · intro _ b p hnone hwf hb _
    have := hwf.head_lt b hb.symm
    rw [List.getElem?_eq_none_iff] at hnone
    omega
  · intro _ b p r hr hf hs hwf hb _
    rw [range_front hwf hb.symm, reachesFailed_cons, flagOf_of_get hr, hf, hs]
    simp
  · intro _ b p r hr hf hwf hb _
    rw [range_front hwf hb.symm, reachesFailed_cons, flagOf_of_get hr, hf]
    simp
  · intro fuel b p r res hr hin hnf hst ih hwf hb hfuel
    have hb' : p.active.head = some b := hb.symm
    have hfd := front_drop hwf hb' hr
    have hih := ih (hwf.drop hb' hr) rfl (by
      rw [hfd]
      rw [front_of_head hb'] at hfuel
      have : (p.drop b r).heap = p.heap := rfl
      rw [this]
      omega)
    rw [hih, range_front hwf hb', reachesFailed_cons, flagOf_of_get hr, hfd]
    have hheap : (p.drop b r).heap = p.heap := rfl
    have hfl : (p.drop b r).flagOf = p.flagOf := rfl
    have hstop : (p.drop b r).stopping = (p.stopping || decide (r.flag = batchCanceled)) := rfl
    rw [hheap, hfl, hstop]
    constructor
    · intro h
      exact Or.inr ⟨hin, h⟩
    · rintro (h | ⟨_, h⟩)
      · exact absurd h hnf
      · exact h
  · intro _ b p r _ _ _ hd
    rw [hdone b] at hd
    cases hd
  · intro fuel b p r res hr hf hs _ ih hwf hb hfuel
    have hb' : p.active.head = some b := hb.symm
    have hfd := front_drop hwf hb' hr
    have hih := ih ((hwf.drop hb' hr).forward b r) rfl (by
      rw [front_forward, hfd]
      rw [front_of_head hb'] at hfuel
      have : ((p.drop b r).forward b r).heap = p.heap := rfl
      rw [this]
      omega)
    rw [hih, range_front hwf hb', reachesFailed_cons, flagOf_of_get hr, front_forward, hfd]
    have hheap : ((p.drop b r).forward b r).heap = p.heap := rfl
    have hfl : ((p.drop b r).forward b r).flagOf = p.flagOf := rfl
    have hstop : ((p.drop b r).forward b r).stopping =
        (p.stopping || decide (r.flag = batchCanceled)) := rfl
    rw [hheap, hfl, hstop, hf]
    simp

theorem pubEventsLoop_eq (events : List FileEvent) (acc : List MapStr) :
    pubEventsLoop events acc =
      acc ++ (events.filter (fun e => decide (e.Bytes > 0))).map FileEvent.ToMapStr := by
  induction events generalizing acc with
  | nil => simp [pubEventsLoop]
  | cons e rest ih =>
    by_cases h : e.Bytes > 0
    · simp [pubEventsLoop, h, ih]
    · simp [pubEventsLoop, h, ih]

theorem requeued_onFail (w : asyncWorker) (tryPush : eventsMessage → Bool)
    (msg : eventsMessage) (err : PublishError) :
    requeued (w.onFail tryPush msg err) = some msg := by
  unfold asyncWorker.onFail
  split_ifs <;> rfl

theorem onFail_retryCalls (w : asyncWorker) (tryPush : eventsMessage → Bool)
    (msg : eventsMessage) (err : PublishError) :
    w.onFail tryPush msg err = retryCalls tryPush msg := rfl

theorem requeued_retryCalls (tryPush : eventsMessage → Bool) (msg : eventsMessage) :
    requeued (retryCalls tryPush msg) = some msg := by
  unfold retryCalls
  split_ifs <;> rfl

theorem onFail_calls (w : asyncWorker) (tryPush : eventsMessage → Bool)
    (msg : eventsMessage) (err : PublishError) (c : WorkerCall)
    (hc : c ∈ w.onFail tryPush msg err) :
    c = WorkerCall.tryPushFailed msg (tryPush msg) ∨ c = WorkerCall.pushFailed msg := by
  unfold asyncWorker.onFail at hc
  split_ifs at hc with h
  · rw [h]
    simpa using hc
  · simp only [List.mem_singleton] at hc
    have ht : tryPush msg = true := by simpa using h
    rw [ht]
    exact Or.inl hc

/-- A bulk completion that reports the whole input as failed with
`ErrTempBulkFailure`, for a message with `attemptsLeft = j + 1` and a positive
`maxAttempts`: the last attempt drops, any other puts the message back with one
attempt less. -/
theorem handleResults_all_failed (w : asyncWorker) (tryPush : eventsMessage → Bool)
    (msg : eventsMessage) (j : Nat) (hmax : 0 < w.ctx.maxAttempts)
    (hatt : msg.attemptsLeft = (j : Int) + 1) :
    w.handleResults tryPush msg msg.events (some ErrTempBulkFailure) =
      if j = 0 then [WorkerCall.dropping { msg with attemptsLeft := 0 }]
      else w.onFail tryPush { msg with attemptsLeft := j } ErrTempBulkFailure := by
  have hpos : msg.attemptsLeft > 0 := by omega
  simp only [asyncWorker.handleResults, hpos, if_true, Nat.lt_irrefl, false_and, if_false,
    ne_eq, not_true_eq_false, hmax, true_and, hatt, Int.add_sub_cancel]
  by_cases hj : j = 0
  · subst hj
    simp
  · have : ¬ ((j : Int) = 0) := by omega
    simp [hj, this]

/-- Rounds of a client that always fails the whole input. -/
theorem bulkRounds_alwaysFails (w : asyncWorker) (tryPush : eventsMessage → Bool)
    (hmax : 0 < w.ctx.maxAttempts) (j : Nat) :
    ∀ (fuel i : Nat) (msg : eventsMessage), j + 1 ≤ fuel →
      msg.attemptsLeft = (j : Int) + 1 →
      ∃ front last, bulkRounds w tryPush alwaysFails fuel i msg = front ++ [last] ∧
        front.length = j ∧
        (∀ r ∈ front, r.failed = msg.events ∧ r.input.events = msg.events ∧
          r.err = some ErrTempBulkFailure ∧
          requeued r.calls = some { r.input with attemptsLeft := r.input.attemptsLeft - 1 } ∧
          0 < r.input.attemptsLeft - 1 ∧
          r.calls = retryCalls tryPush
            { r.input with attemptsLeft := r.input.attemptsLeft - 1 }) ∧
        last.input = { msg with worker := w.id, attemptsLeft := 1 } ∧
        last.failed = msg.events ∧ last.err = some ErrTempBulkFailure ∧
        last.calls = [WorkerCall.dropping { msg with worker := w.id, attemptsLeft := 0 }] := by
  induction j with
  | zero =>
    intro fuel i msg hfuel hatt
    obtain ⟨fuel, rfl⟩ : ∃ f, fuel = f + 1 := ⟨fuel - 1, by omega⟩
    have hatt' : ({ msg with worker := w.id } : eventsMessage).attemptsLeft =
        ((0 : Nat) : Int) + 1 := hatt
    have hcalls := handleResults_all_failed w tryPush { msg with worker := w.id } 0 hmax hatt'
    simp only [if_true] at hcalls
    refine ⟨[], ⟨{ msg with worker := w.id }, msg.events, some ErrTempBulkFailure,
      [WorkerCall.dropping { msg with worker := w.id, attemptsLeft := 0 }]⟩,
      ?_, rfl, by simp, ?_, rfl, rfl, rfl⟩
    · simp only [bulkRounds, alwaysFails, hcalls, requeued, List.nil_append]
    · have h1 : msg.attemptsLeft = 1 := by simpa using hatt
      simp only [h1]
  | succ j ih =>
    intro fuel i msg hfuel hatt
    obtain ⟨fuel, rfl⟩ : ∃ f, fuel = f + 1 := ⟨fuel - 1, by omega⟩
    have hatt' : ({ msg with worker := w.id } : eventsMessage).attemptsLeft =
        ((j + 1 : Nat) : Int) + 1 := hatt
    have hcalls := handleResults_all_failed w tryPush { msg with worker := w.id } (j + 1)
      hmax hatt'
    simp only [Nat.add_one_ne_zero, if_false] at hcalls
    have hre := requeued_onFail w tryPush
      { msg with worker := w.id, attemptsLeft := ((j + 1 : Nat) : Int) } ErrTempBulkFailure
    obtain ⟨front, last, hrun, hlen, hfront, hin, hfa, herr, hca⟩ :=
      ih fuel (i + 1) { msg with worker := w.id, attemptsLeft := ((j + 1 : Nat) : Int) }
        (by omega) (by simp)
    refine ⟨⟨{ msg with worker := w.id }, msg.events, some ErrTempBulkFailure,
      w.onFail tryPush { msg with worker := w.id, attemptsLeft := ((j + 1 : Nat) : Int) }
        ErrTempBulkFailure⟩ :: front, last, ?_, by simp [hlen], ?_, hin, hfa, herr, hca⟩
    · simp only [bulkRounds, alwaysFails, hcalls, hre, List.cons_append]
      exact congrArg _ hrun
    · intro r hr
      rcases List.mem_cons.1 hr with hr | hr
      · subst hr
        have hsub : msg.attemptsLeft - 1 = ((j + 1 : Nat) : Int) := by
          rw [hatt]; omega
        refine ⟨rfl, rfl, rfl, ?_, ?_, ?_⟩
        · simp only [hre, hsub]
        · simp only [hsub]; omega
        · simp only [hsub]
          rfl
      · exact hfront r hr

theorem bulkRounds_succ (w : asyncWorker) (tryPush : eventsMessage → Bool)
    (client : Nat → eventsMessage → List MapStr × Option PublishError)
    (fuel i : Nat) (msg : eventsMessage) :
    bulkRounds w tryPush client (fuel + 1) i msg =
      match requeued (w.handleResults tryPush { msg with worker := w.id }
          (client i { msg with worker := w.id }).1
          (client i { msg with worker := w.id }).2) with
      | none =>
        [{ input := { msg with worker := w.id },
           failed := (client i { msg with worker := w.id }).1,
           err := (client i { msg with worker := w.id }).2,
           calls := w.handleResults tryPush { msg with worker := w.id }
             (client i { msg with worker := w.id }).1
             (client i { msg with worker := w.id }).2 }]
      | some m =>
        { input := { msg with worker := w.id },
          failed := (client i { msg with worker := w.id }).1,
          err := (client i { msg with worker := w.id }).2,
          calls := w.handleResults tryPush { msg with worker := w.id }
            (client i { msg with worker := w.id }).1
            (client i { msg with worker := w.id }).2 } ::
          bulkRounds w tryPush client fuel (i + 1) m := rfl

/-- A bulk completion that reports fewer failed events than were sent, with an
error, for a message whose counter is not negative: the counter is reset and
the failed events are put back. -/
theorem handleResults_progress_err (w : asyncWorker) (tryPush : eventsMessage → Bool)
    (msg : eventsMessage) (failed : List MapStr) (e : PublishError)
    (hmax : 0 < w.ctx.maxAttempts) (hatt : 0 ≤ msg.attemptsLeft)
    (hlt : failed.length < msg.events.length) :
    w.handleResults tryPush msg failed (some e) =
      w.onFail tryPush { msg with attemptsLeft := w.ctx.maxAttempts, events := failed } e := by
  have hne : ¬ (w.ctx.maxAttempts = 0) := by omega
  unfold asyncWorker.handleResults
  by_cases hpos : msg.attemptsLeft > 0
  · have h1 : msg.attemptsLeft - 1 ≥ 0 := by omega
    by_cases he : e = ErrTempBulkFailure
    · simp [hpos, hlt, h1, he, hne]
    · simp [hpos, hlt, h1, he]
  · have h1 : msg.attemptsLeft ≥ 0 := hatt
    by_cases he : e = ErrTempBulkFailure
    · simp [hpos, hlt, h1, he, hne]
    · simp [hpos, hlt, h1, he]

theorem handleResults_ok_some (w : asyncWorker) (tryPush : eventsMessage → Bool)
    (msg : eventsMessage) (failed : List MapStr) (hne : failed ≠ []) :
    w.handleResults tryPush msg failed none =
      [WorkerCall.pushFailed { msg with events := failed }] := by
  simp [asyncWorker.handleResults, hne]

theorem handleResults_ok_nil (w : asyncWorker) (tryPush : eventsMessage → Bool)
    (msg : eventsMessage) :
    w.handleResults tryPush msg [] none = [WorkerCall.SigCompleted msg.signaler] := by
  simp [asyncWorker.handleResults]

/-- Rounds of a client that reports fewer failed events than it was sent, and
nothing failed and no error for an empty batch: the run ends with a round that
signals success, after rounds that put the failed events back. -/
theorem bulkRounds_progress (w : asyncWorker) (tryPush : eventsMessage → Bool)
    (client : Nat → eventsMessage → List MapStr × Option PublishError)
    (hmax : 0 < w.ctx.maxAttempts)
    (hsmaller : ∀ i m, m.events ≠ [] → (client i m).1.length < m.events.length)
    (hempty : ∀ i m, m.events = [] → client i m = ([], none)) (n : Nat) :
    ∀ (i : Nat) (msg : eventsMessage), msg.events.length ≤ n →
      0 ≤ msg.attemptsLeft ∧ msg.attemptsLeft ≤ w.ctx.maxAttempts →
      ∃ front last, front.length + 1 ≤ msg.events.length + 1 ∧
        (∀ fuel, front.length + 1 ≤ fuel →
          bulkRounds w tryPush client fuel i msg = front ++ [last]) ∧
        (∀ r ∈ front, putsBack w.ctx.maxAttempts tryPush r) ∧
        last.failed = [] ∧ last.err = none ∧
        last.calls = [WorkerCall.SigCompleted msg.signaler] := by
  have hbase : ∀ (i : Nat) (msg : eventsMessage), msg.events = [] →
      ∃ front last, front.length + 1 ≤ msg.events.length + 1 ∧
        (∀ fuel, front.length + 1 ≤ fuel →
          bulkRounds w tryPush client fuel i msg = front ++ [last]) ∧
        (∀ r ∈ front, putsBack w.ctx.maxAttempts tryPush r) ∧
        last.failed = [] ∧ last.err = none ∧
        last.calls = [WorkerCall.SigCompleted msg.signaler] := by
    intro i msg hem
    have hc := hempty i { msg with worker := w.id } hem
    have hcalls := handleResults_ok_nil w tryPush { msg with worker := w.id }
    refine ⟨[], ⟨{ msg with worker := w.id }, [], none,
      [WorkerCall.SigCompleted msg.signaler]⟩, by simp, ?_, by simp, rfl, rfl, rfl⟩
    intro fuel hfuel
    obtain ⟨fuel, rfl⟩ : ∃ f, fuel = f + 1 := ⟨fuel - 1, by simp at hfuel; omega⟩
    rw [bulkRounds_succ, hc, hcalls]
    rfl
  induction n with
  | zero =>
    intro i msg hlen _
    exact hbase i msg (List.length_eq_zero.1 (Nat.le_zero.1 hlen))
  | succ n ih =>
    intro i msg hlen hatt
    by_cases hem : msg.events = []
    · exact hbase i msg hem
    obtain ⟨failed, hfl⟩ : ∃ f, (client i { msg with worker := w.id }).1 = f := ⟨_, rfl⟩
    obtain ⟨err, herr⟩ : ∃ e, (client i { msg with worker := w.id }).2 = e := ⟨_, rfl⟩
    have hunfold : ∀ fuel, bulkRounds w tryPush client (fuel + 1) i msg =
        match requeued (w.handleResults tryPush { msg with worker := w.id } failed err) with
        | none =>
          [{ input := { msg with worker := w.id }, failed := failed, err := err,
             calls := w.handleResults tryPush { msg with worker := w.id } failed err }]
        | some m =>
          { input := { msg with worker := w.id }, failed := failed, err := err,
            calls := w.handleResults tryPush { msg with worker := w.id } failed err } ::
            bulkRounds w tryPush client fuel (i + 1) m := by
      intro fuel
      rw [bulkRounds_succ, hfl, herr]
    have hfirst : failed.length < msg.events.length := by
      rw [← hfl]
      exact hsmaller i { msg with worker := w.id } hem
    cases err with
    | none =>
      cases failed with
      | nil =>
        have hcalls := handleResults_ok_nil w tryPush { msg with worker := w.id }
        refine ⟨[], ⟨{ msg with worker := w.id }, [], none,
          [WorkerCall.SigCompleted msg.signaler]⟩, by simp, ?_, by simp, rfl, rfl, rfl⟩
        intro fuel hfuel
        obtain ⟨fuel, rfl⟩ : ∃ f, fuel = f + 1 := ⟨fuel - 1, by simp at hfuel; omega⟩
        rw [hunfold, hcalls]
        rfl
      | cons x xs =>
        have hcalls := handleResults_ok_some w tryPush { msg with worker := w.id } (x :: xs)
          (by simp)
        have hre : requeued (w.handleResults tryPush { msg with worker := w.id } (x :: xs)
            none) = some { msg with worker := w.id, events := x :: xs } := by
          rw [hcalls]; rfl
        obtain ⟨front, last, hlen', hrun, hfront, h1, h2, h3⟩ :=
          ih (i + 1) { msg with worker := w.id, events := x :: xs }
            (Nat.le_of_lt_succ (Nat.lt_of_lt_of_le hfirst hlen)) hatt
        have hlen'' : front.length + 1 ≤ (x :: xs).length + 1 := hlen'
        refine ⟨⟨{ msg with worker := w.id }, x :: xs, none,
          [WorkerCall.pushFailed { msg with worker := w.id, events := x :: xs }]⟩ :: front,
          last, ?_, ?_, ?_, h1, h2, h3⟩
        · rw [List.length_cons]
          omega
        · intro fuel hfuel
          obtain ⟨fuel, rfl⟩ : ∃ f, fuel = f + 1 := ⟨fuel - 1, by omega⟩
          rw [hunfold, hre]
          simp only [hcalls, List.cons_append]
          rw [hrun fuel (by rw [List.length_cons] at hfuel; omega)]
        · intro r hr
          rcases List.mem_cons.1 hr with hr | hr
          · subst hr
            refine ⟨{ msg with worker := w.id, events := x :: xs }, rfl, rfl,
              (fun _ => rfl), (fun h => absurd rfl h), Int.le_refl _,
              (fun h => absurd rfl h), (fun _ => rfl), by simp, by simp⟩
          · exact hfront r hr
    | some e =>
      have hcalls := handleResults_progress_err w tryPush { msg with worker := w.id }
        failed e hmax hatt.1 hfirst
      have hre := requeued_onFail w tryPush
        { msg with worker := w.id, attemptsLeft := w.ctx.maxAttempts, events := failed } e
      obtain ⟨front, last, hlen', hrun, hfront, h1, h2, h3⟩ :=
        ih (i + 1)
          { msg with worker := w.id, attemptsLeft := w.ctx.maxAttempts, events := failed }
          (Nat.le_of_lt_succ (Nat.lt_of_lt_of_le hfirst hlen))
          ⟨Int.le_of_lt hmax, Int.le_refl _⟩
      have hlen'' : front.length + 1 ≤ failed.length + 1 := hlen'
      refine ⟨⟨{ msg with worker := w.id }, failed, some e,
        w.onFail tryPush
          { msg with worker := w.id, attemptsLeft := w.ctx.maxAttempts, events := failed }
          e⟩ :: front,
        last, ?_, ?_, ?_, h1, h2, h3⟩
      · rw [List.length_cons]
        omega
      · intro fuel hfuel
        obtain ⟨fuel, rfl⟩ : ∃ f, fuel = f + 1 := ⟨fuel - 1, by omega⟩
        rw [hunfold, hcalls, hre]
        simp only [List.cons_append]
        rw [hrun fuel (by rw [List.length_cons] at hfuel; omega)]
      · intro r hr
        rcases List.mem_cons.1 hr with hr | hr
        · subst hr
          refine ⟨_, hre, rfl, (fun h => Option.noConfusion h), (fun _ => rfl), hatt.2,
            (fun _ => rfl), (fun h => Option.noConfusion h), ?_, ?_⟩
          · intro m' hm'
            rcases onFail_calls w tryPush _ e _ hm' with h | h <;> cases h
          · intro s hs
            rcases onFail_calls w tryPush _ e _ hs with h | h <;> cases h
        · exact hfront r hr

/-- The client `oneByOne` reports fewer failed events than a non-empty batch
holds. -/
theorem oneByOne_smaller (i : Nat) (m : eventsMessage) (h : m.events ≠ []) :
    (oneByOne i m).1.length < m.events.length := by
  have hpos : 0 < m.events.length := List.length_pos.2 h
  show (m.events.drop 1).length < m.events.length
  rw [List.length_drop]
  omega

/-- The client `oneByOne` reports nothing failed and no error for an empty
batch. -/
theorem oneByOne_empty (i : Nat) (m : eventsMessage) (h : m.events = []) :
    oneByOne i m = ([], none) := by
  simp [oneByOne, h]

/-- A bulk completion with an error, in terms of `attemptsAfter`. -/
theorem handleResults_err_shape (w : asyncWorker) (tryPush : eventsMessage → Bool)
    (msg : eventsMessage) (events : List MapStr) (e : PublishError) :
    w.handleResults tryPush msg events (some e) =
      if e ≠ ErrTempBulkFailure then
        w.onFail tryPush
          { msg with attemptsLeft := attemptsAfter w msg events, events := events } e
      else if w.ctx.maxAttempts > 0 ∧ attemptsAfter w msg events = 0 then
        [WorkerCall.dropping { msg with attemptsLeft := attemptsAfter w msg events }]
      else
        w.onFail tryPush
          { msg with attemptsLeft := attemptsAfter w msg events, events := events } e := by
  unfold asyncWorker.handleResults attemptsAfter
  by_cases h1 : msg.attemptsLeft > 0 <;>
    by_cases h2 : events.length < msg.events.length <;>
    by_cases h3 : msg.attemptsLeft - 1 ≥ 0 <;>
    by_cases h4 : msg.attemptsLeft ≥ 0 <;>
    simp [h1, h2, h3, h4]

/-- A bulk completion calls `dropping` only when the counter after the
decrement and the reset is `0`. -/
theorem dropping_mem_handleResults (w : asyncWorker) (tryPush : eventsMessage → Bool)
    (msg : eventsMessage) (events : List MapStr) (err : Option PublishError)
    (m : eventsMessage) (hm : WorkerCall.dropping m ∈ w.handleResults tryPush msg events err) :
    attemptsAfter w msg events = 0 := by
  cases err with
  | none =>
    unfold asyncWorker.handleResults at hm
    simp only at hm
    split_ifs at hm <;> simp at hm
  | some e =>
    rw [handleResults_err_shape] at hm
    split_ifs at hm with h1 h2
    · rcases onFail_calls w tryPush _ e _ hm with h | h <;> cases h
    · exact h2.2
    · rcases onFail_calls w tryPush _ e _ hm with h | h <;> cases h

/-- The messages in the calls of a single-event completion or of `onMessage`
carry the counter after the decrement. -/
theorem onFail_message (w : asyncWorker) (tryPush : eventsMessage → Bool)
    (msg : eventsMessage) (e : PublishError) (c : WorkerCall)
    (hc : c ∈ w.onFail tryPush msg e) (m : eventsMessage) (hm : c.message = some m) :
    m = msg := by
  rcases onFail_calls w tryPush msg e c hc with h | h <;>
    (subst h; cases hm; rfl)

theorem eventsOf_of_get {p : asyncLogPublisher} {b : Nat} {r : eventsBatch}
    (h : p.heap[b]? = some r) : p.eventsOf b = r.events := by
  simp [asyncLogPublisher.eventsOf, h]

theorem NoCancelPass.stayPut {p : asyncLogPublisher} (o : Outcome)
    (ho : o = Outcome.panicked ∨ o = Outcome.returned true)
    (hp : o = Outcome.returned true → p.stopping = false →
      ∀ b, p.active.head = some b → p.flagOf b = batchInProgress) :
    NoCancelPass p (o, p) [] where
  outcome := ho
  delivered_eq := rfl
  stop_sent := fun _ => rfl
  stop_keep := id
  sent_range := fun _ => ⟨0, rfl, fun _ => rfl⟩
  stop_cause := Or.inl
  head_pending := hp

theorem NoCancelPass.skipped {p : asyncLogPublisher} {res : Outcome × asyncLogPublisher}
    {b : Nat} {r : eventsBatch} {ext : List Effect} (hwf : WellFormed p)
    (hb : p.active.head = some b) (hr : p.heap[b]? = some r)
    (hst : (p.drop b r).stopping = true) (h : NoCancelPass (p.drop b r) res ext) :
    NoCancelPass p res (Effect.unlink b r.flag :: ext) where
  outcome := h.outcome
  delivered_eq := h.delivered_eq
  stop_sent := fun _ => h.stop_sent hst
  stop_keep := fun _ => h.stop_keep hst
  sent_range := by
    intro _
    refine ⟨0, h.stop_sent hst, fun hs => ?_⟩
    rw [h.stop_keep hst] at hs
    cases hs
  stop_cause := by
    intro _
    cases hp : p.stopping with
    | true => exact Or.inl rfl
    | false =>
      right
      have hcan : r.flag = batchCanceled := by
        simpa [asyncLogPublisher.drop, hp] using hst
      exact ⟨b, by rw [front_of_head hb], hwf.head_lt b hb, by rw [flagOf_of_get hr, hcan]⟩
  head_pending := by
    intro _ hs
    rw [h.stop_keep hst] at hs
    cases hs

theorem NoCancelPass.sentStep {p : asyncLogPublisher} {res : Outcome × asyncLogPublisher}
    {b : Nat} {r : eventsBatch} {ext : List Effect} (hwf : WellFormed p)
    (hb : p.active.head = some b) (hr : p.heap[b]? = some r)
    (hfs : r.flag = batchSuccess) (hs : p.stopping = false)
    (h : NoCancelPass ((p.drop b r).forward b r) res ext) :
    NoCancelPass p res (Effect.unlink b r.flag :: Effect.send b r.events :: ext) := by
  have hf : ((p.drop b r).forward b r).front = b + 1 := by
    rw [front_forward, front_drop hwf hb hr]
  have hpf := front_of_head hb
  have hs' : ((p.drop b r).forward b r).stopping = false := by
    simp [asyncLogPublisher.drop, asyncLogPublisher.forward, hs, hfs]
  refine ⟨h.outcome, ?_, ?_, ?_, ?_, ?_, ?_⟩
  · have := h.delivered_eq
    have he : ((p.drop b r).forward b r).eventsOf = p.eventsOf := rfl
    rw [he] at this
    simp only [delivered, sentBatches, List.map_cons, this, eventsOf_of_get hr]
  · intro hst
    rw [hs] at hst
    cases hst
  · intro hst
    rw [hs] at hst
    cases hst
  · intro _
    obtain ⟨k, hk, hfront⟩ := h.sent_range hs'
    rw [hf] at hk hfront
    refine ⟨k + 1, ?_, fun hq => ?_⟩
    · simp only [sentBatches, hk, hpf, List.range'_succ]
    · have := hfront hq
      rw [hpf]
      omega
  · intro hq
    rcases h.stop_cause hq with hst | ⟨a, ha1, ha2, ha3⟩
    · rw [hs'] at hst
      cases hst
    · right
      rw [hf] at ha1
      exact ⟨a, by rw [hpf]; omega, ha2, ha3⟩
  · exact h.head_pending

/-- The loop of `collect` from a well formed state when `p.done` never wins. -/
theorem collectLoop_noCancel (done : Nat → Bool) (hdone : ∀ b, done b = false) (fuel : Nat)
    (b : Option Nat) (p : asyncLogPublisher) :
    WellFormed p → b = p.active.head → p.heap.length - p.front ≤ fuel →
      ∃ ext, (collectLoop done fuel b p).2.log = p.log ++ ext ∧
        NoCancelPass p (collectLoop done fuel b p) ext := by
  refine collectLoop_induct done
    (fun fuel b p res => WellFormed p → b = p.active.head →
      p.heap.length - p.front ≤ fuel →
      ∃ ext, res.2.log = p.log ++ ext ∧ NoCancelPass p res ext)
    ?_ ?_ ?_ ?_ ?_ ?_ ?_ ?_ fuel b p
  · intro _ p _ hb _
    refine ⟨[], by simp, NoCancelPass.stayPut _ (Or.inr rfl) ?_⟩
    intro _ _ c hc
    rw [← hb] at hc
    cases hc
  · intro b p hwf hb hfuel
    have := hwf.head_lt b hb.symm
    rw [front_of_head hb.symm] at hfuel
    omega
  · intro _ b p hnone hwf hb _
    have := hwf.head_lt b hb.symm
    rw [List.getElem?_eq_none_iff] at hnone
    omega
  · intro _ b p r hr hf _ _ hb _
    refine ⟨[], by simp, NoCancelPass.stayPut _ (Or.inr rfl) ?_⟩
    intro _ _ c hc
    rw [← hb] at hc
    cases hc
    rw [flagOf_of_get hr, hf]
  · intro _ b p r _ _ _ _ _
    exact ⟨[], by simp, NoCancelPass.stayPut _ (Or.inl rfl) (fun h => by cases h)⟩
  · rintro fuel b p r res hr _ _ hst ih hwf hb hfuel
    have hb' : p.active.head = some b := hb.symm
    obtain ⟨ext, hlog, h⟩ := ih (hwf.drop hb' hr) rfl (by
      rw [front_drop hwf hb' hr]
      rw [front_of_head hb'] at hfuel
      have : (p.drop b r).heap = p.heap := rfl
      rw [this]
      omega)
    refine ⟨_, ?_, NoCancelPass.skipped hwf hb' hr hst h⟩
    rw [hlog]
    simp [asyncLogPublisher.drop]
  · intro _ b p r _ _ _ hd
    rw [hdone b] at hd
    cases hd
  · rintro fuel b p r res hr hf hs _ ih hwf hb hfuel
    have hb' : p.active.head = some b := hb.symm
    obtain ⟨ext, hlog, h⟩ := ih ((hwf.drop hb' hr).forward b r) rfl (by
      rw [front_forward, front_drop hwf hb' hr]
      rw [front_of_head hb'] at hfuel
      have : ((p.drop b r).forward b r).heap = p.heap := rfl
      rw [this]
      omega)
    refine ⟨_, ?_, NoCancelPass.sentStep hwf hb' hr hf hs h⟩
    rw [hlog]
    simp [asyncLogPublisher.drop, asyncLogPublisher.forward]

/-- One call of `collect` in a well formed state when `p.done` never wins. -/
theorem collect_noCancel (done : Nat → Bool) (hdone : ∀ b, done b = false)
    (p : asyncLogPublisher) (hwf : WellFormed p) :
    NoCancelPass p (p.collect done) (passLog done p) := by
  obtain ⟨ext, hlog, h⟩ :=
    collectLoop_noCancel done hdone p.heap.length p.active.head p hwf rfl (Nat.sub_le _ _)
  have : passLog done p = ext := passLog_eq hlog
  rw [this]
  exact h

theorem takeWhile_dropWhile_split {α : Type} (P : α → Bool) (l₁ l₂ : List α)
    (h₁ : ∀ x ∈ l₁, P x = true) (h₂ : ∀ x, l₂.head? = some x → P x = false) :
    (l₁ ++ l₂).takeWhile P = l₁ ∧ (l₁ ++ l₂).dropWhile P = l₂ := by
  induction l₁ with
  | nil =>
    cases l₂ with
    | nil => exact ⟨rfl, rfl⟩
    | cons x rest =>
      have := h₂ x rfl
      simp [List.takeWhile, List.dropWhile, this]
  | cons a rest ih =>
    have ha := h₁ a (List.mem_cons_self _ _)
    obtain ⟨i1, i2⟩ := ih (fun x hx => h₁ x (List.mem_cons_of_mem _ hx))
    simp [List.takeWhile, List.dropWhile, ha, i1, i2]

/-- A pass that starts at a record in progress, or at the end of the list,
with the stopping flag clear, returns `true` and changes nothing. -/
theorem collect_idle (done : Nat → Bool) (p : asyncLogPublisher) (hwf : WellFormed p)
    (hs : p.stopping = false)
    (hhead : ∀ b, p.active.head = some b → p.flagOf b = batchInProgress) :
    p.collect done = (Outcome.returned true, p) := by
  unfold asyncLogPublisher.collect
  cases hb : p.active.head with
  | none => cases p.heap.length <;> rfl
  | some b =>
    have hlt := hwf.head_lt b hb
    have hr : p.heap[b]? = some p.heap[b] := List.getElem?_eq_getElem hlt
    have hf := hhead b hb
    rw [flagOf_of_get hr] at hf
    obtain ⟨n, hn⟩ : ∃ n, p.heap.length = n + 1 := ⟨p.heap.length - 1, by omega⟩
    rw [hn, collectLoop_succ done n b p _ hr, if_pos ⟨hf, hs⟩]

theorem mem_queue_iff {p : asyncLogPublisher} (hwf : WellFormed p) (a : Nat) :
    a ∈ p.queue ↔ p.front ≤ a ∧ a < p.heap.length := by
  rw [queue_eq_range hwf, List.mem_range'_1]
  have := front_le_length hwf
  constructor
  · rintro ⟨h1, h2⟩
    exact ⟨h1, by omega⟩
  · rintro ⟨h1, h2⟩
    exact ⟨h1, by omega⟩

/-- Third invariant of the runs: the records unlinked so far are the records
before `front`, unlinked in address order. -/
theorem unlinked_run {p : asyncLogPublisher} (hord : Ordered p)
    (hu : unlinkedBatches p.log = List.range p.front) (steps : List Step) :
    unlinkedBatches (p.run steps).log = List.range (p.run steps).front := by
  have hstep : ∀ (p : asyncLogPublisher), Ordered p →
      unlinkedBatches p.log = List.range p.front → ∀ s : Step,
      unlinkedBatches (p.step s).2.log = List.range (p.step s).2.front := by
    intro p hord hu s
    cases s with
    | accept ev =>
      obtain ⟨q, hq, hacc⟩ := StartInput_spec hord.wf ev
      simp only [asyncLogPublisher.step, hq, hacc.log_eq, hacc.front_eq,
        unlinkedBatches_append, hu]
      simp [unlinkedBatches]
    | signal b s =>
      simp only [asyncLogPublisher.step, signal_log, signal_front]
      exact hu
    | collect done =>
      obtain ⟨hs, ho⟩ := collect_spec done p
      have ho := ho hord.wf
      have hfl := ho.front_le
      simp only [asyncLogPublisher.step, hs.log_eq, unlinkedBatches_append, hu, ho.unlinked_eq]
      rw [List.range_eq_range', List.range_eq_range']
      have := List.range'_append_1 0 p.front ((p.collect done).2.front - p.front)
      rw [Nat.zero_add] at this
      rw [this]
      congr 1
      omega
  induction steps generalizing p with
  | nil => exact hu
  | cons s rest ih =>
    have h1 := hstep p hord hu s
    have h2 := hord.step s
    unfold asyncLogPublisher.run
    split
    · next b p1 heq =>
      rw [heq] at h1 h2
      exact ih h2 h1
    · next o p1 _ heq =>
      rw [heq] at h1
      exact h1

/-- Accepting a batch in a well formed state appends the new record to the
queue. -/
theorem Accepted.queue_eq {p q : asyncLogPublisher} {ev : List FileEvent}
    (hwf : WellFormed p) (h : Accepted p ev q) :
    q.queue = p.queue ++ [p.heap.length] := by
  have hf := front_le_length hwf
  rw [queue_eq_range (h.wellFormed hwf), queue_eq_range hwf, h.front_eq, h.length_eq]
  have h1 : p.heap.length + 1 - p.front = (p.heap.length - p.front) + 1 := by omega
  rw [h1, List.range'_concat]
  congr 2
  omega

/-- In a well formed state `tail` is the last record of the queue. -/
theorem tail_eq_getLast {p : asyncLogPublisher} (hwf : WellFormed p) :
    p.active.tail = p.queue.getLast? := by
  rw [hwf.tail_eq, queue_eq_range hwf]
  cases hh : p.active.head with
  | none =>
    have : p.front = p.heap.length := by simp [asyncLogPublisher.front, hh]
    simp [this]
  | some b =>
    have hlt := hwf.head_lt b hh
    rw [front_of_head hh]
    have h1 : p.heap.length - b = (p.heap.length - b - 1) + 1 := by omega
    rw [h1, List.range'_concat, List.getLast?_concat]
    rw [if_neg (by simp), Nat.one_mul]
    congr 1
    omega

/-- The queue of a well formed state whose unlinked records are those before
`front`: the allocated records not unlinked, in address order. -/
theorem queue_eq_filter {p : asyncLogPublisher} (hwf : WellFormed p)
    (hu : unlinkedBatches p.log = List.range p.front) :
    p.queue =
      (List.range p.heap.length).filter (fun a => decide (a ∉ unlinkedBatches p.log)) := by
  have hf := front_le_length hwf
  rw [queue_eq_range hwf, hu]
  have hsplit : List.range p.heap.length =
      List.range p.front ++ List.range' p.front (p.heap.length - p.front) := by
    rw [List.range_eq_range', List.range_eq_range']
    have := List.range'_append_1 0 p.front (p.heap.length - p.front)
    rw [Nat.zero_add] at this
    rw [this]
    congr 1
    omega
  rw [hsplit, List.filter_append]
  have h1 : (List.range p.front).filter (fun a => decide (a ∉ List.range p.front)) = [] := by
    rw [List.filter_eq_nil_iff]
    intro a ha
    simpa using ha
  have h2 : (List.range' p.front (p.heap.length - p.front)).filter
      (fun a => decide (a ∉ List.range p.front)) =
        List.range' p.front (p.heap.length - p.front) := by
    rw [List.filter_eq_self]
    intro a ha
    rw [List.mem_range'_1] at ha
    simp only [List.mem_range, decide_eq_true_eq]
    omega
  rw [h1, h2, List.nil_append]

/-- In a run of the loop of `collect`, once a record is unlinked and not sent
right after, nothing is sent in the rest of the run of the loop. -/
theorem collectLoop_skip_ends (done : Nat → Bool) (fuel : Nat) (b : Option Nat)
    (p : asyncLogPublisher) :
    ∃ ext, PassSound p (collectLoop done fuel b p).2 ext ∧
      ∀ pre a st post, ext = pre ++ Effect.unlink a st :: post →
        (∀ ev post', post ≠ Effect.send a ev :: post') → ∀ c ev, Effect.send c ev ∉ post := by
  refine collectLoop_induct done
    (fun _ _ p res => ∃ ext, PassSound p res.2 ext ∧
      ∀ pre a st post, ext = pre ++ Effect.unlink a st :: post →
        (∀ ev post', post ≠ Effect.send a ev :: post') → ∀ c ev, Effect.send c ev ∉ post)
    ?_ ?_ ?_ ?_ ?_ ?_ ?_ ?_ fuel b p
  · exact fun _ p => ⟨[], PassSound.refl p, by simp⟩
  · exact fun _ p => ⟨[], PassSound.refl p, by simp⟩
  · exact fun _ _ p _ => ⟨[], PassSound.refl p, by simp⟩
  · exact fun _ _ p _ _ _ _ => ⟨[], PassSound.refl p, by simp⟩
  · exact fun _ _ p _ _ _ => ⟨[], PassSound.refl p, by simp⟩
  · rintro _ b p r res hr hin hnf hst ⟨ext, hs, _⟩
    refine ⟨_, PassSound.skip hr hin hnf hst hs, ?_⟩
    intro pre a st post hsplit _ c ev hmem
    have hin' : Effect.send c ev ∈ ext := by
      rcases List.cons_eq_append_iff.1 hsplit with ⟨_, hcons⟩ | ⟨pre', _, hext⟩
      · injection hcons with _ h2
        rw [← h2]
        exact hmem
      · rw [hext]
        exact List.mem_append_right _ (List.mem_cons_of_mem _ hmem)
    have := (hs.sent c ev hin').1
    rw [hst] at this
    cases this
  · intro _ b p r hr hf hs _
    refine ⟨_, PassSound.cancel hr hf hs, ?_⟩
    intro pre a st post hsplit _ c ev hmem
    rcases List.cons_eq_append_iff.1 hsplit with ⟨_, hcons⟩ | ⟨pre', _, hext⟩
    · injection hcons with _ h2
      rw [h2] at hmem
      cases hmem
    · simp at hext
  · rintro _ b p r res hr hf hs _ ⟨ext, hsd, hfact⟩
    refine ⟨_, PassSound.fwd hr hf hs hsd, ?_⟩
    intro pre a st post hsplit hskip c ev hmem
    rcases List.cons_eq_append_iff.1 hsplit with ⟨_, hcons⟩ | ⟨pre', _, hext⟩
    · injection hcons with h1 h2
      injection h1 with h3 _
      subst h3
      exact absurd h2 (hskip _ _)
    · rcases List.cons_eq_append_iff.1 hext with ⟨_, hcons⟩ | ⟨pre'', _, hext'⟩
      · cases hcons
      · exact hfact pre'' a st post hext' hskip c ev hmem

theorem WellFormed.stepKeeps {p : asyncLogPublisher} (hwf : WellFormed p) (s : Step) :
    WellFormed (p.step s).2 := by
  cases s with
  | accept ev =>
    obtain ⟨q, hq, hacc⟩ := StartInput_spec hwf ev
    simp only [asyncLogPublisher.step, hq]
    exact hacc.wellFormed hwf
  | signal b s => exact hwf.signal b s
  | collect done => exact ((collect_spec done p).2 hwf).wf

/-- From a well formed state with the stopping flag set, no run clears the
flag or sends a record. -/
theorem stopping_run {p : asyncLogPublisher} (hwf : WellFormed p)
    (hstop : p.stopping = true) (steps : List Step) :
    (p.run steps).stopping = true ∧ sentBatches (p.run steps).log = sentBatches p.log := by
  have hstep : ∀ (p : asyncLogPublisher), WellFormed p → p.stopping = true → ∀ s : Step,
      (p.step s).2.stopping = true ∧ sentBatches (p.step s).2.log = sentBatches p.log := by
    intro p hwf hstop s
    cases s with
    | accept ev =>
      obtain ⟨q, hq, hacc⟩ := StartInput_spec hwf ev
      simp only [asyncLogPublisher.step, hq, hacc.log_eq, hacc.stopping_eq, hstop,
        sentBatches_append]
      simp [sentBatches]
    | signal b s =>
      simp only [asyncLogPublisher.step, signal_log, signal_stopping, hstop, and_self]
    | collect done =>
      obtain ⟨hs, _⟩ := collect_spec done p
      refine ⟨hs.stop_mono hstop, ?_⟩
      simp only [asyncLogPublisher.step, hs.log_eq, sentBatches_append]
      have : sentBatches (passLog done p) = [] := by
        rw [List.eq_nil_iff_forall_not_mem]
        intro a ha
        obtain ⟨ev, hev⟩ := mem_sentBatches.1 ha
        have := (hs.sent a ev hev).1
        rw [hstop] at this
        cases this
      rw [this, List.append_nil]
  induction steps generalizing p with
  | nil => exact ⟨hstop, rfl⟩
  | cons s rest ih =>
    have h1 := hstep p hwf hstop s
    have h2 := hwf.stepKeeps s
    unfold asyncLogPublisher.run
    split
    · next b p1 heq =>
      rw [heq] at h1 h2
      obtain ⟨i1, i2⟩ := ih h2 h1.1
      exact ⟨i1, i2.trans h1.2⟩
    · next o p1 _ heq =>
      rw [heq] at h1
      exact h1

/-- Fourth invariant of the runs in which `p.done` never wins: the records
sent so far are the first records submitted, without a gap, and all the
records unlinked so far as long as the stopping flag is clear. -/
theorem gapfree_run {p : asyncLogPublisher} (hord : Ordered p)
    (hg : ∃ k, sentBatches p.log = List.range k ∧ (p.stopping = false → k = p.front))
    (steps : List Step) (hnc : neverCancels steps) :
    ∃ k, sentBatches (p.run steps).log = List.range k ∧
      ((p.run steps).stopping = false → k = (p.run steps).front) := by
  have hstep : ∀ (p : asyncLogPublisher), Ordered p →
      (∃ k, sentBatches p.log = List.range k ∧ (p.stopping = false → k = p.front)) →
      ∀ s : Step, (∀ done, s = Step.collect done → ∀ b, done b = false) →
      ∃ k, sentBatches (p.step s).2.log = List.range k ∧
        ((p.step s).2.stopping = false → k = (p.step s).2.front) := by
    rintro p hord ⟨k, hk, hkf⟩ s hs
    cases s with
    | accept ev =>
      obtain ⟨q, hq, hacc⟩ := StartInput_spec hord.wf ev
      refine ⟨k, ?_, ?_⟩
      · simp only [asyncLogPublisher.step, hq, hacc.log_eq, sentBatches_append, hk]
        simp [sentBatches]
      · simp only [asyncLogPublisher.step, hq, hacc.stopping_eq, hacc.front_eq]
        exact hkf
    | signal b s =>
      refine ⟨k, ?_, ?_⟩
      · simp only [asyncLogPublisher.step, signal_log]
        exact hk
      · simp only [asyncLogPublisher.step, signal_stopping, signal_front]
        exact hkf
    | collect done =>
      have hn := collect_noCancel done (hs done rfl) p hord.wf
      obtain ⟨hsnd, _⟩ := collect_spec done p
      cases hps : p.stopping with
      | true =>
        refine ⟨k, ?_, ?_⟩
        · simp only [asyncLogPublisher.step, hsnd.log_eq, sentBatches_append, hk,
            hn.stop_sent hps, List.append_nil]
        · intro hq
          have := hn.stop_keep hps
          simp only [asyncLogPublisher.step] at hq
          rw [this] at hq
          cases hq
      | false =>
        obtain ⟨j, hj, hjf⟩ := hn.sent_range hps
        have hkf' := hkf hps
        refine ⟨k + j, ?_, ?_⟩
        · simp only [asyncLogPublisher.step, hsnd.log_eq, sentBatches_append, hk, hj]
          rw [List.range_eq_range', List.range_eq_range', hkf']
          have := List.range'_append_1 0 p.front j
          rw [Nat.zero_add] at this
          rw [this]
          congr 1
          omega
        · intro hq
          simp only [asyncLogPublisher.step] at hq ⊢
          rw [hkf']
          exact hjf hq
  induction steps generalizing p with
  | nil => exact hg
  | cons s rest ih =>
    have h1 := hstep p hord hg s (hnc s (List.mem_cons_self _ _))
    have h2 := hord.step s
    unfold asyncLogPublisher.run
    split
    · next b p1 heq =>
      rw [heq] at h1 h2
      exact ih h2 h1 (fun s' hs' => hnc s' (List.mem_cons_of_mem _ hs'))
    · next o p1 _ heq =>
      rw [heq] at h1
      exact h1

/-- The batches delivered are the events of the records sent. -/
theorem delivered_eq_map {p : asyncLogPublisher} (hord : Ordered p) :
    delivered p.log = (sentBatches p.log).map p.eventsOf := by
  have hgen : ∀ log : List Effect, (∀ a ev, Effect.send a ev ∈ log → p.eventsOf a = ev) →
      delivered log = (sentBatches log).map p.eventsOf := by
    intro log
    induction log with
    | nil => intro _; rfl
    | cons e log ih =>
      intro h
      have hrest := ih (fun a ev hm => h a ev (List.mem_cons_of_mem _ hm))
      cases e with
      | publish pl b => exact hrest
      | unlink b st => exact hrest
      | send b ev =>
        simp only [delivered, sentBatches, List.map_cons, hrest,
          h b ev (List.mem_cons_self _ _)]
  apply hgen
  intro a ev hm
  obtain ⟨r, hr, he⟩ := hord.sent_events a ev hm
  rw [eventsOf_of_get hr, he]

/-! ## Claims about the ordered batch collector -/

/-- Claim C1 (ordering).  Whatever the interleaving of accepting batches,
signalling records and running `collect`, from the state of
`newAsyncLogPublisher`: the records sent to the output queue were sent in
strictly increasing address order, the record sent from address `a` carries the
`a`-th submitted batch, so the batches delivered are a sublist of the batches
submitted, in the same order; and when a pass of `collect` sends record `a`,
no record submitted before `a` is in progress. -/
theorem C1_delivery_follows_submission (steps : List Step) (done : Nat → Bool) :
    (sentBatches (newAsyncLogPublisher.run steps).log).Pairwise (· < ·) ∧
    (∀ a ev, Effect.send a ev ∈ (newAsyncLogPublisher.run steps).log →
      (submitted steps)[a]? = some ev) ∧
    List.Sublist (delivered (newAsyncLogPublisher.run steps).log) (submitted steps) ∧
    ∀ a ev, Effect.send a ev ∈ passLog done (newAsyncLogPublisher.run steps) →
      ∀ b, b < a → (newAsyncLogPublisher.run steps).flagOf b ≠ batchInProgress := by
  have hord := Ordered.init.run steps
  obtain ⟨t, ht, hpre⟩ := run_submitted Ordered.init steps
  have hheap : (newAsyncLogPublisher.run steps).heap.map (·.events) = t := by
    simpa [newAsyncLogPublisher] using ht
  have hget : ∀ a ev, Effect.send a ev ∈ (newAsyncLogPublisher.run steps).log →
      (submitted steps)[a]? = some ev := by
    intro a ev ha
    obtain ⟨r, hr, he⟩ := hord.sent_events a ev ha
    obtain ⟨u, hu⟩ := hpre
    have h1 : t[a]? = some ev := by
      rw [← hheap, List.getElem?_map, hr]
      simp [he]
    have hlt : a < t.length := by
      by_contra hn
      rw [List.getElem?_eq_none (by omega)] at h1
      cases h1
    rw [← hu, List.getElem?_append_left hlt]
    exact h1
  refine ⟨hord.sent_sorted, hget, ?_, ?_⟩
  · have := delivered_sublist (submitted steps) _ 0 (fun a ev h => ⟨Nat.zero_le _, hget a ev h⟩)
      hord.sent_sorted
    simpa using this
  · intro a ev ha b hb
    obtain ⟨hs, ho⟩ := collect_spec done (newAsyncLogPublisher.run steps)
    have ho := ho hord.wf
    have hstop := (hs.sent a ev ha).1
    by_cases hlt : b < (newAsyncLogPublisher.run steps).front
    · exact hord.settled hstop b hlt
    · rw [ho.sent_after a (mem_sentBatches.2 ⟨ev, ha⟩) b (by omega) hb]
      simp

/-- The scenario of three batches: after `B1` and `B3` have completed only `B1`
is delivered; once `B2` has completed the output queue holds `B1`, `B2`, `B3`
in this order. -/
theorem threeBatches_delivered :
    delivered (newAsyncLogPublisher.run (threeBatches.take 9)).log = [[⟨1, 11⟩, ⟨1, 12⟩]] ∧
    delivered (newAsyncLogPublisher.run threeBatches).log =
      [[⟨1, 11⟩, ⟨1, 12⟩], [⟨1, 21⟩, ⟨1, 22⟩, ⟨1, 23⟩], [⟨1, 31⟩]] := by
  decide

/-- Claim C2 (at-least-once).  In every state of the publisher, whatever the
list and the stopping flag, a record that a pass of `collect` sends to the
output queue was unlinked with the loaded flag `batchSuccess`: its status is
`batchSuccess`, not `batchInProgress` and not `batchCanceled`, the events sent
are its events, and the pass started with the stopping flag clear. -/
theorem C2_sent_only_when_success (done : Nat → Bool) (p : asyncLogPublisher) (a : Nat)
    (ev : List FileEvent) (h : Effect.send a ev ∈ passLog done p) :
    Effect.unlink a batchSuccess ∈ passLog done p ∧ p.flagOf a = batchSuccess ∧
      p.flagOf a ≠ batchInProgress ∧ p.flagOf a ≠ batchCanceled ∧
      (∃ r, p.heap[a]? = some r ∧ r.events = ev) ∧ p.stopping = false := by
  obtain ⟨hstop, hun, r, hr, hf, he⟩ := (collect_spec done p).1.sent a ev h
  have hflag : p.flagOf a = batchSuccess := by rw [flagOf_of_get hr, hf]
  refine ⟨hun, hflag, ?_, ?_, ⟨r, hr, he⟩, hstop⟩
  · rw [hflag]; simp
  · rw [hflag]; simp

/-- Witness for C2: in `sampleSuccess` the first record is sent, and its status
is `batchSuccess`. -/
theorem C2_sent_only_when_success_witness :
    Effect.send 0 [⟨3, 1⟩] ∈ passLog noCancel sampleSuccess ∧
      sampleSuccess.flagOf 0 = batchSuccess :=
  ⟨by decide, (C2_sent_only_when_success noCancel sampleSuccess 0 [⟨3, 1⟩] (by decide)).2.1⟩

/-- Claim C3 (cancellation suppresses the tail).  In every run from the state
of `newAsyncLogPublisher`, once `collect` has unlinked a record whose loaded
flag is `batchCanceled`, the stopping flag is set in the state reached by the
run, however long the run goes on, and no record at all is sent to the output
queue after that point, in the rest of that pass or in any later pass. -/
theorem C3_cancel_suppresses_tail (steps : List Step) (pre post : List Effect) (a : Nat)
    (h : (newAsyncLogPublisher.run steps).log =
      pre ++ Effect.unlink a batchCanceled :: post) :
    (newAsyncLogPublisher.run steps).stopping = true ∧
      ∀ b ev, Effect.send b ev ∉ post := by
  obtain ⟨hq, hc⟩ := quiet_run Ordered.init (by simp [newAsyncLogPublisher])
    (by simp [newAsyncLogPublisher]) steps
  refine ⟨hc ⟨a, by rw [h]; simp⟩, ?_⟩
  intro b ev hmem
  rw [h, List.pairwise_append] at hq
  have := (List.pairwise_cons.1 hq.2.1).1 _ hmem ⟨a, rfl⟩ b ev
  exact this rfl

/-- Witness for C3: in `canceledRun` the pass unlinks the canceled first
record and then the completed second record, which is not sent. -/
theorem C3_cancel_suppresses_tail_witness :
    (newAsyncLogPublisher.run canceledRun).log =
        [Effect.publish [⟨⟨3, 1⟩⟩] 0, Effect.publish [⟨⟨5, 2⟩⟩] 1] ++
          Effect.unlink 0 batchCanceled :: [Effect.unlink 1 batchSuccess] ∧
      (newAsyncLogPublisher.run canceledRun).stopping = true ∧
      ∀ b ev, Effect.send b ev ∉ [Effect.unlink 1 batchSuccess] :=
  ⟨by decide,
    C3_cancel_suppresses_tail canceledRun
      [Effect.publish [⟨⟨3, 1⟩⟩] 0, Effect.publish [⟨⟨5, 2⟩⟩] 1]
      [Effect.unlink 1 batchSuccess] 0 (by decide)⟩

/-! ## Claims about the completion callbacks of the worker -/

/-- Claim C4 (attempts exhaustion).  Let `maxAttempts = K ≥ 1` and let a bulk
message start with `attemptsLeft = K` (its batch may be any batch, empty or
not).  If every bulk completion reports the whole input as failed with
`ErrTempBulkFailure`, and each message put back is dispatched again, then with
fuel for at least `K` rounds exactly `K` rounds take place.  Each of the first
`K - 1` rounds puts the message back into the retry channel with the same
events and one attempt less, by exactly the calls `retryCalls`: the
non-blocking `tryPushFailed`, followed by the handed-off `pushFailed` when the
attempt answered `false`.  The `K`-th round is dispatched with one attempt left
and calls `dropping` and nothing else, so it puts nothing back; `SigCompleted`
is called in no round. -/
theorem C4_dropped_after_K_attempts (w : asyncWorker) (tryPush : eventsMessage → Bool)
    (K : Nat) (hK : 1 ≤ K) (hmax : w.ctx.maxAttempts = (K : Int)) (msg : eventsMessage)
    (hatt : msg.attemptsLeft = (K : Int)) (fuel : Nat) (hfuel : K ≤ fuel) :
    ∃ front last, bulkRounds w tryPush alwaysFails fuel 0 msg = front ++ [last] ∧
      (front ++ [last]).length = K ∧
      (∀ r ∈ front, r.input.events = msg.events ∧
        requeued r.calls = some { r.input with attemptsLeft := r.input.attemptsLeft - 1 } ∧
        0 < r.input.attemptsLeft - 1 ∧
        r.calls = retryCalls tryPush
          { r.input with attemptsLeft := r.input.attemptsLeft - 1 }) ∧
      last.input = { msg with worker := w.id, attemptsLeft := 1 } ∧
      last.calls = [WorkerCall.dropping { msg with worker := w.id, attemptsLeft := 0 }] ∧
      requeued last.calls = none ∧
      ∀ r ∈ front ++ [last], ∀ s, WorkerCall.SigCompleted s ∉ r.calls := by
  obtain ⟨j, rfl⟩ : ∃ j, K = j + 1 := ⟨K - 1, by omega⟩
  obtain ⟨front, last, hrun, hlen, hfront, hin, _, _, hca⟩ :=
    bulkRounds_alwaysFails w tryPush (by rw [hmax]; omega) j fuel 0 msg hfuel
      (by rw [hatt]; push_cast; rfl)
  refine ⟨front, last, hrun, by simp [hlen], ?_, hin, hca, by rw [hca]; rfl, ?_⟩
  · intro r hr
    obtain ⟨_, h2, _, h4, h5, h6⟩ := hfront r hr
    exact ⟨h2, h4, h5, h6⟩
  · intro r hr s hs
    rcases List.mem_append.1 hr with hr | hr
    · obtain ⟨_, _, _, _, _, h6⟩ := hfront r hr
      rw [h6, ← onFail_retryCalls w tryPush _ ErrTempBulkFailure] at hs
      rcases onFail_calls w tryPush _ _ _ hs with h | h <;> cases h
    · rw [List.mem_singleton] at hr
      subst hr
      rw [hca] at hs
      simp at hs

/-- Witness for C4: `maxAttempts = 3`, a retry channel that is always full, and
a batch of five events that always fails as a whole: three rounds, the first
two put the batch back by the handed-off `pushFailed`, the third drops it. -/
theorem C4_dropped_after_K_attempts_witness :
    (1 ≤ 3 ∧ (sampleWorker 3).ctx.maxAttempts = ((3 : Nat) : Int) ∧
      (sampleMessage 5 3).attemptsLeft = ((3 : Nat) : Int) ∧ 3 ≤ 10) ∧
    ∃ front last,
      bulkRounds (sampleWorker 3) (fun _ => false) alwaysFails 10 0 (sampleMessage 5 3) =
        front ++ [last] ∧
      (front ++ [last]).length = 3 ∧
      (∀ r ∈ front, r.input.events = (sampleMessage 5 3).events ∧
        requeued r.calls = some { r.input with attemptsLeft := r.input.attemptsLeft - 1 } ∧
        0 < r.input.attemptsLeft - 1 ∧
        r.calls = retryCalls (fun _ => false)
          { r.input with attemptsLeft := r.input.attemptsLeft - 1 }) ∧
      last.input = { sampleMessage 5 3 with worker := (sampleWorker 3).id, attemptsLeft := 1 } ∧
      last.calls = [WorkerCall.dropping
        { sampleMessage 5 3 with worker := (sampleWorker 3).id, attemptsLeft := 0 }] ∧
      requeued last.calls = none ∧
      ∀ r ∈ front ++ [last], ∀ s, WorkerCall.SigCompleted s ∉ r.calls :=
  ⟨⟨by decide, rfl, rfl, by decide⟩,
    C4_dropped_after_K_attempts (sampleWorker 3) (fun _ => false) 3 (by decide) rfl
      (sampleMessage 5 3) rfl 10 (by decide)⟩

/-- Claim C5 (partial-failure convergence).  Let `maxAttempts = K ≥ 1` and let
a bulk message of `n` events start with an attempts counter from `0` to `K` (it
starts at `K`; the bounds are what the proof needs).  Let the client, whatever
batch it is sent, report fewer failed events than a non-empty batch holds, with
no error or with any error, and nothing failed and no error for an empty batch
(the round `n + 1` of the claim).  Then the run of the worker consists of
rounds that put the message back followed by one round that reports no failed
event and no error and makes the single call `SigCompleted`; there are at most
`n + 1` rounds; every round before the last puts exactly the failed events
reported back into the retry channel (by the single call `pushFailed` without
an error, by the calls `retryCalls` with one), with an attempts counter not
below the one it was dispatched with (`K` when an error was reported, unchanged
otherwise); no round calls `dropping`. -/
theorem C5_partial_failure_converges (w : asyncWorker) (tryPush : eventsMessage → Bool)
    (client : Nat → eventsMessage → List MapStr × Option PublishError)
    (K : Nat) (hK : 1 ≤ K) (hmax : w.ctx.maxAttempts = (K : Int)) (msg : eventsMessage)
    (hatt : 0 ≤ msg.attemptsLeft ∧ msg.attemptsLeft ≤ (K : Int))
    (hsmaller : ∀ i m, m.events ≠ [] → (client i m).1.length < m.events.length)
    (hempty : ∀ i m, m.events = [] → client i m = ([], none)) :
    ∃ front last, front.length + 1 ≤ msg.events.length + 1 ∧
      (∀ fuel, front.length + 1 ≤ fuel →
        bulkRounds w tryPush client fuel 0 msg = front ++ [last]) ∧
      (∀ r ∈ front, putsBack (K : Int) tryPush r) ∧
      last.failed = [] ∧ last.err = none ∧
      last.calls = [WorkerCall.SigCompleted msg.signaler] ∧
      ∀ r ∈ front ++ [last], ∀ m, WorkerCall.dropping m ∉ r.calls := by
  obtain ⟨front, last, hlen, hrun, hfront, h1, h2, h3⟩ :=
    bulkRounds_progress w tryPush client (by rw [hmax]; omega) hsmaller hempty
      msg.events.length 0 msg (Nat.le_refl _) (by rw [hmax]; exact hatt)
  rw [hmax] at hfront
  refine ⟨front, last, hlen, hrun, hfront, h1, h2, h3, ?_⟩
  intro r hr m hm
  rcases List.mem_append.1 hr with hr | hr
  · obtain ⟨_, _, _, _, _, _, _, _, hd, _⟩ := hfront r hr
    exact hd m hm
  · rw [List.mem_singleton] at hr
    subst hr
    rw [h3] at hm
    simp at hm

/-- Witness for C5: `maxAttempts = 2`, a retry channel that is always full, a
batch of three events, and a client that takes one event per round: the run
ends by signalling success. -/
theorem C5_partial_failure_converges_witness :
    (1 ≤ 2 ∧ (sampleWorker 2).ctx.maxAttempts = ((2 : Nat) : Int) ∧
      (0 ≤ (sampleMessage 3 2).attemptsLeft ∧
        (sampleMessage 3 2).attemptsLeft ≤ ((2 : Nat) : Int)) ∧
      (∀ (i : Nat) (m : eventsMessage), m.events ≠ [] →
        (oneByOne i m).1.length < m.events.length) ∧
      (∀ (i : Nat) (m : eventsMessage), m.events = [] → oneByOne i m = ([], none))) ∧
    ∃ front last, front.length + 1 ≤ (sampleMessage 3 2).events.length + 1 ∧
      (∀ fuel, front.length + 1 ≤ fuel →
        bulkRounds (sampleWorker 2) (fun _ => false) oneByOne fuel 0 (sampleMessage 3 2) =
          front ++ [last]) ∧
      (∀ r ∈ front, putsBack ((2 : Nat) : Int) (fun _ => false) r) ∧
      last.failed = [] ∧ last.err = none ∧
      last.calls = [WorkerCall.SigCompleted (sampleMessage 3 2).signaler] ∧
      ∀ r ∈ front ++ [last], ∀ m, WorkerCall.dropping m ∉ r.calls :=
  ⟨⟨by decide, rfl, ⟨by decide, by decide⟩, oneByOne_smaller, oneByOne_empty⟩,
    C5_partial_failure_converges (sampleWorker 2) (fun _ => false) oneByOne 2 (by decide) rfl
      (sampleMessage 3 2) ⟨by decide, by decide⟩ oneByOne_smaller oneByOne_empty⟩

/-- Claim C6 (sync publisher).  For every batch read from `p.in`, one turn of
the loop of `syncLogPublisher.Start` hands to `PublishEvents` exactly the wire
forms of the events of the batch with `Bytes > 0`, in their order, and then,
unless `p.done` wins the second `select`, sends the batch as it was read, with
its zero-byte events, to `p.out`. -/
theorem C6_sync_publishes_filtered_forwards_original (log : List SyncEffect)
    (events : List FileEvent) (done : Bool) :
    syncLogPublisher.StartTurn log (some events) done =
      (!done,
        log ++ SyncEffect.publish
            ((events.filter (fun e => decide (e.Bytes > 0))).map FileEvent.ToMapStr) ::
          (if done = true then [] else [SyncEffect.send events])) := by
  cases done <;> simp [syncLogPublisher.StartTurn, pubEventsLoop_eq]


/-- Claim C7 (a failed status is fatal).  In every well formed state, a pass of
`collect` in which `p.done` never wins a `select` panics if and only if the
queue holds a failed record such that every record before it that is in
progress is met while stopping (the stopping flag was set before the pass, or a
canceled record comes earlier in the queue), so that no record before it stops
the scan.  When the pass panics, the record at the head of the list afterwards
is failed: it is still in the queue, and the pass neither unlinked it nor sent
it. -/
theorem C7_failed_status_panics (p : asyncLogPublisher) (hwf : WellFormed p)
    (done : Nat → Bool) (hdone : ∀ b, done b = false) :
    ((p.collect done).1 = Outcome.panicked ↔
      ∃ pre i post, p.queue = pre ++ i :: post ∧ p.flagOf i = batchFailed ∧
        ∀ pre₁ j pre₂, pre = pre₁ ++ j :: pre₂ → p.flagOf j = batchInProgress →
          p.stopping = true ∨ ∃ k ∈ pre₁, p.flagOf k = batchCanceled) ∧
    ((p.collect done).1 = Outcome.panicked →
      ∃ i, (p.collect done).2.active.head = some i ∧ p.flagOf i = batchFailed ∧
        i ∈ (p.collect done).2.queue ∧
        (∀ st, Effect.unlink i st ∉ passLog done p) ∧
        ∀ ev, Effect.send i ev ∉ passLog done p) := by
  constructor
  · rw [queue_eq_range hwf]
    exact collectLoop_panics done hdone p.heap.length p.active.head p hwf rfl
      (Nat.sub_le _ _)
  · intro hp
    have ho := (collect_spec done p).2 hwf
    obtain ⟨i, hi, hfi⟩ := ho.panic_head hp
    have hfront := front_of_head hi
    have hlt := ho.wf.head_lt i hi
    refine ⟨i, hi, hfi, ?_, ?_, ?_⟩
    · rw [queue_eq_range ho.wf, hfront]
      simp only [List.mem_range'_1]
      omega
    · intro st hmem
      have : i ∈ unlinkedBatches (passLog done p) := mem_unlinkedBatches.2 ⟨st, hmem⟩
      rw [ho.unlinked_eq, hfront] at this
      simp only [List.mem_range'_1] at this
      have := ho.front_le
      omega
    · intro ev hmem
      have := (ho.sent_bounds i (mem_sentBatches.2 ⟨ev, hmem⟩)).2
      omega

/-- Witness for C7: the pass over `sampleFailed` sends the completed first
record, then panics at the failed second record and leaves it at the head. -/
theorem C7_failed_status_panics_witness :
    WellFormed sampleFailed ∧ (∀ b, noCancel b = false) ∧
      (sampleFailed.collect noCancel).1 = Outcome.panicked ∧
      ∃ i, (sampleFailed.collect noCancel).2.active.head = some i ∧
        sampleFailed.flagOf i = batchFailed ∧
        i ∈ (sampleFailed.collect noCancel).2.queue ∧
        (∀ st, Effect.unlink i st ∉ passLog noCancel sampleFailed) ∧
        ∀ ev, Effect.send i ev ∉ passLog noCancel sampleFailed :=
  ⟨(Ordered.init.run _).wf, fun _ => rfl, by decide,
    (C7_failed_status_panics sampleFailed (Ordered.init.run _).wf noCancel
      (fun _ => rfl)).2 (by decide)⟩

/-- Counterexample to C8 as stated: in `samplePending`, a state reached from
`newAsyncLogPublisher`, the pass unlinks the canceled first record, which sets
the stopping flag, and then unlinks the second record although its status is
`batchInProgress` at that moment. -/
theorem C8_counterexample :
    samplePending.flagOf 1 = batchInProgress ∧
      ¬ (∀ a st, Effect.unlink a st ∈ passLog noCancel samplePending →
          st ≠ batchInProgress) := by
  refine ⟨by decide, fun h => ?_⟩
  exact h 1 batchInProgress (by decide) rfl

/-- Claim C8, amended (queue removal).  In every pass of `collect` from a well
formed state, stopping or not, a record is unlinked with the flag it holds at
that moment, which is never `batchFailed`, and which is `batchInProgress` only
if the stopping flag is set at that moment: it was set before the pass, or a
canceled record was unlinked earlier in the pass.  The records are unlinked in
head-to-tail order: the queue before the pass is the list of the records
unlinked, in the order of unlinking, followed by the queue after the pass. -/
theorem C8_unlink_terminal_or_stopping (p : asyncLogPublisher) (hwf : WellFormed p)
    (done : Nat → Bool) :
    (∀ pre a st post, passLog done p = pre ++ Effect.unlink a st :: post →
      p.flagOf a = st ∧ st ≠ batchFailed ∧
        (st = batchInProgress →
          p.stopping = true ∨ ∃ c, Effect.unlink c batchCanceled ∈ pre)) ∧
    p.queue = unlinkedBatches (passLog done p) ++ (p.collect done).2.queue := by
  obtain ⟨hs, ho⟩ := collect_spec done p
  have ho := ho hwf
  refine ⟨hs.unlinked, ?_⟩
  rw [queue_eq_range hwf, queue_eq_range ho.wf, ho.unlinked_eq, hs.heap_eq]
  have h1 := ho.front_le
  have h2 := front_le_length ho.wf
  rw [hs.heap_eq] at h2
  have h3 : (p.collect done).2.front = p.front + ((p.collect done).2.front - p.front) := by
    omega
  have h4 : p.heap.length - p.front =
      (p.heap.length - (p.collect done).2.front) + ((p.collect done).2.front - p.front) := by
    omega
  rw [h4]
  generalize (p.collect done).2.front - p.front = k at h3 ⊢
  rw [h3, List.range'_append_1]

/-- Witness for C8: the pass over `samplePending` unlinks both records, in
queue order, and empties the queue. -/
theorem C8_unlink_terminal_or_stopping_witness :
    WellFormed samplePending ∧
      samplePending.queue =
        unlinkedBatches (passLog noCancel samplePending) ++
          (samplePending.collect noCancel).2.queue :=
  ⟨(Ordered.init.run _).wf,
    (C8_unlink_terminal_or_stopping samplePending (Ordered.init.run _).wf noCancel).2⟩

/-- Claim C9, the code at the failing input.  The async publisher accepts a
batch whose first event has `Bytes = 0`: the payload handed to `PublishEvents`
holds the wire form of that event too, and the record tracked holds the whole
batch.  The sync publisher builds the payload of the same batch without the
zero-byte event. -/
theorem C9_async_payload_keeps_zero_byte_event :
    (newAsyncLogPublisher.StartInput [⟨0, 7⟩, ⟨4, 8⟩]).map
        (fun q => (q.log, q.heap.map (·.events))) =
      some ([Effect.publish [⟨⟨0, 7⟩⟩, ⟨⟨4, 8⟩⟩] 0], [[⟨0, 7⟩, ⟨4, 8⟩]]) ∧
    pubEventsLoop [⟨0, 7⟩, ⟨4, 8⟩] [] = [⟨⟨4, 8⟩⟩] := by
  decide

/-- Claim C10 (bulk completion without error).  For every message, a bulk
completion with no error and no failed event calls `SigCompleted` once and
nothing else, so nothing is put back; with no error and a non-empty list of
failed events it makes the single call `pushFailed` with the message whose
events are exactly the failed events and whose other fields, `attemptsLeft`
among them, are unchanged, and does not call `SigCompleted`. -/
theorem C10_bulk_completion_without_error (w : asyncWorker)
    (tryPush : eventsMessage → Bool) (msg : eventsMessage) :
    (w.handleResults tryPush msg [] none = [WorkerCall.SigCompleted msg.signaler] ∧
      requeued (w.handleResults tryPush msg [] none) = none) ∧
    ∀ e rest,
      w.handleResults tryPush msg (e :: rest) none =
        [WorkerCall.pushFailed
          { worker := msg.worker, attemptsLeft := msg.attemptsLeft, signaler := msg.signaler,
            event := msg.event, events := e :: rest }] ∧
      requeued (w.handleResults tryPush msg (e :: rest) none) =
        some { msg with events := e :: rest } := by
  refine ⟨⟨handleResults_ok_nil w tryPush msg, by rw [handleResults_ok_nil]; rfl⟩, ?_⟩
  intro e rest
  have h := handleResults_ok_some w tryPush msg (e :: rest) (by simp)
  exact ⟨h, by rw [h]; rfl⟩

/-- Claim C11 (single data-loss path).  A bulk completion calls `dropping` if
and only if the error is `ErrTempBulkFailure`, `maxAttempts > 0` and the
attempts counter is `0` after the decrement and the reset of this round; that
is also the only case in which the message is lost: nothing is put back into
the retry channel and success is not signalled.  With `maxAttempts > 0` the
counter is `0` after the round exactly when the whole input is reported as
failed and the counter was `0` or `1`.  In every other case with an error, so
with any other error kind, the callback makes exactly the calls `retryCalls`
(the non-blocking `tryPushFailed`, followed by the handed-off `pushFailed` when
the attempt answered `false`) with the message whose events are the failed
events reported and whose counter is the counter after the decrement and the
reset: that message is put back, `dropping` and `SigCompleted` are not
called. -/
theorem C11_drop_only_on_exhausted_temp_failure (w : asyncWorker)
    (tryPush : eventsMessage → Bool) (msg : eventsMessage) (events : List MapStr)
    (err : Option PublishError) :
    ((∃ m, WorkerCall.dropping m ∈ w.handleResults tryPush msg events err) ↔
      err = some ErrTempBulkFailure ∧ 0 < w.ctx.maxAttempts ∧
        attemptsAfter w msg events = 0) ∧
    ((requeued (w.handleResults tryPush msg events err) = none ∧
        ∀ s, WorkerCall.SigCompleted s ∉ w.handleResults tryPush msg events err) ↔
      err = some ErrTempBulkFailure ∧ 0 < w.ctx.maxAttempts ∧
        attemptsAfter w msg events = 0) ∧
    ((0 < w.ctx.maxAttempts ∧ attemptsAfter w msg events = 0) ↔
      0 < w.ctx.maxAttempts ∧ msg.events.length ≤ events.length ∧
        (msg.attemptsLeft = 0 ∨ msg.attemptsLeft = 1)) ∧
    ∀ e, ¬ (e = ErrTempBulkFailure ∧ 0 < w.ctx.maxAttempts ∧
        attemptsAfter w msg events = 0) →
      w.handleResults tryPush msg events (some e) =
        retryCalls tryPush
          { msg with attemptsLeft := attemptsAfter w msg events, events := events } ∧
      requeued (w.handleResults tryPush msg events (some e)) =
        some { msg with attemptsLeft := attemptsAfter w msg events, events := events } ∧
      (∀ m, WorkerCall.dropping m ∉ w.handleResults tryPush msg events (some e)) ∧
      ∀ s, WorkerCall.SigCompleted s ∉ w.handleResults tryPush msg events (some e) := by
  have hshape : ∀ e, w.handleResults tryPush msg events (some e) =
      if e ≠ ErrTempBulkFailure then
        w.onFail tryPush
          { msg with attemptsLeft := attemptsAfter w msg events, events := events } e
      else if w.ctx.maxAttempts > 0 ∧ attemptsAfter w msg events = 0 then
        [WorkerCall.dropping { msg with attemptsLeft := attemptsAfter w msg events }]
      else
        w.onFail tryPush
          { msg with attemptsLeft := attemptsAfter w msg events, events := events } e := by
    intro e
    unfold asyncWorker.handleResults attemptsAfter
    by_cases h1 : msg.attemptsLeft > 0 <;>
      by_cases h2 : events.length < msg.events.length <;>
      by_cases h3 : msg.attemptsLeft - 1 ≥ 0 <;>
      by_cases h4 : msg.attemptsLeft ≥ 0 <;>
      simp [h1, h2, h3, h4]
  have hdrop : ∀ e, (e = ErrTempBulkFailure ∧ 0 < w.ctx.maxAttempts ∧
        attemptsAfter w msg events = 0) →
      w.handleResults tryPush msg events (some e) =
        [WorkerCall.dropping { msg with attemptsLeft := attemptsAfter w msg events }] := by
    rintro e ⟨he, hd⟩
    rw [hshape e, if_neg (fun h => h he), if_pos hd]
  have hretry : ∀ e, ¬ (e = ErrTempBulkFailure ∧ 0 < w.ctx.maxAttempts ∧
        attemptsAfter w msg events = 0) →
      w.handleResults tryPush msg events (some e) =
        retryCalls tryPush
          { msg with attemptsLeft := attemptsAfter w msg events, events := events } := by
    intro e hn
    rw [hshape e]
    by_cases he : e = ErrTempBulkFailure
    · rw [if_neg (fun h => h he), if_neg (fun hd => hn ⟨he, hd⟩)]
      exact onFail_retryCalls w tryPush _ e
    · rw [if_pos he]
      exact onFail_retryCalls w tryPush _ e
  have hno : ∀ (m' m : eventsMessage), WorkerCall.dropping m ∉ retryCalls tryPush m' := by
    intro m' m hm
    rw [← onFail_retryCalls w tryPush m' ErrTempBulkFailure] at hm
    rcases onFail_calls w tryPush m' _ _ hm with h | h <;> cases h
  have hnos : ∀ (m' : eventsMessage) (s : Nat),
      WorkerCall.SigCompleted s ∉ retryCalls tryPush m' := by
    intro m' s hs
    rw [← onFail_retryCalls w tryPush m' ErrTempBulkFailure] at hs
    rcases onFail_calls w tryPush m' _ _ hs with h | h <;> cases h
  refine ⟨?_, ?_, ?_, ?_⟩
  · cases err with
    | none =>
      constructor
      · rintro ⟨m, hm⟩
        unfold asyncWorker.handleResults at hm
        simp only at hm
        split_ifs at hm <;> simp at hm
      · rintro ⟨h, _⟩
        cases h
    | some e =>
      by_cases hd : e = ErrTempBulkFailure ∧ 0 < w.ctx.maxAttempts ∧
          attemptsAfter w msg events = 0
      · rw [hdrop e hd]
        exact ⟨fun _ => ⟨congrArg some hd.1, hd.2⟩, fun _ => ⟨_, List.mem_singleton.2 rfl⟩⟩
      · rw [hretry e hd]
        constructor
        · rintro ⟨m, hm⟩
          exact absurd hm (hno _ m)
        · rintro ⟨h, h2⟩
          exact absurd ⟨Option.some.inj h, h2⟩ hd
  · cases err with
    | none =>
      constructor
      · rintro ⟨hre, hs⟩
        cases events with
        | nil =>
          rw [handleResults_ok_nil] at hs
          exact absurd (List.mem_singleton.2 rfl) (hs msg.signaler)
        | cons x xs =>
          rw [handleResults_ok_some w tryPush msg (x :: xs) (by simp)] at hre
          cases hre
      · rintro ⟨h, _⟩
        cases h
    | some e =>
      by_cases hd : e = ErrTempBulkFailure ∧ 0 < w.ctx.maxAttempts ∧
          attemptsAfter w msg events = 0
      · rw [hdrop e hd]
        refine ⟨fun _ => ⟨congrArg some hd.1, hd.2⟩, fun _ => ⟨rfl, ?_⟩⟩
        intro s hs
        rw [List.mem_singleton] at hs
        cases hs
      · rw [hretry e hd, requeued_retryCalls]
        constructor
        · rintro ⟨h, _⟩
          cases h
        · rintro ⟨h, h2⟩
          exact absurd ⟨Option.some.inj h, h2⟩ hd
  · unfold attemptsAfter
    constructor
    · rintro ⟨hmax, h0⟩
      refine ⟨hmax, ?_⟩
      by_cases h1 : msg.attemptsLeft > 0 <;>
        by_cases h2 : events.length < msg.events.length <;>
        simp only [h1, h2, if_true, if_false, true_and, false_and] at h0 <;>
        first
          | (split_ifs at h0 <;> omega)
          | omega
    · rintro ⟨hmax, hlen, h01⟩
      refine ⟨hmax, ?_⟩
      have h2 : ¬ events.length < msg.events.length := by omega
      rcases h01 with h | h <;> simp [h, h2]
  · intro e hn
    have hs := hretry e hn
    refine ⟨hs, ?_, ?_, ?_⟩
    · rw [hs]
      exact requeued_retryCalls tryPush _
    · intro m hm
      rw [hs] at hm
      exact hno _ m hm
    · intro s hm
      rw [hs] at hm
      exact hnos _ s hm

/-- Counterexample to C12 as stated: `Completed` invoked on a record whose
status is `batchCanceled` changes the status to `batchSuccess`. -/
theorem C12_counterexample :
    ¬ (∀ b : eventsBatch, b.flag ≠ batchInProgress →
        b.Completed.flag = b.flag ∧ b.Failed.flag = b.flag ∧ b.Canceled.flag = b.flag) := by
  intro h
  have := (h { next := none, flag := batchCanceled, events := [] } (by decide)).1
  exact absurd this (by decide)

/-- Claim C12, amended (status transitions).  `Completed`, `Failed` and
`Canceled` store `batchSuccess`, `batchFailed` and `batchCanceled` whatever the
status of the record was, and touch nothing else.  So the status after a call
is never `batchInProgress`: a status once terminal stays terminal, but it may
change from one terminal value to another; a call leaves the status unchanged
exactly when the record already holds the status that the method stores. -/
theorem C12_signals_store_unconditionally (b : eventsBatch) :
    (b.Completed.flag = batchSuccess ∧ b.Failed.flag = batchFailed ∧
      b.Canceled.flag = batchCanceled) ∧
    (∀ s : Signal, (s.apply b).flag ≠ batchInProgress ∧ (s.apply b).next = b.next ∧
      (s.apply b).events = b.events) ∧
    ((b.Completed.flag = b.flag ↔ b.flag = batchSuccess) ∧
      (b.Failed.flag = b.flag ↔ b.flag = batchFailed) ∧
      (b.Canceled.flag = b.flag ↔ b.flag = batchCanceled)) := by
  refine ⟨⟨rfl, rfl, rfl⟩, fun s => ⟨Signal.apply_flag s b, Signal.apply_next s b,
    Signal.apply_events s b⟩, ?_, ?_, ?_⟩
  · exact ⟨fun h => h.symm.trans rfl, fun h => h ▸ rfl⟩
  · exact ⟨fun h => h.symm.trans rfl, fun h => h ▸ rfl⟩
  · exact ⟨fun h => h.symm.trans rfl, fun h => h ▸ rfl⟩

/-- Counterexample to C13 as stated, with a Backoff that follows the contract
of section 4.1.  A connect attempt that succeeds makes `connect` return `true`,
so the worker exits instead of moving on to sending.  When the attempts fail
and cancellation fires during the first wait only, `connect` tries again after
the cancellation and returns `true` after the second wait, which completed.
When cancellation fires during every wait, `connect` has not returned after
five attempts. -/
theorem C13_counterexample :
    asyncWorker.connect (fun _ => none) (specWaitOnError (fun _ => false)) 1 0 = some true ∧
    ¬ (asyncWorker.connect (fun _ => none) (specWaitOnError (fun _ => false)) 1 0 =
        some false) ∧
    asyncWorker.connect (fun _ => some (PublishError.other 1))
      (specWaitOnError (fun i => decide (i = 0))) 2 0 = some true ∧
    asyncWorker.connect (fun _ => some (PublishError.other 1))
      (specWaitOnError (fun _ => true)) 5 0 = none := by
  decide

/-- Claim C13, amended (connecting state).  Let the Backoff answer `true` on a
nil error and after a completed wait, and `false` exactly when cancellation
fires during the wait (`done = !WaitOnError(err)`, as `connect` and `sendLoop`
read it).  Then an attempt that succeeds makes `connect` return `false`, so
the worker moves on to sending; a failed attempt during whose wait cancellation
fires makes it return `true`, so the worker exits; a failed attempt without
cancellation is followed by the next attempt.  So `connect` returns `true` if
and only if the attempts fail up to one during whose wait cancellation fires,
and `false` if and only if they fail without cancellation up to one that
succeeds. -/
theorem C13_connect_exits_on_cancellation (Connect : Nat → Option PublishError)
    (WaitOnError : Nat → Option PublishError → Bool) (cancelled : Nat → Bool)
    (hnil : ∀ i, WaitOnError i none = true)
    (hwait : ∀ i e, WaitOnError i (some e) = !cancelled i) :
    (∀ fuel i, Connect i = none →
      asyncWorker.connect Connect WaitOnError (fuel + 1) i = some false) ∧
    (∀ fuel i, Connect i ≠ none → cancelled i = true →
      asyncWorker.connect Connect WaitOnError (fuel + 1) i = some true) ∧
    (∀ fuel i, Connect i ≠ none → cancelled i = false →
      asyncWorker.connect Connect WaitOnError (fuel + 1) i =
        asyncWorker.connect Connect WaitOnError fuel (i + 1)) ∧
    (∀ fuel i, asyncWorker.connect Connect WaitOnError fuel i = some true ↔
      ∃ j, j < fuel ∧ (∀ k, k < j → Connect (i + k) ≠ none ∧ cancelled (i + k) = false) ∧
        Connect (i + j) ≠ none ∧ cancelled (i + j) = true) ∧
    (∀ fuel i, asyncWorker.connect Connect WaitOnError fuel i = some false ↔
      ∃ j, j < fuel ∧ (∀ k, k < j → Connect (i + k) ≠ none ∧ cancelled (i + k) = false) ∧
        Connect (i + j) = none) := by
  have h1 : ∀ fuel i, Connect i = none →
      asyncWorker.connect Connect WaitOnError (fuel + 1) i = some false := by
    intro fuel i h
    simp [asyncWorker.connect, h, hnil]
  have h2 : ∀ fuel i, Connect i ≠ none → cancelled i = true →
      asyncWorker.connect Connect WaitOnError (fuel + 1) i = some true := by
    intro fuel i h hc
    obtain ⟨e, he⟩ := Option.ne_none_iff_exists'.1 h
    simp [asyncWorker.connect, he, hwait, hc]
  have h3 : ∀ fuel i, Connect i ≠ none → cancelled i = false →
      asyncWorker.connect Connect WaitOnError (fuel + 1) i =
        asyncWorker.connect Connect WaitOnError fuel (i + 1) := by
    intro fuel i h hc
    obtain ⟨e, he⟩ := Option.ne_none_iff_exists'.1 h
    simp [asyncWorker.connect, he, hwait, hc]
  refine ⟨h1, h2, h3, ?_, ?_⟩
  · intro fuel
    induction fuel with
    | zero =>
      intro i
      simp [asyncWorker.connect]
    | succ fuel ih =>
      intro i
      by_cases hc : Connect i = none
      · rw [h1 fuel i hc]
        constructor
        · intro h; cases h
        · rintro ⟨j, _, hpre, hj, _⟩
          cases j with
          | zero => exact absurd hc hj
          | succ j => exact absurd hc (hpre 0 (Nat.succ_pos j)).1
      · cases hcan : cancelled i with
        | true =>
          rw [h2 fuel i hc hcan]
          exact ⟨fun _ => ⟨0, Nat.succ_pos _, fun k hk => absurd hk (Nat.not_lt_zero k),
            hc, hcan⟩, fun _ => rfl⟩
        | false =>
          rw [h3 fuel i hc hcan, ih (i + 1)]
          constructor
          · rintro ⟨j, hj, hpre, hcj, hcanj⟩
            refine ⟨j + 1, Nat.succ_lt_succ hj, ?_, ?_, ?_⟩
            · intro k hk
              cases k with
              | zero => exact ⟨hc, hcan⟩
              | succ k =>
                have := hpre k (Nat.lt_of_succ_lt_succ hk)
                rwa [show i + 1 + k = i + (k + 1) by omega] at this
            · rwa [show i + 1 + j = i + (j + 1) by omega] at hcj
            · rwa [show i + 1 + j = i + (j + 1) by omega] at hcanj
          · rintro ⟨j, hj, hpre, hcj, hcanj⟩
            cases j with
            | zero =>
              rw [Nat.add_zero, hcan] at hcanj
              cases hcanj
            | succ j =>
              refine ⟨j, Nat.lt_of_succ_lt_succ hj, ?_, ?_, ?_⟩
              · intro k hk
                have := hpre (k + 1) (Nat.succ_lt_succ hk)
                rwa [show i + (k + 1) = i + 1 + k by omega] at this
              · rwa [show i + (j + 1) = i + 1 + j by omega] at hcj
              · rwa [show i + (j + 1) = i + 1 + j by omega] at hcanj
  · intro fuel
    induction fuel with
    | zero =>
      intro i
      simp [asyncWorker.connect]
    | succ fuel ih =>
      intro i
      by_cases hc : Connect i = none
      · rw [h1 fuel i hc]
        exact ⟨fun _ => ⟨0, Nat.succ_pos _, fun k hk => absurd hk (Nat.not_lt_zero k), hc⟩,
          fun _ => rfl⟩
      · cases hcan : cancelled i with
        | true =>
          rw [h2 fuel i hc hcan]
          constructor
          · intro h; cases h
          · rintro ⟨j, _, hpre, hj⟩
            cases j with
            | zero => exact absurd hj hc
            | succ j =>
              have := (hpre 0 (Nat.succ_pos j)).2
              rw [Nat.add_zero, hcan] at this
              cases this
        | false =>
          rw [h3 fuel i hc hcan, ih (i + 1)]
          constructor
          · rintro ⟨j, hj, hpre, hcj⟩
            refine ⟨j + 1, Nat.succ_lt_succ hj, ?_, ?_⟩
            · intro k hk
              cases k with
              | zero => exact ⟨hc, hcan⟩
              | succ k =>
                have := hpre k (Nat.lt_of_succ_lt_succ hk)
                rwa [show i + 1 + k = i + (k + 1) by omega] at this
            · rwa [show i + 1 + j = i + (j + 1) by omega] at hcj
          · rintro ⟨j, hj, hpre, hcj⟩
            cases j with
            | zero => exact absurd hcj hc
            | succ j =>
              refine ⟨j, Nat.lt_of_succ_lt_succ hj, ?_, ?_⟩
              · intro k hk
                have := hpre (k + 1) (Nat.succ_lt_succ hk)
                rwa [show i + (k + 1) = i + 1 + k by omega] at this
              · rwa [show i + (j + 1) = i + 1 + j by omega] at hcj

/-- Witness for C13: the connect attempts fail twice without cancellation and
then succeed; `connect` returns `false` at the third attempt. -/
theorem C13_connect_exits_on_cancellation_witness :
    ((∀ i, (fun (_ : Nat) (_ : Option PublishError) => true) i none = true) ∧
      (∀ i e, (fun (_ : Nat) (_ : Option PublishError) => true) i (some e) =
        !(fun _ => false) i)) ∧
    asyncWorker.connect (fun i => if i < 2 then some (PublishError.other 1) else none)
      (fun _ _ => true) 3 0 = some false :=
  ⟨⟨fun _ => rfl, fun _ _ => rfl⟩,
    ((C13_connect_exits_on_cancellation
      (fun i => if i < 2 then some (PublishError.other 1) else none)
      (fun _ _ => true) (fun _ => false) (fun _ => rfl) (fun _ _ => rfl)).2.2.2.2 3 0).2
      ⟨2, by decide, by
        intro k hk
        have : k = 0 ∨ k = 1 := by omega
        rcases this with h | h <;> subst h <;> exact ⟨by decide, rfl⟩, by decide⟩⟩

/-- Counterexample to C14 as stated: a single-event message whose counter is
`-1` (or `0`) completes with an error; the message put back has the counter
unchanged, not decremented by one. -/
theorem C14_counterexample :
    requeued ((sampleWorker 3).handleResult (fun _ => true) (sampleSingle (-1))
        (some (PublishError.other 1))) = some (sampleSingle (-1)) ∧
    requeued ((sampleWorker 3).handleResult (fun _ => true) (sampleSingle 0)
        (some (PublishError.other 1))) = some (sampleSingle 0) ∧
    ¬ (∀ msg : eventsMessage, ∀ m, requeued ((sampleWorker 3).handleResult (fun _ => true) msg
        (some (PublishError.other 1))) = some m → m.attemptsLeft = msg.attemptsLeft - 1) := by
  refine ⟨by decide, by decide, fun h => ?_⟩
  have := h (sampleSingle (-1)) (sampleSingle (-1)) (by decide)
  exact absurd this (by decide)

/-- Claim C14, amended (single-event dispatch).  For every message, a
single-event completion with no error calls `SigCompleted` once and nothing
else, so nothing is put back.  A completion with an error makes exactly the
calls `retryCalls` (the non-blocking `tryPushFailed`, followed by the
handed-off `pushFailed` when the attempt answered `false`) with the message
whose counter is one less when the counter was positive and is unchanged when
it was zero or negative; that message is put back into the retry channel, and
`SigCompleted` and `dropping` are not called. -/
theorem C14_single_event_completion (w : asyncWorker) (tryPush : eventsMessage → Bool)
    (msg : eventsMessage) :
    (w.handleResult tryPush msg none = [WorkerCall.SigCompleted msg.signaler] ∧
      requeued (w.handleResult tryPush msg none) = none) ∧
    ∀ e,
      w.handleResult tryPush msg (some e) =
        retryCalls tryPush
          { msg with attemptsLeft :=
              if msg.attemptsLeft > 0 then msg.attemptsLeft - 1 else msg.attemptsLeft } ∧
      requeued (w.handleResult tryPush msg (some e)) =
        some { msg with attemptsLeft :=
          if msg.attemptsLeft > 0 then msg.attemptsLeft - 1 else msg.attemptsLeft } ∧
      (∀ s, WorkerCall.SigCompleted s ∉ w.handleResult tryPush msg (some e)) ∧
      ∀ m, WorkerCall.dropping m ∉ w.handleResult tryPush msg (some e) := by
  refine ⟨⟨rfl, rfl⟩, fun e => ?_⟩
  have hs : w.handleResult tryPush msg (some e) =
      w.onFail tryPush
        { msg with attemptsLeft :=
            if msg.attemptsLeft > 0 then msg.attemptsLeft - 1 else msg.attemptsLeft } e := by
    unfold asyncWorker.handleResult
    by_cases h : msg.attemptsLeft > 0 <;> simp [h]
  refine ⟨hs.trans (onFail_retryCalls w tryPush _ e), ?_, ?_, ?_⟩
  · rw [hs]
    exact requeued_onFail w tryPush _ e
  · intro s hm
    rw [hs] at hm
    rcases onFail_calls w tryPush _ e _ hm with h | h <;> cases h
  · intro m hm
    rw [hs] at hm
    rcases onFail_calls w tryPush _ e _ hm with h | h <;> cases h

/-- Counterexample to C15 as stated: in `gapRun` both batches have completed;
`p.done` wins the `select` while the first record is forwarded, so the first
record is unlinked without being sent and the pass returns `false`; `Start`
calls `collect` again, and this pass sends the second record.  The output
queue receives the second batch only, which is not an initial part of the
batches submitted. -/
theorem C15_counterexample :
    (newAsyncLogPublisher.run gapRun).log =
      [Effect.publish [⟨⟨3, 1⟩⟩] 0, Effect.publish [⟨⟨5, 2⟩⟩] 1,
       Effect.unlink 0 batchSuccess, Effect.unlink 1 batchSuccess, Effect.send 1 [⟨5, 2⟩]] ∧
    submitted gapRun = [[⟨3, 1⟩], [⟨5, 2⟩]] ∧
    delivered (newAsyncLogPublisher.run gapRun).log = [[⟨5, 2⟩]] ∧
    ¬ List.IsPrefix (delivered (newAsyncLogPublisher.run gapRun).log) (submitted gapRun) := by
  refine ⟨by decide, by decide, by decide, ?_⟩
  rw [show delivered (newAsyncLogPublisher.run gapRun).log = [[⟨5, 2⟩]] by decide,
    show submitted gapRun = [[⟨3, 1⟩], [⟨5, 2⟩]] by decide]
  rintro ⟨t, ht⟩
  injection ht with h1 _
  exact absurd h1 (by decide)

/-- Claim C15, amended (no gap after a skipped forward).  In every pass of
`collect`, from every state, once a record is unlinked and not sent, no record
is sent in the rest of that pass.  From a well formed state in which the
stopping flag is set, no run clears the flag or sends any record, so a record
skipped because the publisher is stopping is followed by no send in any later
pass.  And in the runs from the state of `newAsyncLogPublisher` in which
`p.done` never wins a `select`, the records sent are always the first records
submitted, without a gap. -/
theorem C15_no_gap_unless_done_wins :
    (∀ (done : Nat → Bool) (p : asyncLogPublisher) (pre : List Effect) (a : Nat)
        (st : batchStatus) (post : List Effect),
      passLog done p = pre ++ Effect.unlink a st :: post →
      (∀ ev post', post ≠ Effect.send a ev :: post') →
      ∀ c ev, Effect.send c ev ∉ post) ∧
    (∀ (p : asyncLogPublisher) (steps : List Step), WellFormed p → p.stopping = true →
      (p.run steps).stopping = true ∧
        sentBatches (p.run steps).log = sentBatches p.log) ∧
    (∀ steps : List Step, neverCancels steps →
      ∃ k, sentBatches (newAsyncLogPublisher.run steps).log = List.range k ∧
        List.IsPrefix (delivered (newAsyncLogPublisher.run steps).log) (submitted steps)) := by
  refine ⟨?_, ?_, ?_⟩
  · intro done p pre a st post hsplit hskip
    obtain ⟨ext, hs, hfact⟩ := collectLoop_skip_ends done p.heap.length p.active.head p
    have : passLog done p = ext := passLog_eq hs.log_eq
    rw [this] at hsplit
    exact hfact pre a st post hsplit hskip
  · intro p steps hwf hstop
    exact stopping_run hwf hstop steps
  · intro steps hnc
    obtain ⟨k, hk, _⟩ := gapfree_run Ordered.init
      ⟨0, by simp [newAsyncLogPublisher, sentBatches], fun _ => by
        simp [newAsyncLogPublisher, asyncLogPublisher.front]⟩ steps hnc
    refine ⟨k, hk, ?_⟩
    have hord := Ordered.init.run steps
    obtain ⟨t, ht, hpre⟩ := run_submitted Ordered.init steps
    have hheap : (newAsyncLogPublisher.run steps).heap.map (·.events) = t := by
      simpa [newAsyncLogPublisher] using ht
    have hdel : delivered (newAsyncLogPublisher.run steps).log =
        (List.range k).map (newAsyncLogPublisher.run steps).eventsOf := by
      rw [← hk]
      exact delivered_eq_map hord
    have hklt : k ≤ t.length := by
      rw [← hheap, List.length_map]
      by_contra hgt
      have hk0 : 0 < k := by omega
      have hmem : k - 1 ∈ sentBatches (newAsyncLogPublisher.run steps).log := by
        rw [hk, List.mem_range]
        omega
      have h1 := hord.sent_lt _ hmem
      have h2 := front_le_length hord.wf
      omega
    have htake : delivered (newAsyncLogPublisher.run steps).log = t.take k := by
      rw [hdel, ← hheap]
      apply List.ext_getElem?
      intro i
      rw [List.getElem?_map, List.getElem?_take, List.getElem?_map]
      by_cases hi : i < k
      · rw [List.getElem?_range hi, if_pos hi]
        simp only [Option.map_some', asyncLogPublisher.eventsOf]
        have hil : i < (newAsyncLogPublisher.run steps).heap.length := by
          rw [← hheap, List.length_map] at hklt
          omega
        rw [List.getElem?_eq_getElem hil]
        rfl
      · rw [if_neg hi, List.getElem?_eq_none (by simpa using Nat.le_of_not_lt hi)]
        rfl
    rw [htake]
    exact (List.take_prefix k t).trans hpre

/-- Claim C16 (reference behaviour of one pass).  In a well formed state whose
queued records are all in progress or completed, with the stopping flag clear
and `p.done` never winning a `select`, `collect` returns `true`; the records
it sends are the maximal leading run of completed records of the queue, in
queue order, and the batches delivered are their events; the queue afterwards
is the rest of the queue, in order; and a second pass right after it returns
`true` and changes nothing: it forwards nothing and leaves the queue as it
is. -/
theorem C16_pass_forwards_leading_successes (p : asyncLogPublisher) (hwf : WellFormed p)
    (hstop : p.stopping = false)
    (hflags : ∀ a ∈ p.queue, p.flagOf a = batchInProgress ∨ p.flagOf a = batchSuccess)
    (done : Nat → Bool) (hdone : ∀ b, done b = false) :
    (p.collect done).1 = Outcome.returned true ∧
    sentBatches (passLog done p) =
      p.queue.takeWhile (fun a => decide (p.flagOf a = batchSuccess)) ∧
    delivered (passLog done p) =
      (p.queue.takeWhile (fun a => decide (p.flagOf a = batchSuccess))).map p.eventsOf ∧
    (p.collect done).2.queue =
      p.queue.dropWhile (fun a => decide (p.flagOf a = batchSuccess)) ∧
    (p.collect done).2.collect done = (Outcome.returned true, (p.collect done).2) := by
  obtain ⟨hs, ho⟩ := collect_spec done p
  have ho := ho hwf
  have hn := collect_noCancel done hdone p hwf
  have hheap := hs.heap_eq
  have hfq := front_le_length ho.wf
  rw [hheap] at hfq
  -- the pass does not panic
  have hret : (p.collect done).1 = Outcome.returned true := by
    rcases hn.outcome with hp | hr
    · obtain ⟨i, hi, hfi⟩ := ho.panic_head hp
      have hlt := ho.wf.head_lt i hi
      rw [hheap] at hlt
      have hmem : i ∈ p.queue :=
        (mem_queue_iff hwf i).2 ⟨by rw [← front_of_head hi]; exact ho.front_le, hlt⟩
      rcases hflags i hmem with h | h <;> rw [h] at hfi <;> cases hfi
    · exact hr
  -- the stopping flag stays clear
  have hq : (p.collect done).2.stopping = false := by
    cases hqs : (p.collect done).2.stopping with
    | false => rfl
    | true =>
      rcases hn.stop_cause hqs with h | ⟨a, h1, h2, h3⟩
      · rw [hstop] at h; cases h
      · rcases hflags a ((mem_queue_iff hwf a).2 ⟨h1, h2⟩) with h | h <;>
          rw [h] at h3 <;> cases h3
  obtain ⟨k, hk, hfront⟩ := hn.sent_range hstop
  have hfront := hfront hq
  have hpend := hn.head_pending hret hq
  -- the queue splits into the records sent and the queue left
  have hsplit : p.queue = List.range' p.front k ++ (p.collect done).2.queue := by
    rw [queue_eq_range hwf, queue_eq_range ho.wf, hheap, ← hfront, List.range'_append_1]
    congr 1
    omega
  have hall : ∀ x ∈ List.range' p.front k,
      (fun a => decide (p.flagOf a = batchSuccess)) x = true := by
    intro x hx
    rw [List.mem_range'_1] at hx
    simp only [decide_eq_true_eq]
    exact ho.done_success hq x hx.1 (by omega)
  have hfirst : ∀ x, (p.collect done).2.queue.head? = some x →
      (fun a => decide (p.flagOf a = batchSuccess)) x = false := by
    intro x hx
    rw [queue_eq_range ho.wf, hheap] at hx
    have hlt : (p.collect done).2.front < p.heap.length := by
      by_contra hge
      have : p.heap.length - (p.collect done).2.front = 0 := by omega
      rw [this] at hx
      simp at hx
    have hx' : x = (p.collect done).2.front := by
      have : p.heap.length - (p.collect done).2.front =
          (p.heap.length - (p.collect done).2.front - 1) + 1 := by omega
      rw [this, List.range'_succ] at hx
      simpa using hx.symm
    cases hh : (p.collect done).2.active.head with
    | none =>
      have : (p.collect done).2.front = (p.collect done).2.heap.length := by
        simp [asyncLogPublisher.front, hh]
      rw [hheap] at this
      omega
    | some b =>
      have hb := front_of_head hh
      have := hpend b hh
      simp only [decide_eq_false_iff_not]
      rw [hx', hb, this]
      simp
  obtain ⟨ht, hd⟩ := takeWhile_dropWhile_split _ _ _ hall hfirst
  rw [← hsplit] at ht hd
  refine ⟨hret, ?_, ?_, hd.symm, ?_⟩
  · rw [ht, hk]
  · rw [ht, hn.delivered_eq, hk]
  · refine collect_idle done _ ho.wf hq ?_
    intro b hb
    rw [flagOf_congr hheap]
    exact hpend b hb

/-- Witness for C16: in `sampleSuccess` the first record is completed and the
second is in progress; the pass sends the first and leaves the second. -/
theorem C16_pass_forwards_leading_successes_witness :
    WellFormed sampleSuccess ∧ sampleSuccess.stopping = false ∧
    (∀ a ∈ sampleSuccess.queue,
      sampleSuccess.flagOf a = batchInProgress ∨ sampleSuccess.flagOf a = batchSuccess) ∧
    (∀ b, noCancel b = false) ∧
    delivered (passLog noCancel sampleSuccess) = [[⟨3, 1⟩]] ∧
    (sampleSuccess.collect noCancel).2.queue = [1] :=
  ⟨(Ordered.init.run _).wf, by decide, by decide, fun _ => rfl,
    (C16_pass_forwards_leading_successes sampleSuccess (Ordered.init.run _).wf (by decide)
      (by decide) noCancel (fun _ => rfl)).2.2.1.trans (by decide),
    (C16_pass_forwards_leading_successes sampleSuccess (Ordered.init.run _).wf (by decide)
      (by decide) noCancel (fun _ => rfl)).2.2.2.1.trans (by decide)⟩

/-- Counterexample to C17 as stated: with `maxAttempts = -1`, a bulk message
with one attempt left, two events sent and one reported as failed with an
error: the counter is decremented to `0` and then reset to `maxAttempts`, so
the message put back has the counter `-1`. -/
theorem C17_counterexample :
    0 ≤ (sampleMessage 2 1).attemptsLeft ∧
    requeued ((sampleWorker (-1)).handleResults (fun _ => true) (sampleMessage 2 1)
        [⟨⟨1, 1⟩⟩] (some (PublishError.other 1))) =
      some { sampleMessage 2 1 with attemptsLeft := -1, events := [⟨⟨1, 1⟩⟩] } ∧
    ¬ (∀ m, requeued ((sampleWorker (-1)).handleResults (fun _ => true) (sampleMessage 2 1)
        [⟨⟨1, 1⟩⟩] (some (PublishError.other 1))) = some m → 0 ≤ m.attemptsLeft) := by
  refine ⟨by decide, by decide, fun h => ?_⟩
  have := h { sampleMessage 2 1 with attemptsLeft := -1, events := [⟨⟨1, 1⟩⟩] } (by decide)
  exact absurd this (by decide)

/-- Bounds on the counter after the decrement of a single-event completion or
of `onMessage`. -/
theorem decrement_bounds (a : Int) :
    (0 ≤ a → 0 ≤ (if a > 0 then a - 1 else a) ∧ (if a > 0 then a - 1 else a) ≤ a) ∧
    (a < 0 → (if a > 0 then a - 1 else a) = a) := by
  constructor
  · intro h
    split_ifs <;> omega
  · intro h
    split_ifs <;> omega

/-- Bounds on the counter after the decrement and the reset of a bulk
completion with an error. -/
theorem attemptsAfter_bounds (w : asyncWorker) (msg : eventsMessage) (events : List MapStr) :
    (0 ≤ msg.attemptsLeft → 0 ≤ w.ctx.maxAttempts → 0 ≤ attemptsAfter w msg events) ∧
    (0 ≤ msg.attemptsLeft →
      attemptsAfter w msg events ≤ max msg.attemptsLeft w.ctx.maxAttempts) ∧
    (msg.attemptsLeft < 0 → attemptsAfter w msg events = msg.attemptsLeft) := by
  unfold attemptsAfter
  refine ⟨?_, ?_, ?_⟩
  · intro h hmax
    simp only
    split_ifs <;> omega
  · intro h
    simp only
    split_ifs <;> omega
  · intro h
    simp only
    split_ifs <;> omega

/-- The messages in the calls of a bulk completion: with an error the counter
is the counter after the decrement and the reset, without an error it is
unchanged. -/
theorem handleResults_message (w : asyncWorker) (tryPush : eventsMessage → Bool)
    (msg : eventsMessage) (events : List MapStr) (err : Option PublishError)
    (c : WorkerCall) (hc : c ∈ w.handleResults tryPush msg events err) (m : eventsMessage)
    (hm : c.message = some m) :
    (err ≠ none → m.attemptsLeft = attemptsAfter w msg events) ∧
    (err = none → m.attemptsLeft = msg.attemptsLeft) := by
  cases err with
  | none =>
    refine ⟨fun h => absurd rfl h, fun _ => ?_⟩
    unfold asyncWorker.handleResults at hc
    simp only at hc
    split_ifs at hc
    · rw [List.mem_singleton] at hc
      subst hc
      cases hm
      rfl
    · rw [List.mem_singleton] at hc
      subst hc
      cases hm
  | some e =>
    refine ⟨fun _ => ?_, fun h => by cases h⟩
    have hshape : w.handleResults tryPush msg events (some e) =
        w.onFail tryPush
          { msg with attemptsLeft := attemptsAfter w msg events, events := events } e ∨
        w.handleResults tryPush msg events (some e) =
          [WorkerCall.dropping { msg with attemptsLeft := attemptsAfter w msg events }] := by
      rw [handleResults_err_shape]
      split_ifs
      · exact Or.inl rfl
      · exact Or.inr rfl
      · exact Or.inl rfl
    rcases hshape with hs | hs
    · rw [hs] at hc
      rcases onFail_calls w tryPush _ e c hc with h | h <;>
        (subst h; cases hm; rfl)
    · rw [hs, List.mem_singleton] at hc
      subst hc
      cases hm
      rfl

/-- Claim C17, amended (bounds of the attempts counter).  For every message,
every completion and every message carried by a call of the callback: after a
single-event completion or in `onMessage`, a non-negative counter stays
non-negative and does not grow; after a bulk completion a non-negative counter
never exceeds the larger of its previous value and `maxAttempts`, and it stays
non-negative provided `maxAttempts` is not negative (a reset stores
`maxAttempts`, whatever its sign).  A negative counter is never changed, and a
message with a negative counter is never dropped by `handleResults`. -/
theorem C17_attempts_counter_bounds (w : asyncWorker) (tryPush : eventsMessage → Bool)
    (msg : eventsMessage) :
    (∀ err c m, c ∈ w.handleResult tryPush msg err → c.message = some m →
      (0 ≤ msg.attemptsLeft → 0 ≤ m.attemptsLeft ∧ m.attemptsLeft ≤ msg.attemptsLeft) ∧
      (msg.attemptsLeft < 0 → m.attemptsLeft = msg.attemptsLeft)) ∧
    (∀ err c m, c ∈ w.onMessage tryPush msg err → c.message = some m →
      (0 ≤ msg.attemptsLeft → 0 ≤ m.attemptsLeft ∧ m.attemptsLeft ≤ msg.attemptsLeft) ∧
      (msg.attemptsLeft < 0 → m.attemptsLeft = msg.attemptsLeft)) ∧
    (∀ events err c m, c ∈ w.handleResults tryPush msg events err → c.message = some m →
      (0 ≤ msg.attemptsLeft → 0 ≤ w.ctx.maxAttempts → 0 ≤ m.attemptsLeft) ∧
      (0 ≤ msg.attemptsLeft → m.attemptsLeft ≤ max msg.attemptsLeft w.ctx.maxAttempts) ∧
      (msg.attemptsLeft < 0 →
        m.attemptsLeft = msg.attemptsLeft ∧ ∀ m', c ≠ WorkerCall.dropping m')) := by
  have hdec := decrement_bounds msg.attemptsLeft
  refine ⟨?_, ?_, ?_⟩
  · intro err c m hc hm
    cases err with
    | none =>
      rw [show w.handleResult tryPush msg none = [WorkerCall.SigCompleted msg.signaler] from rfl,
        List.mem_singleton] at hc
      subst hc
      cases hm
    | some e =>
      have hs : w.handleResult tryPush msg (some e) =
          w.onFail tryPush
            { msg with attemptsLeft :=
                if msg.attemptsLeft > 0 then msg.attemptsLeft - 1 else msg.attemptsLeft } e := by
        unfold asyncWorker.handleResult
        by_cases h : msg.attemptsLeft > 0 <;> simp [h]
      rw [hs] at hc
      have := onFail_message w tryPush _ e c hc m hm
      subst this
      exact hdec
  · intro err c m hc hm
    cases err with
    | none =>
      rw [show w.onMessage tryPush msg none = [] from rfl] at hc
      cases hc
    | some e =>
      have hs : w.onMessage tryPush msg (some e) =
          w.onFail tryPush
            { msg with attemptsLeft :=
                if msg.attemptsLeft > 0 then msg.attemptsLeft - 1 else msg.attemptsLeft } e := by
        unfold asyncWorker.onMessage
        by_cases h : msg.attemptsLeft > 0 <;> simp [h]
      rw [hs] at hc
      have := onFail_message w tryPush _ e c hc m hm
      subst this
      exact hdec
  · intro events err c m hc hm
    obtain ⟨h1, h2⟩ := handleResults_message w tryPush msg events err c hc m hm
    obtain ⟨b1, b2, b3⟩ := attemptsAfter_bounds w msg events
    have hmax : msg.attemptsLeft ≤ max msg.attemptsLeft w.ctx.maxAttempts := le_max_left _ _
    cases err with
    | none =>
      have h := h2 rfl
      refine ⟨fun h0 _ => by rw [h]; exact h0, fun _ => by rw [h]; exact hmax,
        fun _ => ⟨h, ?_⟩⟩
      intro m' hd
      subst hd
      have := dropping_mem_handleResults w tryPush msg events none m' hc
      unfold asyncWorker.handleResults at hc
      simp only at hc
      split_ifs at hc <;> simp at hc
    | some e =>
      have h := h1 (by simp)
      refine ⟨fun h0 hm0 => by rw [h]; exact b1 h0 hm0, fun h0 => by rw [h]; exact b2 h0,
        fun hneg => ⟨by rw [h]; exact b3 hneg, ?_⟩⟩
      intro m' hd
      subst hd
      have h0 := dropping_mem_handleResults w tryPush msg events (some e) m' hc
      rw [b3 hneg] at h0
      omega

/-- Claim C18 (well-formedness of the in-flight list).  After every run from
the state of `newAsyncLogPublisher` (batches accepted and appended, signals,
passes of `collect` with any outcome of the `select`): `head` is nil if and
only if `tail` is nil; `tail` is the last record reachable from `head` through
the `next` links; the records reachable from `head` are exactly the allocated
records not yet unlinked, in submission order, and the allocated records hold
the batches submitted, in order; and accepting a further batch never fails, it
puts the new record at the end of the queue, so that after the queue has been
drained the new record is the head and the only record of the queue. -/
theorem C18_queue_well_formed (steps : List Step) :
    ((newAsyncLogPublisher.run steps).active.head = none ↔
      (newAsyncLogPublisher.run steps).active.tail = none) ∧
    (newAsyncLogPublisher.run steps).active.tail =
      (newAsyncLogPublisher.run steps).queue.getLast? ∧
    (newAsyncLogPublisher.run steps).queue.head? =
      (newAsyncLogPublisher.run steps).active.head ∧
    (newAsyncLogPublisher.run steps).queue =
      (List.range (newAsyncLogPublisher.run steps).heap.length).filter
        (fun a => decide (a ∉ unlinkedBatches (newAsyncLogPublisher.run steps).log)) ∧
    List.IsPrefix ((newAsyncLogPublisher.run steps).heap.map (·.events)) (submitted steps) ∧
    ∀ ev, ∃ q, (newAsyncLogPublisher.run steps).StartInput ev = some q ∧
      q.queue = (newAsyncLogPublisher.run steps).queue ++
        [(newAsyncLogPublisher.run steps).heap.length] ∧
      ((newAsyncLogPublisher.run steps).queue = [] →
        q.active.head = some (newAsyncLogPublisher.run steps).heap.length ∧
        q.queue = [(newAsyncLogPublisher.run steps).heap.length]) := by
  have hord := Ordered.init.run steps
  have hwf := hord.wf
  have hu := unlinked_run Ordered.init (by simp [newAsyncLogPublisher, unlinkedBatches,
    asyncLogPublisher.front]) steps
  obtain ⟨t, ht, hpre⟩ := run_submitted Ordered.init steps
  have hheap : (newAsyncLogPublisher.run steps).heap.map (·.events) = t := by
    simpa [newAsyncLogPublisher] using ht
  refine ⟨?_, tail_eq_getLast hwf, ?_, queue_eq_filter hwf hu, by rw [hheap]; exact hpre, ?_⟩
  · rw [hwf.tail_eq]
    constructor
    · intro h
      simp [h]
    · intro h
      by_contra hne
      simp [hne] at h
  · rw [queue_eq_range hwf]
    cases hh : (newAsyncLogPublisher.run steps).active.head with
    | none =>
      have : (newAsyncLogPublisher.run steps).front =
          (newAsyncLogPublisher.run steps).heap.length := by
        simp [asyncLogPublisher.front, hh]
      simp [this]
    | some b =>
      rw [range_front hwf hh]
      rfl
  · intro ev
    obtain ⟨q, hq, hacc⟩ := StartInput_spec hwf ev
    refine ⟨q, hq, hacc.queue_eq hwf, fun hempty => ?_⟩
    refine ⟨?_, by rw [hacc.queue_eq hwf, hempty]; rfl⟩
    rw [hacc.head_eq]
    congr 1
    have hf := front_le_length hwf
    by_contra hne
    have hlt : (newAsyncLogPublisher.run steps).front <
        (newAsyncLogPublisher.run steps).heap.length := by omega
    have := (mem_queue_iff hwf (newAsyncLogPublisher.run steps).front).2 ⟨Nat.le_refl _, hlt⟩
    rw [hempty] at this
    cases this
end Yapdnsbeat
